import Mathlib

/-!
# Verification of the textkit / pagination layout engine

Shallow embedding, in Lean 4, of the layout and pagination code of this
repository:

* `src/node_modules/@react-pdf/textkit/lib/textkit.js` — attributed strings,
  run algebra, the Knuth–Plass line breaker with its best-fit fallback, and
  the justification engine;
* the pagination engine (node splitting, orphan/widow handling, fixed-node
  replication and the page-splitting loop).

JavaScript numbers are modelled as rationals (`ℚ`), character offsets as
integers or naturals as appropriate, and strings as `List Char`.  External
collaborators (fonts / shaping, the Yoga geometry solver, dynamic render
callbacks) are taken as parameters, mirroring the system boundary described
by the design: the engine never inspects their internals.
-/

namespace Pagination

/-- JavaScript `x || d` for an optional natural-number prop: `undefined`
and `0` are both falsy, so they fall back to the default. -/
def jsOrNat (x : Option ℕ) (d : ℕ) : ℕ :=
  match x with
  | none => d
  | some n => if n = 0 then d else n

/-- Box geometry of a pagination node (`node.box` in `part_001`).  Only the
fields read or written by the splitting code are carried. -/
structure PBox where
  top : ℚ := 0
  height : ℚ := 0
  marginTop : ℚ := 0
  marginBottom : ℚ := 0
  borderTopWidth : ℚ := 0
  borderBottomWidth : ℚ := 0
  paddingTop : ℚ := 0
  paddingBottom : ℚ := 0
  deriving DecidableEq, Repr

/-- Style of a pagination node (`node.style`).  `height = none` models an
absent `style.height` (`hasFixedHeight` is `!isNil(node.style?.height)`). -/
structure PStyle where
  height : Option ℚ := none
  marginTop : ℚ := 0
  marginBottom : ℚ := 0
  paddingTop : ℚ := 0
  paddingBottom : ℚ := 0
  borderTopWidth : ℚ := 0
  borderBottomWidth : ℚ := 0
  borderTopLeftRadius : ℚ := 0
  borderTopRightRadius : ℚ := 0
  borderBottomLeftRadius : ℚ := 0
  borderBottomRightRadius : ℚ := 0
  deriving DecidableEq, Repr

/-- Props of a pagination node.  An `Option` field with value `none` models
a key that is absent from `node.props` (JS `'key' in node.props` is then
false).  A node without a `props` object at all is modelled by the record
with every field absent, which makes the `!node.props` guards of `isFixed`
and `getWrap` agree with the embedded definitions. -/
structure PProps where
  fixed : Option Bool := none
  wrap : Option Bool := none
  pageBreak : Option Bool := none
  widows : Option ℕ := none
  orphans : Option ℕ := none
  minPresenceAhead : Option ℚ := none
  hasRender : Bool := false
  bookmark : Option ℕ := none
  deriving DecidableEq, Repr

/-- Node types that matter to the splitting code: `P.Text` drives
`isText`, and `NON_WRAP_TYPES = [P.Svg, P.Note, P.Image, P.Canvas]`. -/
inductive NodeType where
  | text
  | view
  | image
  | svg
  | note
  | canvas
  | page
  deriving DecidableEq, Repr

/-- A laid-out text line as seen by pagination: only its box height is
consulted when splitting. -/
structure PLine where
  height : ℚ
  deriving DecidableEq, Repr

/-- A pagination box-tree node (the shape walked by `splitNodes`). -/
inductive PNode where
  | node (type : NodeType) (props : PProps) (style : PStyle) (box : PBox)
      (lines : List PLine) (children : List PNode)
  deriving Repr

def PNode.type : PNode → NodeType
  | .node t _ _ _ _ _ => t

def PNode.props : PNode → PProps
  | .node _ p _ _ _ _ => p

def PNode.style : PNode → PStyle
  | .node _ _ s _ _ _ => s

def PNode.box : PNode → PBox
  | .node _ _ _ b _ _ => b

def PNode.lines : PNode → List PLine
  | .node _ _ _ _ l _ => l

def PNode.children : PNode → List PNode
  | .node _ _ _ _ _ c => c

/-- `isFixed` (`part_001`, lines 1050–1054): true exactly when
`props.fixed === true`. -/
def isFixed (n : PNode) : Bool :=
  match n.props.fixed with
  | some v => v
  | none => false

/-- Helper of `lineIndexAtHeight`: walk the lines accumulating `y`,
returning the index of the first line that would cross `height`. -/
def lineIndexAtHeightAux (lines : List PLine) (y height : ℚ) (i : ℕ) : ℕ :=
  match lines with
  | [] => i
  | l :: rest =>
      if y + l.height > height then i
      else lineIndexAtHeightAux rest (y + l.height) height (i + 1)

/-- `lineIndexAtHeight` (`part_001`, lines 1062–1073). -/
def lineIndexAtHeight (n : PNode) (height : ℚ) : ℕ :=
  lineIndexAtHeightAux n.lines 0 height 0

/-- `heightAtLineIndex` (`part_001`, lines 1081–1092): total height of the
first `index` lines. -/
def heightAtLineIndex (n : PNode) (index : ℕ) : ℚ :=
  ((n.lines.take index).map (fun l => l.height)).sum

/-- `getLineBreak` (`part_001`, lines 1094–1116): the line index at which a
text node is cut, after applying the orphan/widow rules.  (JS `||` defaults
`widows`/`orphans` to 2 when absent or zero.)  Natural subtraction is safe:
`slicedLine ≤ linesQuantity` always holds (`lineIndexAtHeightAux` never
passes the end of the list), and `linesQuantity - widows` is only reached
when `linesQuantity > orphans + widows`. -/
def getLineBreak (n : PNode) (height : ℚ) : ℕ :=
  let top := n.box.top
  let widows := jsOrNat n.props.widows 2
  let orphans := jsOrNat n.props.orphans 2
  let linesQuantity := n.lines.length
  let slicedLine := lineIndexAtHeight n (height - top)
  if slicedLine = 0 then 0
  else if linesQuantity < orphans then linesQuantity
  else if slicedLine < orphans ∨ linesQuantity < orphans + widows then 0
  else if linesQuantity = orphans + widows then orphans
  else if linesQuantity - slicedLine < widows then linesQuantity - widows
  else slicedLine

/-- `splitText` (`part_001`, lines 1118–1156): cut a text node at the
computed line break; the first component keeps `lines.take index`, the
second receives `lines.drop index`, with the box heights and the
margin/padding/border bookkeeping of the source. -/
def splitText (n : PNode) (height : ℚ) : PNode × PNode :=
  let slicedLineIndex := getLineBreak n height
  let currentHeight := heightAtLineIndex n slicedLineIndex
  let nextHeight := n.box.height - currentHeight
  let current : PNode := .node n.type n.props
    { n.style with
      marginBottom := 0
      paddingBottom := 0
      borderBottomWidth := 0
      borderBottomLeftRadius := 0
      borderBottomRightRadius := 0 }
    { n.box with
      height := currentHeight
      borderBottomWidth := 0 }
    (n.lines.take slicedLineIndex) n.children
  let next : PNode := .node n.type n.props
    { n.style with
      marginTop := 0
      paddingTop := 0
      borderTopWidth := 0
      borderTopLeftRadius := 0
      borderTopRightRadius := 0 }
    { n.box with
      top := 0
      height := nextHeight
      borderTopWidth := 0 }
    (n.lines.drop slicedLineIndex) n.children
  (current, next)

/-- Concrete five-line text node for the orphan/widow scenario: each line
is 10 units tall, `orphans = widows = 2`. -/
def fiveLineNode : PNode :=
  .node .text { widows := some 2, orphans := some 2 } {} { height := 50 }
    [⟨10⟩, ⟨10⟩, ⟨10⟩, ⟨10⟩, ⟨10⟩] []

/-- `getTop` (`part_001`): `node.box?.top || 0`; the box is always present
in this model and `|| 0` is the identity on numbers. -/
def getTop (n : PNode) : ℚ := n.box.top

/-- `getWrap` (`part_001`, lines 1204–1210): nodes of the `NON_WRAP_TYPES`
(`Svg`, `Note`, `Image`, `Canvas`) never wrap; otherwise `props.wrap`
defaults to `true`. -/
def getWrap (n : PNode) : Bool :=
  if n.type = .svg ∨ n.type = .note ∨ n.type = .image ∨ n.type = .canvas then
    false
  else
    match n.props.wrap with
    | some w => w
    | none => true

/-- `getBreak` (`part_001`, line 1299): `props.break`, defaulting to
`false` when the key is absent. -/
def getBreak (n : PNode) : Bool := n.props.pageBreak.getD false

/-- `getMinPresenceAhead` (`part_001`, line 1300). -/
def getMinPresenceAhead (n : PNode) : ℚ := n.props.minPresenceAhead.getD 0

/-- `getFurthestEnd` (`part_001`, line 1301): `Math.max` over the element
ends; on an empty list JS yields `-Infinity`, modelled by `⊥` in
`WithBot ℚ`. -/
def getFurthestEnd (elements : List PNode) : WithBot ℚ :=
  elements.foldr
    (fun n acc => max ((n.box.top + n.box.height : ℚ) : WithBot ℚ) acc) ⊥

/-- `getEndOfMinPresenceAhead` (`part_001`, lines 1302–1307). -/
def getEndOfMinPresenceAhead (child : PNode) : ℚ :=
  child.box.top + child.box.height + child.box.marginBottom +
    getMinPresenceAhead child

/-- `getEndOfPresence` (`part_001`, lines 1308–1312): the minimum of the
min-presence-ahead end and the furthest end of the non-fixed future
elements (key presence, not value, is tested by the filter). -/
def getEndOfPresence (child : PNode) (futureElements : List PNode) : WithBot ℚ :=
  min ((getEndOfMinPresenceAhead child : ℚ) : WithBot ℚ)
    (getFurthestEnd (futureElements.filter (fun n => n.props.fixed.isNone)))

/-- `shouldBreak` (`part_001`, lines 1313–1326).  Note the guard tests
`'fixed' in child.props` (key presence), not `isFixed`. -/
def shouldBreakNode (child : PNode) (futureElements : List PNode) (height : ℚ) :
    Bool :=
  if child.props.fixed.isSome then false
  else
    let shouldSplit := height < child.box.top + child.box.height
    let canWrap := getWrap child
    let endOfPresence := getEndOfPresence child futureElements
    let breakingImprovesPresence := child.box.top > child.box.marginTop
    getBreak child ∨ (shouldSplit ∧ ¬canWrap) ∨
      (¬shouldSplit ∧ (↑height < endOfPresence) ∧ breakingImprovesPresence)

/-- `splitNode` (`part_001`, lines 1160–1201): split a non-text node's own
box at `height`.  The `if (nextHeight)` guard of the source treats both
`null` and `0` as falsy. -/
def splitNode (n : PNode) (height : ℚ) : PNode × PNode :=
  let nodeTop := getTop n
  let currentStyle : PStyle :=
    { n.style with
      marginBottom := 0
      paddingBottom := 0
      borderBottomWidth := 0
      borderBottomLeftRadius := 0
      borderBottomRightRadius := 0
      height := some (height - nodeTop) }
  let current : PNode := .node n.type n.props currentStyle
    { n.box with borderBottomWidth := 0 } n.lines n.children
  let nextHeight : Option ℚ :=
    if n.style.height.isSome then some (n.box.height - (height - nodeTop))
    else none
  let nextStyle : PStyle :=
    { n.style with
      marginTop := 0
      paddingTop := 0
      borderTopWidth := 0
      borderTopLeftRadius := 0
      borderTopRightRadius := 0 }
  let nextStyle :=
    match nextHeight with
    | some h => if h = 0 then nextStyle else { nextStyle with height := some h }
    | none => nextStyle
  let next : PNode := .node n.type n.props nextStyle
    { n.box with top := 0, borderTopWidth := 0 } n.lines n.children
  (current, next)

/-- `assingChildren` (`part_001`, line 2548; the source spells it so). -/
def assingChildren (children : List PNode) (n : PNode) : PNode :=
  .node n.type n.props n.style n.box n.lines children

/-- `allFixed` (`part_001`, line 2550). -/
def allFixed (nodes : List PNode) : Bool := nodes.all isFixed

/-- `isDynamic` (`part_001`, line 2551): `'render' in node.props`. -/
def isDynamic (n : PNode) : Bool := n.props.hasRender

/-- `isText` (`part_001`, line 2545): `node.type === P.Text`. -/
def isText (n : PNode) : Bool := n.type = .text

theorem sizeOf_children_lt (n : PNode) : sizeOf n.children < sizeOf n := by
  obtain ⟨t, p, s, b, l, c⟩ := n
  simp [PNode.children]

mutual

/-- Loop body of `splitNodes` (`part_001`, lines 2556–2626) with the two
`push` targets made explicit accumulators (`curAcc`/`nextAcc` mirror the
`currentChildren`/`nextChildren` arrays; a `break` in the source returns
immediately with the remaining nodes appended as the source's spread
pushes do).  `SAFETY_THRESHOLD = 0.001`. -/
def splitNodesGo (height contentArea : ℚ) (curAcc nextAcc : List PNode)
    (nodes : List PNode) : List PNode × List PNode :=
  match nodes with
  | [] => (curAcc, nextAcc)
  | child :: futureNodes =>
      let futureFixedNodes := futureNodes.filter isFixed
      let nodeTop := getTop child
      let nodeHeight := child.box.height
      let isOutside := height ≤ nodeTop
      let sb := shouldBreakNode child futureNodes height
      let shouldSplit := height + 1 / 1000 < nodeTop + nodeHeight
      let canWrap := getWrap child
      let fitsInsidePage := nodeHeight ≤ contentArea
      if isFixed child then
        splitNodesGo height contentArea (curAcc ++ [child]) (nextAcc ++ [child])
          futureNodes
      else if isOutside then
        let nxt : PNode := .node child.type child.props child.style
          { child.box with top := child.box.top - height } child.lines
          child.children
        splitNodesGo height contentArea curAcc (nextAcc ++ [nxt]) futureNodes
      else if ¬fitsInsidePage ∧ ¬canWrap then
        (curAcc ++ [child], nextAcc ++ futureNodes)
      else if sb then
        let nxt : PNode := .node child.type
          { child.props with wrap := some true, pageBreak := some false }
          child.style { child.box with top := child.box.top - height }
          child.lines child.children
        (curAcc ++ futureFixedNodes, nextAcc ++ nxt :: futureNodes)
      else if shouldSplit then
        let pair := split child height contentArea
        if child.children.length > 0 ∧ pair.1.children.length = 0 then
          if curAcc.length = 0 then
            (curAcc ++ child :: futureFixedNodes, nextAcc ++ futureNodes)
          else
            let nxt : PNode := .node child.type child.props child.style
              { child.box with top := child.box.top - height } child.lines
              child.children
            (curAcc ++ futureFixedNodes, nextAcc ++ nxt :: futureNodes)
        else
          splitNodesGo height contentArea (curAcc ++ [pair.1])
            (nextAcc ++ [pair.2]) futureNodes
      else
        splitNodesGo height contentArea (curAcc ++ [child]) nextAcc futureNodes
termination_by 4 * sizeOf nodes
decreasing_by
  all_goals simp_wf
  all_goals omega

/-- `split` (`part_001`, line 2640). -/
def split (n : PNode) (height contentArea : ℚ) : PNode × PNode :=
  if isText n then splitText n height else splitView n height contentArea
termination_by 4 * sizeOf n + 3
decreasing_by
  simp_wf
  try omega

/-- `splitView` (`part_001`, lines 2632–2639). -/
def splitView (n : PNode) (height contentArea : ℚ) : PNode × PNode :=
  let nodes := splitNode n height
  let childs := splitChildren height contentArea n
  (assingChildren childs.1 nodes.1, assingChildren childs.2 nodes.2)
termination_by 4 * sizeOf n + 2
decreasing_by
  simp_wf
  try omega

/-- `splitChildren` (`part_001`, lines 2627–2631). -/
def splitChildren (height contentArea : ℚ) (n : PNode) :
    List PNode × List PNode :=
  splitNodesGo (height - getTop n) contentArea [] [] n.children
termination_by 4 * sizeOf n + 1
decreasing_by
  simp_wf
  have := sizeOf_children_lt n
  omega

end

/-- `splitNodes` (`part_001`, lines 2556–2626): the loop entry point with
empty accumulators. -/
def splitNodes (height contentArea : ℚ) (nodes : List PNode) :
    List PNode × List PNode :=
  splitNodesGo height contentArea [] [] nodes

/-- JavaScript `a || b` for rationals: `0` is falsy. -/
def jsOrQ (a b : ℚ) : ℚ := if a = 0 then b else a

/-- Top padding per `getPadding` (`part_001`, lines 1222–1241).  Without a
live Yoga node (`getComputedPadding` returns `null` outside the external
geometry stage) the chain `box?.paddingTop || style?.paddingTop || 0`
remains. -/
def paddingTopOf (n : PNode) : ℚ := jsOrQ n.box.paddingTop (jsOrQ n.style.paddingTop 0)

/-- Bottom padding per `getPadding` (`part_001`, lines 1222–1241). -/
def paddingBottomOf (n : PNode) : ℚ :=
  jsOrQ n.box.paddingBottom (jsOrQ n.style.paddingBottom 0)

/-- `getWrapArea` (`part_001`, lines 1243–1247).  Pages reaching this code
carry a resolved `style.height`; an absent height is read as 0. -/
def getWrapArea (page : PNode) : ℚ := page.style.height.getD 0 - paddingBottomOf page

/-- `getContentArea` (`part_001`, lines 1249–1253). -/
def getContentArea (page : PNode) : ℚ :=
  page.style.height.getD 0 - paddingBottomOf page - paddingTopOf page

mutual

/-- `shouldResolveDynamicNodes` (`part_001`, lines 2641–2644). -/
def shouldResolveDynamicNodes (n : PNode) : Bool :=
  isDynamic n || anyDynamic n.children
termination_by 2 * sizeOf n + 1
decreasing_by
  have := sizeOf_children_lt n
  simp_wf
  omega

/-- `children.some(shouldResolveDynamicNodes)` of the source, as a list
recursion. -/
def anyDynamic (nodes : List PNode) : Bool :=
  match nodes with
  | [] => false
  | c :: rest => shouldResolveDynamicNodes c || anyDynamic rest
termination_by 2 * sizeOf nodes
decreasing_by
  all_goals simp_wf
  all_goals omega

end

/-- `resolveDynamicPage` (`part_001`, lines 2666–2672).  The render
callbacks (`resolveDynamicNodes`) and the relayout pipeline
(`relayoutPage`, which runs the external Yoga solver and the text
typesetter) are external collaborators, passed as the function parameters
`resolveDynNodes` and `relayout`. -/
def resolveDynamicPage (resolveDynNodes : ℕ → PNode → PNode)
    (relayout : PNode → PNode) (pageNumber : ℕ) (page : PNode) : PNode :=
  if shouldResolveDynamicNodes page then relayout (resolveDynNodes pageNumber page)
  else page

/-- `splitPage` (`part_001`, lines 2673–2694).  `omit('height', page.box)`
removes a key that only the external relayout stage reads back; the
removed key is modelled as the field reset to 0. -/
def splitPage (resolveDynNodes : ℕ → PNode → PNode) (relayout : PNode → PNode)
    (page : PNode) (pageNumber : ℕ) : PNode × Option PNode :=
  let wrapArea := getWrapArea page
  let contentArea := getContentArea page
  let dynamicPage := resolveDynamicPage resolveDynNodes relayout pageNumber page
  let height := page.style.height.getD 0
  let pair := splitNodes wrapArea contentArea dynamicPage.children
  let currentBox : PBox := { page.box with height := height }
  let currentPage :=
    relayout (.node page.type page.props page.style currentBox page.lines pair.1)
  if pair.2.length = 0 ∨ allFixed pair.2 then (currentPage, none)
  else
    let nextProps : PProps := { page.props with bookmark := none }
    let nextBox : PBox := { page.box with height := 0 }
    let nextPage :=
      relayout (.node page.type nextProps page.style nextBox page.lines pair.2)
    (currentPage, some nextPage)

/-- While-loop of `paginate` (`part_001`, lines 2720–2727), fuel-bounded:
each iteration splits the pending continuation page; the source loop runs
unboundedly, so `fuel` bounds the number of continuation pages taken. -/
def paginateGo (resolveDynNodes : ℕ → PNode → PNode) (relayout : PNode → PNode)
    (fuel pageNumber : ℕ) (page : PNode) : List PNode :=
  let pair := splitPage resolveDynNodes relayout page pageNumber
  match pair.2 with
  | none => [pair.1]
  | some np =>
      match fuel with
      | 0 => [pair.1]
      | Nat.succ fuel2 =>
          pair.1 :: paginateGo resolveDynNodes relayout fuel2 (pageNumber + 1) np

/-- `paginate` (`part_001`, lines 2715–2729).  The `!page` null guard is
dropped (callers pass a page); `props.wrap === false` short-circuits. -/
def paginate (resolveDynNodes : ℕ → PNode → PNode) (relayout : PNode → PNode)
    (fuel : ℕ) (page : PNode) (pageNumber : ℕ) : List PNode :=
  if page.props.wrap = some false then [page]
  else paginateGo resolveDynNodes relayout fuel pageNumber page

end Pagination

namespace Textkit

/-- A shaped glyph as the engine sees it (`textkit.js`): an id, the code
points it covers, its advance width in font units, and the ligature/mark
flags.  Glyph objects come from the external shaping collaborator; the
engine only reads these fields. -/
structure Glyph where
  gid : ℤ := 0
  codePoints : List ℤ := []
  advanceWidth : ℚ := 0
  isLigature : Bool := false
  isMark : Bool := false
  deriving DecidableEq, Repr

/-- A glyph position (`{xAdvance, yAdvance, xOffset, yOffset}`). -/
structure Pos where
  xAdvance : ℚ := 0
  yAdvance : ℚ := 0
  xOffset : ℚ := 0
  yOffset : ℚ := 0
  deriving DecidableEq, Repr

/-- The run attribute fields the embedded functions read (`attributes.font`
is an array of font handles; fonts themselves are external).  Attribute
maps also carry arbitrary other keys, which none of the embedded functions
inspect. -/
structure Attrs where
  font : List ℕ := []
  fontSize : Option ℚ := none
  scaleVal : Option ℚ := none
  deriving DecidableEq, Repr

/-- A run: a half-open character range plus attributes and shaped-glyph
data (`end` is a reserved word in Lean, so the field is `endPos`). -/
structure Run (α : Type) where
  start : ℤ
  endPos : ℤ
  attributes : α
  glyphIndices : List ℤ := []
  glyphs : List Glyph := []
  positions : List Pos := []
  deriving DecidableEq, Repr

/-- A rectangle (`line.box`). -/
structure Rect where
  x : ℚ := 0
  y : ℚ := 0
  width : ℚ := 0
  height : ℚ := 0
  deriving DecidableEq, Repr

/-- The part of a laid-out line that the justification engine reads and
writes: its runs and its box.  (The source line also carries its string
and decoration fields, which justification passes through untouched.) -/
structure Line (α : Type) where
  runs : List (Run α)
  box : Rect
  deriving DecidableEq, Repr

/-- `advanceWidth` over a position list (`textkit.js`, lines 1219–1221):
`acc + (pos.xAdvance || 0)`; `|| 0` is the identity on numbers. -/
def advanceWidthPositions (positions : List Pos) : ℚ :=
  positions.foldl (fun acc p => acc + p.xAdvance) 0

/-- `advanceWidth$1` over a run (`textkit.js`, lines 1229–1231). -/
def advanceWidthRun (r : Run α) : ℚ := advanceWidthPositions r.positions

/-- `advanceWidth` of an attributed string / line (`textkit.js`,
lines 1239–1242). -/
def advanceWidthLine (line : Line α) : ℚ :=
  line.runs.foldl (fun acc r => acc + advanceWidthRun r) 0

/-- `isWhiteSpace` (`textkit.js`, lines 1251–1254):
`glyph.codePoints.includes(32)`. -/
def isWhiteSpace (g : Glyph) : Bool := (32 : ℤ) ∈ g.codePoints

/-- A justification factor (`{before, after, priority, unconstrained}`). -/
structure Factor where
  before : ℚ
  after : ℚ
  priority : ℕ
  unconstrained : Bool
  deriving DecidableEq, Repr

/-- Partial factor override from the layout options
(`options.expandCharFactor` etc. are merged over the defaults by
`Object.assign`). -/
structure FactorOverride where
  before : Option ℚ := none
  after : Option ℚ := none
  priority : Option ℕ := none
  unconstrained : Option Bool := none
  deriving DecidableEq, Repr

/-- `Object.assign({}, base, override)` on a factor. -/
def applyOverride (base : Factor) (o : FactorOverride) : Factor :=
  { before := o.before.getD base.before
    after := o.after.getD base.after
    priority := o.priority.getD base.priority
    unconstrained := o.unconstrained.getD base.unconstrained }

/-- Justification-relevant layout options. -/
structure JustificationOptions where
  expandCharFactor : FactorOverride := {}
  shrinkCharFactor : FactorOverride := {}
  expandWhitespaceFactor : FactorOverride := {}
  shrinkWhitespaceFactor : FactorOverride := {}
  deriving DecidableEq, Repr

/-- `Direction` (`textkit.js`, lines 2431–2435). -/
inductive Direction where
  | grow
  | shrink
  deriving DecidableEq, Repr

/-- `KASHIDA_PRIORITY = 0`. -/
def KASHIDA_PRIORITY : ℕ := 0

/-- `WHITESPACE_PRIORITY = 1`. -/
def WHITESPACE_PRIORITY : ℕ := 1

/-- `LETTER_PRIORITY = 2`. -/
def LETTER_PRIORITY : ℕ := 2

/-- `NULL_PRIORITY = 3`. -/
def NULL_PRIORITY : ℕ := 3

/-- `EXPAND_WHITESPACE_FACTOR` (`textkit.js`, lines 2438–2443). -/
def EXPAND_WHITESPACE_FACTOR : Factor :=
  ⟨1 / 2, 1 / 2, WHITESPACE_PRIORITY, false⟩

/-- `EXPAND_CHAR_FACTOR` (37/256, lines 2444–2449). -/
def EXPAND_CHAR_FACTOR : Factor :=
  ⟨37 / 256, 37 / 256, LETTER_PRIORITY, false⟩

/-- `SHRINK_WHITESPACE_FACTOR` (−11/256, lines 2450–2455). -/
def SHRINK_WHITESPACE_FACTOR : Factor :=
  ⟨-11 / 256, -11 / 256, WHITESPACE_PRIORITY, false⟩

/-- `SHRINK_CHAR_FACTOR` (−11/256, lines 2456–2461). -/
def SHRINK_CHAR_FACTOR : Factor :=
  ⟨-11 / 256, -11 / 256, LETTER_PRIORITY, false⟩

/-- `getCharFactor` (`textkit.js`, lines 2462–2468). -/
def getCharFactor (direction : Direction) (options : JustificationOptions) : Factor :=
  match direction with
  | .grow => applyOverride EXPAND_CHAR_FACTOR options.expandCharFactor
  | .shrink => applyOverride SHRINK_CHAR_FACTOR options.shrinkCharFactor

/-- `getWhitespaceFactor` (`textkit.js`, lines 2469–2475). -/
def getWhitespaceFactor (direction : Direction) (options : JustificationOptions) :
    Factor :=
  match direction with
  | .grow => applyOverride EXPAND_WHITESPACE_FACTOR options.expandWhitespaceFactor
  | .shrink => applyOverride SHRINK_WHITESPACE_FACTOR options.shrinkWhitespaceFactor

/-- Loop body of `factor` (`textkit.js`, lines 2476–2503).  The reversed
accumulator is the factor list built so far; its length is the current
loop index, and its head the previous glyph's factor (which the source
mutates for trailing whitespace and marks). -/
def factorGo (charFactor whitespaceFactor : Factor) (total : ℕ) :
    List Glyph → List Factor → List Factor
  | [], acc => acc.reverse
  | glyph :: rest, acc =>
      if isWhiteSpace glyph then
        if acc.length = total - 1 then
          let f := { whitespaceFactor with before := 0 }
          match acc with
          | prev :: tail =>
              factorGo charFactor whitespaceFactor total rest
                (f :: { prev with after := 0 } :: tail)
          | [] => factorGo charFactor whitespaceFactor total rest [f]
        else
          factorGo charFactor whitespaceFactor total rest (whitespaceFactor :: acc)
      else
        match acc with
        | prev :: tail =>
            if glyph.isMark then
              factorGo charFactor whitespaceFactor total rest
                ({ prev with before := 0 } :: { prev with after := 0 } :: tail)
            else
              factorGo charFactor whitespaceFactor total rest (charFactor :: acc)
        | [] => factorGo charFactor whitespaceFactor total rest (charFactor :: acc)

/-- `factor` (`textkit.js`, lines 2476–2503). -/
def factorList (direction : Direction) (options : JustificationOptions)
    (glyphs : List Glyph) : List Factor :=
  factorGo (getCharFactor direction options) (getWhitespaceFactor direction options)
    glyphs.length glyphs []

/-- Replace the last element of a factor list (the source's
`factors[factors.length - 1].after = 0`). -/
def modifyLast (f : Factor → Factor) : List Factor → List Factor
  | [] => []
  | [x] => [f x]
  | x :: y :: rest => x :: modifyLast f (y :: rest)

/-- `getFactors` (`textkit.js`, lines 2504–2513).  On a line with no
glyphs the source dereferences `factors[0]` and throws; the embedding
returns `[]` there (that path is unreachable for shaped lines). -/
def getFactors (gap : ℚ) (line : Line α) (options : JustificationOptions) :
    List Factor :=
  let direction := if gap > 0 then Direction.grow else Direction.shrink
  let factors :=
    line.runs.foldl (fun acc run => acc ++ factorList direction options run.glyphs) []
  let factors :=
    match factors with
    | [] => []
    | f :: rest => { f with before := 0 } :: rest
  modifyLast (fun f => { f with after := 0 }) factors

/-- State returned by the priority-distribution loop of `getDistances`:
the mutated `priorities`/`unconstrained` arrays, the remaining gap, the
highest-priority bookkeeping, and the loop variable's exit value (the
break position, or 4 on natural exit). -/
structure DistLoopOut where
  priorities : List ℚ
  unconstrained : List ℚ
  remainingGap : ℚ
  highestPriority : ℤ
  highestPrioritySum : ℚ
  exitPriority : ℕ
  deriving DecidableEq, Repr

/-- The `for (priority = KASHIDA_PRIORITY; priority <= NULL_PRIORITY; ...)`
loop of `getDistances` (`textkit.js`, lines 2539–2564), over the list of
priorities still to visit. -/
def distLoop (priorities unconstrained : List ℚ) (remainingGap : ℚ)
    (highestPriority : ℤ) (highestPrioritySum : ℚ) : List ℕ → DistLoopOut
  | [] =>
      ⟨priorities, unconstrained, remainingGap, highestPriority,
        highestPrioritySum, 4⟩
  | pr :: rest =>
      let prioritySum := priorities.getD pr 0
      if prioritySum ≠ 0 then
        let hp : ℤ := if highestPriority = -1 then (pr : ℤ) else highestPriority
        let hps := if highestPriority = -1 then prioritySum else highestPrioritySum
        if |remainingGap| ≤ |prioritySum| then
          ⟨priorities.set pr (remainingGap / prioritySum), unconstrained.set pr 0,
            0, hp, hps, pr⟩
        else
          let priorities2 := priorities.set pr 1
          let remainingGap2 := remainingGap - prioritySum
          if unconstrained.getD pr 0 ≠ 0 then
            ⟨priorities2,
              unconstrained.set pr (remainingGap2 / unconstrained.getD pr 0),
              0, hp, hps, pr⟩
          else
            distLoop priorities2 unconstrained remainingGap2 hp hps rest
      else
        distLoop priorities unconstrained remainingGap highestPriority
          highestPrioritySum rest

/-- One iteration of the factor-summing loop of `getDistances`
(`textkit.js`, lines 2525–2533): add the factor's weight to the running
total and to its priority bucket (and the unconstrained bucket when
flagged). -/
def sumFactorsStep (acc : ℚ × List ℚ × List ℚ) (f : Factor) : ℚ × List ℚ × List ℚ :=
  let s := f.before + f.after
  let ps := acc.2.1.set f.priority (acc.2.1.getD f.priority 0 + s)
  let us :=
    if f.unconstrained then acc.2.2.set f.priority (acc.2.2.getD f.priority 0 + s)
    else acc.2.2
  (acc.1 + s, ps, us)

/-- First phase of `getDistances` (`textkit.js`, lines 2518–2533): sum the
factors at each priority, tracking the grand total and the unconstrained
sums. -/
def sumFactors (factors : List Factor) : ℚ × List ℚ × List ℚ :=
  factors.foldl sumFactorsStep (0, [0, 0, 0, 0], [0, 0, 0, 0])

/-- Walk an array zeroing the entries whose index exceeds the exit index
(the `for (p = priority + 1; p <= NULL_PRIORITY; ...)` cleanup loop). -/
def zeroAfterGo (exitPriority i : ℕ) : List ℚ → List ℚ
  | [] => []
  | x :: rest => (if exitPriority < i then 0 else x) :: zeroAfterGo exitPriority (i + 1) rest

/-- Zero out the array entries after the loop's exit index (`textkit.js`,
lines 2566–2569). -/
def zeroAfter (exitPriority : ℕ) (l : List ℚ) : List ℚ :=
  zeroAfterGo exitPriority 0 l

/-- Per-glyph distances from the final multiplier arrays (`textkit.js`,
lines 2577–2595): each glyph receives its own `after` share plus the next
glyph's `before` share, with unconstrained shares added for unconstrained
factors. -/
def distancesFrom (P U : List ℚ) : List Factor → List ℚ
  | [] => []
  | f :: rest =>
      let dist := f.after * P.getD f.priority 0 +
        (match rest.head? with
         | some nf => nf.before * P.getD nf.priority 0
         | none => 0)
      let dist :=
        if f.unconstrained then
          dist + f.after * U.getD f.priority 0 +
            (match rest.head? with
             | some nf => nf.before * U.getD nf.priority 0
             | none => 0)
        else dist
      dist :: distancesFrom P U rest

/-- `getDistances` (`textkit.js`, lines 2517–2597). -/
def getDistances (gap : ℚ) (factors : List Factor) : List ℚ :=
  let tpu := sumFactors factors
  let out := distLoop tpu.2.1 tpu.2.2 gap (-1) 0 [0, 1, 2, 3]
  let priorities1 := zeroAfter out.exitPriority out.priorities
  let unconstrained1 := zeroAfter out.exitPriority out.unconstrained
  let priorities2 :=
    if out.remainingGap > 0 ∧ out.highestPriority > -1 then
      priorities1.set out.highestPriority.toNat
        ((out.highestPrioritySum + (gap - tpu.1)) / out.highestPrioritySum)
    else priorities1
  distancesFrom priorities2 unconstrained1 factors

/-- Walk the runs adding `distances[index++]` to each position's
`xAdvance` (`justifyLine`, `textkit.js`, lines 2606–2614).  The global
index is threaded as `index`; positions beyond the distance list receive
0 (the source would add `undefined` there, which is unreachable for
factor lists built from the same glyphs). -/
def justifyRuns (distances : List ℚ) (index : ℕ) : List (Run α) → List (Run α)
  | [] => []
  | r :: rest =>
      let newPositions := r.positions.enum.map
        (fun p => { p.2 with xAdvance := p.2.xAdvance + distances.getD (index + p.1) 0 })
      { r with positions := newPositions } ::
        justifyRuns distances (index + r.positions.length) rest

/-- `justifyLine` (`textkit.js`, lines 2606–2614). -/
def justifyLine (distances : List ℚ) (line : Line α) : Line α :=
  { line with runs := justifyRuns distances 0 line.runs }

/-- `justification` (`textkit.js`, lines 2622–2635): exact fits are
returned unchanged; otherwise the gap is distributed over the glyphs. -/
def justification (options : JustificationOptions) (line : Line α) : Line α :=
  let gap := line.box.width - advanceWidthLine line
  if gap = 0 then line
  else justifyLine (getDistances gap (getFactors gap line options)) line

/-- Proof-side abbreviation: the summed weight of the factors at one
priority (what `getDistances` accumulates into `priorities[p]`). -/
def prioSum (factors : List Factor) (p : ℕ) : ℚ :=
  ((factors.filter (fun f => f.priority = p)).map (fun f => f.before + f.after)).sum

/-- Proof-side abbreviation: the grand total of the factor weights (the
`total` variable of `getDistances`). -/
def totalSum (factors : List Factor) : ℚ :=
  (factors.map (fun f => f.before + f.after)).sum

/-- Proof-side abbreviation: sum of `n` distance entries starting at
index `idx` (what one run's positions consume in `justifyLine`). -/
def sumGetD (d : List ℚ) (idx n : ℕ) : ℚ :=
  ((List.range n).map (fun j => d.getD (idx + j) 0)).sum

/-- Proof-side abbreviation: the well-formedness of factors produced by
the default expand/shrink tables: constrained, priority in range, and
sign-consistent weights for a growing line. -/
def GrowFactorOK (f : Factor) : Prop :=
  f.unconstrained = false ∧ f.priority < 4 ∧ 0 ≤ f.before ∧ 0 ≤ f.after

/-- Proof-side specification of the priority-distribution loop: the
unconstrained array stays zero, untouched entries keep their sums, and
the loop either runs to natural exit (every visited bucket consumed, gap
still positive, multipliers 1 on the non-zero buckets) or breaks with the
visited buckets absorbing exactly the incoming remaining gap. -/
def DistLoopSpec (prs : List ℕ) (P : List ℚ) (rem : ℚ) (hi : ℤ) (his : ℚ)
    (out : DistLoopOut) : Prop :=
  out.unconstrained = [0, 0, 0, 0] ∧
  out.priorities.length = 4 ∧
  (∀ q, q ∉ prs → out.priorities.getD q 0 = P.getD q 0) ∧
  ((out.exitPriority = 4 ∧
    out.remainingGap = rem - (prs.map (fun p => P.getD p 0)).sum ∧
    0 < out.remainingGap ∧
    (∀ p ∈ prs, out.priorities.getD p 0 = if P.getD p 0 = 0 then 0 else 1) ∧
    ((hi = -1 ∧ (∀ p ∈ prs, P.getD p 0 = 0) ∧ out.highestPriority = -1 ∧
        out.highestPrioritySum = his) ∨
     (hi = -1 ∧ ∃ h ∈ prs, out.highestPriority = (h : ℤ) ∧
        out.highestPrioritySum = P.getD h 0 ∧ P.getD h 0 ≠ 0) ∨
     (hi ≠ -1 ∧ out.highestPriority = hi ∧ out.highestPrioritySum = his))) ∨
   (out.remainingGap = 0 ∧ out.exitPriority ∈ prs ∧
    (prs.map (fun p =>
      (if out.exitPriority < p then 0 else out.priorities.getD p 0) *
        P.getD p 0)).sum = rem))

/-- Proof-side abbreviation: total number of glyph positions in a run
list (the number of `distances` entries `justifyLine` consumes). -/
def posCount (runs : List (Run α)) : ℕ :=
  (runs.map (fun r => r.positions.length)).sum

/-- Concrete two-glyph line that is narrower than its box (gap 10). -/
def growLine : Line Attrs :=
  { runs := [{ start := 0, endPos := 2, attributes := {},
               glyphIndices := [0, 1],
               glyphs := [{ gid := 97, codePoints := [97] },
                          { gid := 98, codePoints := [98] }],
               positions := [{ xAdvance := 10 }, { xAdvance := 10 }] }]
    box := { width := 30 } }

/-- Concrete two-glyph line that is wider than its box (gap −5). -/
def shrinkLine : Line Attrs :=
  { runs := [{ start := 0, endPos := 2, attributes := {},
               glyphIndices := [0, 1],
               glyphs := [{ gid := 97, codePoints := [97] },
                          { gid := 98, codePoints := [98] }],
               positions := [{ xAdvance := 10 }, { xAdvance := 10 }] }]
    box := { width := 15 } }

/-- `empty$1` (`textkit.js`, lines 374–383): the empty run. -/
def emptyRun : Run Attrs := { start := 0, endPos := 0, attributes := {} }

/-- An attributed string as `append` reads it (`textkit.js`, lines
478–486): the text plus its shaped runs. -/
structure TAttrString where
  string : List Char
  runs : List (Run Attrs)
  deriving DecidableEq, Repr

/-- The empty attributed string (`{string: '', runs: []}`). -/
def emptyTAS : TAttrString := ⟨[], []⟩

/-- JS `x || d` over an optional number: missing and `0` are falsy. -/
def jsOrOptQ (x : Option ℚ) (d : ℚ) : ℚ :=
  match x with
  | none => d
  | some v => if v = 0 then d else v

/-- `calculateScale` (`textkit.js`, lines 128–135):
`fontSize / unitsPerEm` when the first font handle has a units-per-em
value, else `0`.  Font objects are external, so the units-per-em lookup
is a parameter. -/
def calculateScale (upem : ℕ → Option ℚ) (r : Run Attrs) : ℚ :=
  let fontSize := jsOrOptQ r.attributes.fontSize 12
  match r.attributes.font.head? with
  | none => 0
  | some f =>
      match upem f with
      | none => 0
      | some u => if u = 0 then 0 else fontSize / u

/-- `scale` (`textkit.js`, lines 142–144):
`run.attributes?.scale || calculateScale(run)`. -/
def scaleOf (upem : ℕ → Option ℚ) (r : Run Attrs) : ℚ :=
  match r.attributes.scaleVal with
  | none => calculateScale upem r
  | some v => if v = 0 then calculateScale upem r else v

/-- `appendIndices` (`textkit.js`, lines 404–409): extend the indices
with `length` copies of `last + 1` (`0` when empty). -/
def appendIndices (len : ℕ) (indices : List ℤ) : List ℤ :=
  indices ++ List.replicate len
    (match indices.getLast? with
     | none => 0
     | some v => v + 1)

/-- `appendGlyph` (`textkit.js`, lines 431–446).  Position lists are
always present in the embedding, so the `!run.positions` early return is
the same as the general path. -/
def appendGlyph (upem : ℕ → Option ℚ) (g : Glyph) (r : Run Attrs) : Run Attrs :=
  { r with endPos := r.endPos + g.codePoints.length
           glyphs := r.glyphs ++ [g]
           glyphIndices := appendIndices g.codePoints.length r.glyphIndices
           positions := r.positions ++ [{ xAdvance := g.advanceWidth * scaleOf upem r }] }

/-- `append$1` (`textkit.js`, lines 453–459).  The code-point branch
calls `fromCodePoint`, which needs an external font, so values are glyph
objects; `none` models the falsy input returned unchanged. -/
def appendRun (upem : ℕ → Option ℚ) (v : Option Glyph) (r : Run Attrs) : Run Attrs :=
  match v with
  | none => r
  | some g => appendGlyph upem g r

/-- `String.fromCodePoint` over code points (`stringFromCodePoints`,
`textkit.js`, lines 466–468). -/
def cpString (cps : List ℤ) : List Char :=
  cps.map (fun n => Char.ofNat n.toNat)

/-- `append` of a glyph into the last run of an attributed string
(`textkit.js`, lines 478–486); when there is no run, the glyph lands in
a fresh empty run. -/
def appendAS (upem : ℕ → Option ℚ) (v : Option Glyph) (a : TAttrString) :
    TAttrString :=
  { string := a.string ++ cpString (match v with
      | none => []
      | some g => g.codePoints)
    runs := a.runs.dropLast ++
      [appendRun upem v (match a.runs.getLast? with
        | none => emptyRun
        | some r => r)] }

/-- Concrete one-code-point glyph (`'a'`). -/
def glyphA : Glyph := { gid := 97, codePoints := [97] }

end Textkit

namespace Pagination

/-- Concrete page whose single child is a fixed header. -/
def fixedOnlyPage : PNode :=
  .node .page {} { height := some 100 } {} []
    [.node .view { fixed := some true } {} { height := 10 } [] []]

/-- Concrete oversized non-wrapping child followed by a fixed header. -/
def bigUnwrappable : PNode := .node .image {} {} { height := 80 } [] []

/-- Concrete fixed header node. -/
def fixedHeader : PNode := .node .view { fixed := some true } {} { height := 10 } [] []

end Pagination

namespace AS

/-- `Array.prototype.slice` / `String.prototype.slice` semantics
(negative indices count from the end, both ends clamped to `[0, length]`),
used by `filter`, `sliceRuns` and `slice` (`textkit.js`, lines 294–348). -/
def jsSlice (s e : ℤ) (l : List α) : List α :=
  let n : ℤ := l.length
  let s1 := if s < 0 then max (n + s) 0 else min s n
  let e1 := if e < 0 then max (n + e) 0 else min e n
  (l.drop s1.toNat).take (e1 - s1).toNat

/-- A run of an attributed string before shaping: its character range and
its attributes (`end` is reserved in Lean, so the field is `endPos`).
Attribute maps carry arbitrary keys merged by `Object.assign`, so the
attribute type is a parameter.  The glyph arrays (`glyphs`, `positions`,
`glyphIndices`) are absent/empty before shaping; on empty glyph arrays the
ligature machinery of `slice$1` (`textkit.js`, lines 234–268) degenerates:
`glyphIndexAt` returns the index itself, `offset` returns 0, `slice$2`
returns `[]` for a missing glyph, and all three sliced arrays are empty,
so only the `start`/`end` update remains (see `sliceRun`). -/
structure ASRun (α : Type) where
  start : ℤ
  endPos : ℤ
  attributes : α
  deriving DecidableEq, Repr

/-- An attributed string: its text and its runs (`{string, runs}`). -/
structure AttrString (α : Type) where
  string : List Char
  runs : List (ASRun α)
  deriving DecidableEq, Repr

/-- `length` of a run (`textkit.js`, lines 2184–2186): `run.end - run.start`. -/
def runLength (r : ASRun α) : ℤ := r.endPos - r.start

/-- `subtract` (`textkit.js`, lines 305–310): shift a run's range down by
`index`. -/
def subtractRun (index : ℤ) (r : ASRun α) : ASRun α :=
  { r with start := r.start - index, endPos := r.endPos - index }

/-- `runIndexAt$1` (`textkit.js`, lines 277–281): index of the run whose
half-open range contains `index`, `-1` if none. -/
def runIndexAt (index : ℤ) (runs : List (ASRun α)) : ℤ :=
  match runs.findIdx? (fun r => decide (r.start ≤ index ∧ index < r.endPos)) with
  | some i => i
  | none => -1

/-- `filter` (`textkit.js`, lines 292–296): the runs overlapping
`[start, end)`, via `runs.slice(startIndex, endIndex + 1)`. -/
def filterRuns (s e : ℤ) (runs : List (ASRun α)) : List (ASRun α) :=
  jsSlice (runIndexAt s runs) (max (runIndexAt (e - 1) runs) (runIndexAt s runs) + 1) runs

/-- `slice$1` (`textkit.js`, lines 234–268) on an unshaped run (see
`ASRun`): `{start: run.start + start, end: Math.min(run.end, run.start + end)}`,
with the glyph arrays staying empty. -/
def sliceRun (s e : ℤ) (r : ASRun α) : ASRun α :=
  { r with start := r.start + s, endPos := min r.endPos (r.start + e) }

/-- `sliceRuns` (`textkit.js`, lines 319–332): the first filtered run is
sliced from `start`, the last (when distinct from the first) is sliced up
to `end`, and every run is then shifted down by `start`. -/
def sliceRuns (s e : ℤ) (runs : List (ASRun α)) : List (ASRun α) :=
  runs.enum.map (fun p =>
    let result :=
      if p.1 = 0 then sliceRun (s - p.2.start) (e - p.2.start) p.2
      else if p.1 = runs.length - 1 then sliceRun 0 (e - p.2.start) p.2
      else p.2
    subtractRun s result)

/-- `slice` (`textkit.js`, lines 341–348): an empty attributed string is
returned unchanged; otherwise the text is sliced and the overlapping runs
are filtered, sliced and re-based. -/
def sliceAS (s e : ℤ) (a : AttrString α) : AttrString α :=
  if a.string.length = 0 then a
  else { string := jsSlice s e a.string
         runs := sliceRuns s e (filterRuns s e a.runs) }

/-- `concat` of two runs (`textkit.js`, lines 2195–2211) on unshaped runs:
the result keeps `runA`'s start, extends its end by `runB`'s length, and
merges the attribute maps with `Object.assign` semantics (modelled by the
`merge` parameter, since attribute maps carry arbitrary keys); the glyph
arrays stay empty (`[].concat([]) = []`, `normalize([]) = []`). -/
def concatRun (merge : α → α → α) (runA runB : ASRun α) : ASRun α :=
  { runA with endPos := runA.endPos + runLength runB
              attributes := merge runA.attributes runB.attributes }

/-- Modelled from the spec: the source has no attributed-string-level
`concat` (only the run-level one above), so the claim's
`concat(slice(0,i,s), slice(i,j,s))` is modelled from the spec's words as
the natural attributed-string concatenation — texts appended, and the
second string's runs re-based past the first string. -/
def concatAS (a b : AttrString α) : AttrString α :=
  { string := a.string ++ b.string
    runs := a.runs ++ b.runs.map (fun r =>
      { r with start := r.start + (a.string.length : ℤ)
               endPos := r.endPos + (a.string.length : ℤ) }) }

/-- A single-run attributed string over its whole text. -/
def singleRunAS (cs : List Char) (v : α) : AttrString α :=
  ⟨cs, [⟨0, cs.length, v⟩]⟩

/-- Concrete 3-character, single-run attributed string. -/
def exampleAS : AttrString Unit := ⟨['a', 'b', 'c'], [⟨0, 3, ()⟩]⟩

/-- The empty attributed string (`{string: '', runs: []}`). -/
def emptyAS : AttrString α := ⟨[], []⟩

/-- `findCharIndex` (`textkit.js`, lines 350–352): index of the first
non-whitespace character via `string.search(/\S/g)`, `-1` if none.  The
regex whitespace class is a parameter. -/
def findCharIndex (isSpace : Char → Bool) (s : List Char) : ℤ :=
  match s.findIdx? (fun c => !isSpace c) with
  | some i => i
  | none => -1

/-- `findLastCharIndex` (`textkit.js`, lines 353–356): index of the last
non-whitespace character (`lastIndexOf` of the final `/\S/g` match),
`-1` if none. -/
def findLastCharIndex (isSpace : Char → Bool) (s : List Char) : ℤ :=
  match s.reverse.findIdx? (fun c => !isSpace c) with
  | some i => (s.length : ℤ) - 1 - i
  | none => -1

/-- `trim` (`textkit.js`, lines 363–367): slice from the first to the
last non-whitespace character. -/
def trimAS (isSpace : Char → Bool) (a : AttrString α) : AttrString α :=
  sliceAS (findCharIndex isSpace a.string)
    (findLastCharIndex isSpace a.string + 1) a

end AS

namespace Flatten

open AS (ASRun)

/-- The comparator of `sort` (`textkit.js`, lines 1024–1026):
`a.start - b.start || a.end - b.end` as a total preorder. -/
def runLE (a b : ASRun α) : Prop :=
  a.start < b.start ∨ (a.start = b.start ∧ a.endPos ≤ b.endPos)

instance : DecidableRel (runLE (α := α)) := fun a b => by
  unfold runLE
  infer_instance

/-- `sort` (`textkit.js`, lines 1024–1026).  `Array.prototype.sort` is
stable, so any stable sorting algorithm is a faithful model; insertion
sort is one. -/
def sortRuns (runs : List (ASRun α)) : List (ASRun α) :=
  List.insertionSort runLE runs

/-- Proof-side strict version of `runLE` (the comparator on runs with
distinct `(start, end)` keys). -/
def runLT (a b : ASRun α) : Prop :=
  a.start < b.start ∨ (a.start = b.start ∧ a.endPos < b.endPos)

/-- The kind tag of a sweep point (`'start'` / `'end'`). -/
inductive PtKind
  | start
  | stop
  deriving DecidableEq, Repr

/-- A sweep point of `generatePoints` (`textkit.js`, lines 1051–1059):
`[type, offset, attributes, runIndex]`.  The run index models JS object
identity of the attribute objects: within one call the points of run `i`
share one attributes object, and distinct runs hold distinct objects, so
the `stack[j] === attributes` test of `flattenRegularRuns` compares run
indices. -/
structure Point (α : Type) where
  kind : PtKind
  offset : ℤ
  attrs : α
  idx : ℕ
  deriving DecidableEq, Repr

/-- `sortPoints` (`textkit.js`, lines 1044–1046):
`a[1] - b[1] || a[3] - b[3]` as a total preorder. -/
def ptLE (a b : Point α) : Prop :=
  a.offset < b.offset ∨ (a.offset = b.offset ∧ a.idx ≤ b.idx)

instance : DecidableRel (ptLE (α := α)) := fun a b => by
  unfold ptLE
  infer_instance

/-- The unsorted point list of `generatePoints` (`textkit.js`, lines
1051–1058): each run contributes a start point and an end point tagged
with its index. -/
def runPoints (runs : List (ASRun α)) : List (Point α) :=
  (runs.enum.map (fun p =>
    [Point.mk .start p.2.start p.2.attributes p.1,
     Point.mk .stop p.2.endPos p.2.attributes p.1])).flatten

/-- `generatePoints` (`textkit.js`, lines 1051–1059). -/
def generatePoints (runs : List (ASRun α)) : List (Point α) :=
  List.insertionSort ptLE (runPoints runs)

/-- The sweep loop of `flattenRegularRuns` (`textkit.js`, lines
1099–1129): `st` is the `start` variable (sentinel `-1`), `attrs` the
accumulated attributes, `stack` the open-run stack of (identity, attrs)
pairs.  A start point pushes its attributes and merges them in; an end
point removes its own entries from the stack (identity comparison, see
`Point`) and re-merges the remaining stack entries over `{}`.  A run is
emitted before each point when `start !== -1 && start < offset`. -/
def sweepGo (merge : α → α → α) (empty : α) :
    List (Point α) → ℤ → α → List (ℕ × α) → List (ASRun α)
  | [], _, _, _ => []
  | p :: rest, st, attrs, stack =>
      (if st ≠ -1 ∧ st < p.offset then [⟨st, p.offset, attrs⟩] else []) ++
        (match p.kind with
         | .start =>
             sweepGo merge empty rest p.offset (merge attrs p.attrs)
               (stack ++ [(p.idx, p.attrs)])
         | .stop =>
             let stack2 := stack.filter (fun e => e.1 ≠ p.idx)
             sweepGo merge empty rest p.offset
               (stack2.foldl (fun a e => merge a e.2) empty) stack2)

/-- `flattenRegularRuns` (`textkit.js`, lines 1097–1130). -/
def flattenRegularRuns (merge : α → α → α) (empty : α)
    (runs : List (ASRun α)) : List (ASRun α) :=
  sweepGo merge empty (generatePoints runs) (-1) empty []

/-- `mergeRuns` (`textkit.js`, lines 1064–1069) on a non-empty group:
the reduce starts from `{}`, whose missing `attributes` key makes the
first step copy the first run unchanged; each later step takes that
run's fields and merges the accumulated attributes under its own. -/
def mergeRuns (merge : α → α → α) (r0 : ASRun α) (rest : List (ASRun α)) :
    ASRun α :=
  rest.foldl (fun acc x => { x with attributes := merge acc.attributes x.attributes }) r0

/-- `groupEmptyRuns` (`textkit.js`, lines 1074–1082): runs are bucketed
into an array indexed by `run.start` and the buckets read back with
`Object.values`, i.e. in ascending index order (non-negative integer
keys; the pipeline's offsets are non-negative).  Each bucket keeps the
original run order. -/
def groupEmptyRuns (runs : List (ASRun α)) : List (List (ASRun α)) :=
  (List.insertionSort (· ≤ ·) (runs.map (fun r => r.start)).dedup).map
    (fun s => runs.filter (fun r => decide (r.start = s)))

/-- The merge of one group: `mergeRuns` on its head and tail.  The `[]`
branch is unreachable (every group holds at least the run that created
its bucket; JS would yield `{}` there). -/
def mergeGroup (merge : α → α → α) (empty : α) : List (ASRun α) → ASRun α
  | [] => ⟨0, 0, empty⟩
  | r :: rest => mergeRuns merge r rest

/-- `flattenEmptyRuns` (`textkit.js`, lines 1087–1089). -/
def flattenEmptyRuns (merge : α → α → α) (empty : α)
    (runs : List (ASRun α)) : List (ASRun α) :=
  (groupEmptyRuns runs).map (mergeGroup merge empty)

/-- `flatten` (`textkit.js`, lines 1137–1141): empty runs
(`start === end`, `isEmpty`, lines 1034–1036) are merged by start, the
rest swept, and the concatenation sorted. -/
def flatten (merge : α → α → α) (empty : α) (runs : List (ASRun α)) :
    List (ASRun α) :=
  sortRuns
    (flattenEmptyRuns merge empty
        (runs.filter (fun r => decide (r.start = r.endPos))) ++
      flattenRegularRuns merge empty
        (runs.filter (fun r => !decide (r.start = r.endPos))))

/-- Proof-side: the link between an emitted run and its successor in the
sweep output: they touch, or the sweep's `start` variable hit the `-1`
sentinel in between (then the successor lies at or after `-1`). -/
def chainOK (r1 r2 : ASRun α) : Prop :=
  r1.endPos = r2.start ∨ (r1.endPos = -1 ∧ -1 ≤ r2.start)

/-- Proof-side: the canonical shape of sweep output — every run is
non-degenerate with a non-sentinel start, and consecutive runs are
linked. -/
def Canon (l : List (ASRun α)) : Prop :=
  (∀ r ∈ l, r.start ≠ -1 ∧ r.start < r.endPos) ∧ l.Chain' chainOK

/-- Proof-side: the `(start, end)` sort key of a run. -/
def key (r : ASRun α) : ℤ × ℤ := (r.start, r.endPos)

/-- Proof-side: the interleaved point list of a canonical run list with
indices from `k` — what `generatePoints` yields on it. -/
def interleave (k : ℕ) : List (ASRun α) → List (Point α)
  | [] => []
  | r :: rest =>
      Point.mk .start r.start r.attributes k ::
        Point.mk .stop r.endPos r.attributes k :: interleave (k + 1) rest

/-- Concrete run list exercising `flatten`: two overlapping regular runs
and an empty run (attributes are naturals merged by right bias). -/
def sampleRuns : List (ASRun ℕ) := [⟨0, 5, 1⟩, ⟨2, 3, 2⟩, ⟨4, 4, 3⟩]

instance : IsTrans (ASRun α) runLE :=
  ⟨fun _ _ _ h1 h2 => by
    unfold runLE at *
    omega⟩

instance : IsTotal (ASRun α) runLE :=
  ⟨fun _ _ => by
    unfold runLE
    omega⟩

instance : IsTrans (ASRun α) runLT :=
  ⟨fun _ _ _ h1 h2 => by
    unfold runLT at *
    omega⟩

instance : IsAntisymm (ASRun α) runLT :=
  ⟨fun _ _ h1 h2 => by
    unfold runLT at *
    omega⟩

instance : IsTrans (Point α) ptLE :=
  ⟨fun _ _ _ h1 h2 => by
    unfold ptLE at *
    omega⟩

instance : IsTotal (Point α) ptLE :=
  ⟨fun _ _ => by
    unfold ptLE
    omega⟩

end Flatten

namespace LB

open AS (AttrString)

/-- A Knuth–Plass stream node (`linebreak.box` / `linebreak.glue` /
`linebreak.penalty`, `textkit.js`, lines 2144–2164): boxes are words,
glue is inter-word space, penalties are break opportunities.  `flagged`
is the numeric flag (`1`/`0`) used multiplicatively in the demerits. -/
inductive LBNode where
  | box (width : ℚ) (start endPos : ℤ) (hyphenated : Bool)
  | glue (width : ℚ) (start endPos : ℤ) (stretch shrink : ℚ)
  | penalty (width penalty : ℚ) (flagged : ℚ)
  deriving DecidableEq, Repr

instance : Inhabited LBNode := ⟨.penalty 0 0 0⟩

/-- `linebreak.infinity = 10000` (`textkit.js`, line 2143) and the
`INFINITY` constant of the best-fit pass (line 1683). -/
def INF : ℚ := 10000

def isBox : LBNode → Bool
  | .box _ _ _ _ => true
  | _ => false

def isGlue : LBNode → Bool
  | .glue _ _ _ _ _ => true
  | _ => false

def isPenalty : LBNode → Bool
  | .penalty _ _ _ => true
  | _ => false

def nodeWidth : LBNode → ℚ
  | .box w _ _ _ => w
  | .glue w _ _ _ _ => w
  | .penalty w _ _ => w

/-- `node.end`; a penalty carries none in JS (`undefined`), `0` here —
the uses below never read it off a penalty. -/
def nodeEnd : LBNode → ℤ
  | .box _ _ e _ => e
  | .glue _ _ e _ _ => e
  | .penalty _ _ _ => 0

def penaltyVal : LBNode → ℚ
  | .penalty _ p _ => p
  | _ => 0

def flaggedVal : LBNode → ℚ
  | .penalty _ _ f => f
  | _ => 0

/-- The running `{width, stretch, shrink}` totals. -/
structure Sums where
  width : ℚ
  stretch : ℚ
  shrink : ℚ
  deriving DecidableEq, Repr

/-- A breakpoint record (`breakpoint`, `textkit.js`, lines 1903–1917):
position, demerits, line, fitness class, the running totals at the
break, and the chain to the previous breakpoint. -/
inductive BP where
  | mk (position : ℕ) (demerits : ℚ) (line : ℕ) (fitnessClass : ℕ)
      (width stretch shrink : ℚ) (previous : Option BP)
  deriving Repr

def BP.position : BP → ℕ
  | .mk p _ _ _ _ _ _ _ => p

def BP.demerits : BP → ℚ
  | .mk _ d _ _ _ _ _ _ => d

def BP.line : BP → ℕ
  | .mk _ _ l _ _ _ _ _ => l

def BP.fitnessClass : BP → ℕ
  | .mk _ _ _ c _ _ _ _ => c

def BP.width : BP → ℚ
  | .mk _ _ _ _ w _ _ _ => w

def BP.stretch : BP → ℚ
  | .mk _ _ _ _ _ s _ _ => s

def BP.shrink : BP → ℚ
  | .mk _ _ _ _ _ _ s _ => s

def BP.previous : BP → Option BP
  | .mk _ _ _ _ _ _ _ p => p

/-- The loop body of `computeSum` (`textkit.js`, lines 1947–1966):
accumulate glue from the break point up to the next box or forced
penalty (the forced penalty only breaks past the break point itself). -/
def computeSumGo (start : ℕ) : List LBNode → ℕ → Sums → Sums
  | [], _, acc => acc
  | n :: rest, i, acc =>
      match n with
      | .glue w _ _ st sh =>
          computeSumGo start rest (i + 1)
            ⟨acc.width + w, acc.stretch + st, acc.shrink + sh⟩
      | .box _ _ _ _ => acc
      | .penalty _ p _ =>
          if p = -INF ∧ start < i then acc
          else computeSumGo start rest (i + 1) acc

/-- `computeSum` (`textkit.js`, lines 1947–1966). -/
def computeSum (nodes : List LBNode) (sum : Sums) (idx : ℕ) : Sums :=
  computeSumGo idx (nodes.drop idx) idx sum

/-- The line length lookup of `computeCost` (`textkit.js`, lines
1922–1926): the current line's width, or the last one past the end of
the widths array; `none` models the `undefined` read off an empty
array, with which both comparisons below are false. -/
def lineLengthAt (widths : List ℚ) (currentLine : ℕ) : Option ℚ :=
  if currentLine < widths.length then widths[currentLine - 1]?
  else widths[widths.length - 1]?

/-- `computeCost` (`textkit.js`, lines 1918–1946), with the active
node's totals passed as `aw`/`ast`/`ash`. -/
def computeCost (nodes : List LBNode) (widths : List ℚ) (sum : Sums)
    (endIdx : ℕ) (aw ast ash : ℚ) (currentLine : ℕ) : ℚ :=
  let width0 := sum.width - aw
  let width :=
    if isPenalty (nodes.getD endIdx default) then
      width0 + nodeWidth (nodes.getD endIdx default)
    else width0
  match lineLengthAt widths currentLine with
  | none => 0
  | some lineLength =>
      if width < lineLength then
        if sum.stretch - ast > 0 then (lineLength - width) / (sum.stretch - ast)
        else INF
      else if width > lineLength then
        if sum.shrink - ash > 0 then (lineLength - width) / (sum.shrink - ash)
        else INF
      else 0

/-- The fitness class of a ratio (`textkit.js`, lines 2093–2105). -/
def fitClass (rat : ℚ) : ℕ :=
  if rat < -(1 / 2) then 0
  else if rat ≤ 1 / 2 then 1
  else if rat ≤ 1 then 2
  else 3

/-- The demerits of a candidate (`textkit.js`, lines 2066–2115):
badness plus penalty terms, the flagged-penalty demerit, the fitness
demerit, and the active node's own demerits
(`options.demerits = {line: 10, flagged: 100, fitness: 3000}`). -/
def demeritsOf (node prevNode : LBNode) (rat : ℚ) (activeFC : ℕ)
    (activeDem : ℚ) : ℚ :=
  let badness := 100 * |rat| ^ 3
  let base :=
    if isPenalty node ∧ penaltyVal node ≥ 0 then
      (10 + badness) ^ 2 + penaltyVal node ^ 2
    else if isPenalty node ∧ penaltyVal node ≠ -INF then
      (10 + badness) ^ 2 - penaltyVal node ^ 2
    else (10 + badness) ^ 2
  let base2 :=
    if isPenalty node ∧ isPenalty prevNode then
      base + 100 * flaggedVal node * flaggedVal prevNode
    else base
  let base3 :=
    if 1 < |(fitClass rat : ℤ) - (activeFC : ℤ)| then base2 + 3000 else base2
  base3 + activeDem

/-- Update the per-fitness-class candidate slots (`textkit.js`, lines
2110–2115): keep the strictly best demerits per class; `none` is the
initial `Infinity` slot. -/
def updateCand (cands : List (Option (BP × ℚ))) (cls : ℕ) (a : BP)
    (dem : ℚ) : List (Option (BP × ℚ)) :=
  match cands.getD cls none with
  | none => cands.set cls (some (a, dem))
  | some c => if dem < c.2 then cands.set cls (some (a, dem)) else cands

/-- Turn the candidate slots into new breakpoint records (`textkit.js`,
lines 2117–2130), in fitness-class order. -/
def flushCands (idx : ℕ) (t : Sums) (cands : List (Option (BP × ℚ))) :
    List BP :=
  cands.enum.filterMap (fun p =>
    p.2.map (fun c =>
      BP.mk idx c.2 (c.1.line + 1) p.1 t.width t.stretch t.shrink (some c.1)))

/-- The body of `mainLoop` (`textkit.js`, lines 2026–2131) as a
recursion over the active list (sorted by line): each active is costed,
deactivated when the ratio drops below `-1` or the node is a forced
break, and admitted as a candidate when `-1 ≤ ratio ≤ tolerance`; at
each line-group boundary (next active's line reaches `currentLine`) the
candidate slots are flushed into new breakpoints inserted before the
remaining actives, with fresh slots for the next group. -/
def mainGo (nodes : List LBNode) (widths : List ℚ) (tol : ℚ)
    (node : LBNode) (idx : ℕ) (sum : Sums) (tmp : Sums) :
    List BP → List (Option (BP × ℚ)) → List BP
  | [], cands => flushCands idx tmp cands
  | a :: rest, cands =>
      let currentLine := a.line + 1
      let rat := computeCost nodes widths sum idx a.width a.stretch a.shrink
        currentLine
      let removed : Bool :=
        decide (rat < -1) || (isPenalty node && decide (penaltyVal node = -INF))
      let cands2 :=
        if -1 ≤ rat ∧ rat ≤ tol then
          updateCand cands (fitClass rat) a
            (demeritsOf node (nodes.getD a.position default) rat
              a.fitnessClass a.demerits)
        else cands
      let keep : List BP := if removed then [] else [a]
      match rest with
      | [] => keep ++ flushCands idx tmp cands2
      | b :: _ =>
          if b.line < currentLine then
            keep ++ mainGo nodes widths tol node idx sum tmp rest cands2
          else
            keep ++ flushCands idx tmp cands2 ++
              mainGo nodes widths tol node idx sum tmp rest
                (List.replicate 4 none)

/-- `mainLoop` (`textkit.js`, lines 2026–2131). -/
def mainLoop (nodes : List LBNode) (widths : List ℚ) (tol : ℚ)
    (node : LBNode) (idx : ℕ) (sum : Sums) (actives : List BP) : List BP :=
  mainGo nodes widths tol node idx sum (computeSum nodes sum idx) actives
    (List.replicate 4 none)

/-- The `nodes.forEach` driver of `linebreak` (`textkit.js`, lines
2132–2148): boxes accumulate width, glue after a box and non-forced
penalties run `mainLoop`, glue then accumulates its triple. -/
def lbGo (nodes : List LBNode) (widths : List ℚ) (tol : ℚ) :
    List LBNode → ℕ → Sums → List BP → List BP
  | [], _, _, actives => actives
  | n :: rest, i, sum, actives =>
      match n with
      | .box w _ _ _ =>
          lbGo nodes widths tol rest (i + 1)
            ⟨sum.width + w, sum.stretch, sum.shrink⟩ actives
      | .glue w _ _ st sh =>
          let actives2 :=
            if 0 < i ∧ isBox (nodes.getD (i - 1) default) then
              mainLoop nodes widths tol n i sum actives
            else actives
          lbGo nodes widths tol rest (i + 1)
            ⟨sum.width + w, sum.stretch + st, sum.shrink + sh⟩ actives2
      | .penalty _ p _ =>
          if p ≠ INF then
            lbGo nodes widths tol rest (i + 1) sum
              (mainLoop nodes widths tol n i sum actives)
          else lbGo nodes widths tol rest (i + 1) sum actives

/-- The minimum-demerits active of `findBestBreakpoints` (`textkit.js`,
lines 1967–1985): first strict minimum in traversal order. -/
def bestActive (actives : List BP) : Option BP :=
  actives.foldl (fun best n =>
    match best with
    | none => some n
    | some b => if n.demerits < b.demerits then some n else some b) none

/-- The position chain of a breakpoint, newest first. -/
def chainPositions : BP → List ℕ
  | .mk pos _ _ _ _ _ _ prev =>
      pos ::
        (match prev with
         | none => []
         | some p => chainPositions p)

/-- `findBestBreakpoints` (`textkit.js`, lines 1967–1985). -/
def findBestBreakpoints (actives : List BP) : List ℕ :=
  match actives with
  | [] => []
  | _ =>
      match bestActive actives with
      | none => []
      | some b => (chainPositions b).reverse

/-- `linebreak` (`textkit.js`, lines 1996–2142): run the main loop over
the stream starting from the root breakpoint and read off the best
chain. -/
def linebreak (nodes : List LBNode) (widths : List ℚ) (tol : ℚ) : List ℕ :=
  findBestBreakpoints
    (lbGo nodes widths tol nodes 0 ⟨0, 0, 0⟩ [BP.mk 0 0 0 0 0 0 0 none])

/-- The ratio of the best-fit pass (`calculateRatio`, `textkit.js`,
lines 1689–1707): only glue with a non-zero stretch/shrink yields a
finite ratio, computed against the running sums; `none` line length
(`undefined` off an empty widths array) makes both comparisons false. -/
def calcRatio (ll : Option ℚ) (sum : Sums) : LBNode → ℚ := fun n =>
  match ll with
  | none => 0
  | some L =>
      if sum.width < L then
        match n with
        | .glue _ _ _ st _ =>
            if st = 0 then INF
            else if sum.stretch - st > 0 then (L - sum.width) / sum.stretch
            else INF
        | _ => INF
      else if sum.width > L then
        match n with
        | .glue _ _ _ _ sh =>
            if sh = 0 then INF
            else if sum.shrink - sh > 0 then (L - sum.width) / sum.shrink
            else INF
        | _ => INF
      else 0

/-- The overflow test `sum.width - sum.shrink > lineLength`
(`textkit.js`, line 1717); false against `undefined`. -/
def overflows (ll : Option ℚ) (s : Sums) : Bool :=
  match ll with
  | none => false
  | some L => decide (s.width - s.shrink > L)

/-- The `j`-scan of `getNextBreakpoint` (`textkit.js`, lines 1719–1725):
skip forward over glue and penalties. -/
def scanJ (subnodes : List LBNode) (j : ℕ) : ℕ :=
  if j < subnodes.length then
    if isGlue (subnodes.getD j default) || isPenalty (subnodes.getD j default) then
      scanJ subnodes (j + 1)
    else j
  else j
termination_by subnodes.length - j
decreasing_by
  simp_wf
  omega

/-- `Infinity >= badness` on the optional minimum (`none` is the initial
`Infinity`). -/
def minGE (m : Option ℚ) (b : ℚ) : Bool :=
  match m with
  | none => true
  | some v => decide (v ≥ b)

/-- The scan loop of `getNextBreakpoint` (`textkit.js`, lines
1708–1738): accumulate, stop at the first overflow (scanning past glue
and penalties when no candidate was recorded yet), otherwise record the
minimum-badness glue/penalty candidate. -/
def gnbGo (ll : Option ℚ) (subnodes : List LBNode) :
    List LBNode → ℕ → Sums → Option ℕ → Option ℚ → Sums × Option ℕ
  | [], _, sum, pos, _ => (sum, pos)
  | n :: rest, i, sum, pos, minB =>
      let sum2 : Sums :=
        match n with
        | .box w _ _ _ => ⟨sum.width + w, sum.stretch, sum.shrink⟩
        | .glue w _ _ st sh => ⟨sum.width + w, sum.stretch + st, sum.shrink + sh⟩
        | .penalty _ _ _ => sum
      if overflows ll sum2 then
        match pos with
        | some _ => (sum2, pos)
        | none => (sum2, some (scanJ subnodes (if i = 0 then i + 1 else i) - 1))
      else
        match n with
        | .box _ _ _ _ => gnbGo ll subnodes rest (i + 1) sum2 pos minB
        | _ =>
            let rat := calcRatio ll sum2 n
            let badness := 100 * |rat| ^ 3 + penaltyVal n
            if minGE minB badness then
              gnbGo ll subnodes rest (i + 1) sum2 (some i) (some badness)
            else gnbGo ll subnodes rest (i + 1) sum2 pos minB

/-- `getNextBreakpoint` (`textkit.js`, lines 1684–1740): the recorded
position is returned only when the accumulated width (minus shrink)
overflows the line. -/
def getNextBreakpoint (subnodes : List LBNode) (widths : List ℚ)
    (lineNumber : ℕ) : Option ℕ :=
  let ll := widths[min lineNumber (widths.length - 1)]?
  let out := gnbGo ll subnodes subnodes 0 ⟨0, 0, 0⟩ none none
  if overflows ll out.1 then out.2 else none

/-- The loop of `applyBestFit` (`textkit.js`, lines 1741–1760):
greedily take the next breakpoint, advance past it, and stop when none
is found. -/
def applyBestFitGo (widths : List ℚ) :
    List LBNode → ℕ → ℕ → List ℕ → List ℕ
  | [], _, _, acc => acc
  | n :: tail, count, lineNumber, acc =>
      match getNextBreakpoint (n :: tail) widths lineNumber with
      | none => acc
      | some bp =>
          applyBestFitGo widths ((n :: tail).drop (bp + 1)) (count + bp + 1)
            (lineNumber + 1) (acc ++ [count + bp])
termination_by subnodes => subnodes.length
decreasing_by
  simp_wf
  omega

/-- `applyBestFit` (`textkit.js`, lines 1741–1760): breakpoints start
at `[0]`. -/
def applyBestFit (nodes : List LBNode) (widths : List ℚ) : List ℕ :=
  applyBestFitGo widths nodes 0 0 [0]

/-- The tolerance-escalation loop of `linebreaker` (`textkit.js`, lines
2418–2421): `while (breaks.length === 0 && tolerance < TOLERANCE_LIMIT)
{ tolerance += TOLERANCE_STEPS; breaks = linebreak(...) }` with
`TOLERANCE_STEPS = 5`, `TOLERANCE_LIMIT = 50` (lines 2312–2313). -/
def escalateGo (lb : ℚ → List ℕ) (t : ℚ) (breaks : List ℕ) : ℚ × List ℕ :=
  if h : breaks.length = 0 ∧ t < 50 then escalateGo lb (t + 5) (lb (t + 5))
  else (t, breaks)
termination_by (⌈(50 : ℚ) - t⌉).toNat
decreasing_by
  simp_wf
  have h2 : ⌈(50 : ℚ) - (t + 5)⌉ = ⌈(50 : ℚ) - t⌉ - 5 := by
    rw [show (50 : ℚ) - (t + 5) = (50 - t) - ((5 : ℤ) : ℚ) by push_cast; ring]
    exact Int.ceil_sub_int _ _
  exact ⟨by omega, h.2⟩

/-- The breaks side of `linebreaker` (`textkit.js`, lines 2414–2426):
default tolerance `options.tolerance || 4`, escalation, then the
best-fit fallback when the break set is empty or the trivial `[0]`. -/
def linebreakerBreaks (optTol : Option ℚ) (nodes : List LBNode)
    (widths : List ℚ) : List ℕ :=
  let t0 : ℚ := match optTol with
    | none => 4
    | some v => if v = 0 then 4 else v
  let pair := escalateGo (fun t => linebreak nodes widths t) t0
    (linebreak nodes widths t0)
  if pair.2.length = 0 ∨ (pair.2.length = 1 ∧ pair.2.getD 0 0 = 0) then
    applyBestFit nodes widths
  else pair.2

/-- `getNodes` loop body (`textkit.js`, lines 2363–2390): whitespace
syllables become glue (`opts = {width: 3, stretch: 6, shrink: 9}`),
words become boxes with a hyphen penalty before a following non-space
syllable.  Advance widths come from the shaped string, an external
input, so the width measure `wOf` is a parameter, as is the regex
whitespace class behind `s.trim()`. -/
def getNodesGo (isSpace : Char → Bool) (wOf : ℤ → ℤ → ℚ) (hp : ℚ) :
    List (List Char) → ℤ → List LBNode
  | [], _ => []
  | s :: rest, start =>
      let width := wOf start (start + s.length)
      let e : ℤ := start + s.length
      if s.all isSpace then
        LBNode.glue width start e (width * 3 / 6) (width * 3 / 9) ::
          getNodesGo isSpace wOf hp rest e
      else
        let hyphenated : Bool := decide (rest.head? ≠ some [' '])
        LBNode.box width start e hyphenated ::
          ((if (match rest.head? with
                | some s2 => !s2.isEmpty
                | none => false) && hyphenated then
              [LBNode.penalty 5 hp 1]
            else []) ++ getNodesGo isSpace wOf hp rest e)

/-- `getNodes` (`textkit.js`, lines 2363–2394): the syllable stream
plus the mandatory final glue and forced penalty. -/
def getNodes (isSpace : Char → Bool) (wOf : ℤ → ℤ → ℚ) (hp : ℚ)
    (syllables : List (List Char)) : List LBNode :=
  getNodesGo isSpace wOf hp syllables 0 ++
    [LBNode.glue 0 ((syllables.map List.length).sum : ℤ)
        ((syllables.map List.length).sum : ℤ) INF 0,
      LBNode.penalty 0 (-INF) 1]

/-- The slice boundary a breakpoint induces (`breakLines`,
`textkit.js`, lines 2336–2345): a penalty break ends at the previous
node's end, any other at its own end. -/
def boundOf (nodes : List LBNode) (bp : ℕ) : ℤ :=
  if isPenalty (nodes.getD bp default) then nodeEnd (nodes.getD (bp - 1) default)
  else nodeEnd (nodes.getD bp default)

/-- The `HYPHEN` code point 0x002d (`textkit.js`, line 2311). -/
def hyphenChar : Char := Char.ofNat 45

/-- The string-level effect of
`insertGlyph(line.string.length, HYPHEN, line)` (`textkit.js`, line
2341): the hyphen character is appended to the line's text.  (The
run-level glyph insertion needs the external font and does not touch
the text.) -/
def hyphenAppend (l : AttrString α) : AttrString α :=
  { l with string := l.string ++ [hyphenChar] }

/-- `breakLines` (`textkit.js`, lines 2328–2354), parameterised by the
penalty-line insertion (`hyphenAppend` in the source; `id` gives the
raw slices the reconstruction claim is about): slice `[start, end)` per
breakpoint, skipping the mandatory final breakpoint, and push the tail
`[start, length)` as the last line. -/
def breakLinesGo (ins : AttrString α → AttrString α) (a : AttrString α)
    (nodes : List LBNode) : List ℕ → ℤ → List (AttrString α)
  | [], start => [AS.sliceAS start (a.string.length : ℤ) a]
  | bp :: rest, start =>
      if bp = nodes.length - 1 then breakLinesGo ins a nodes rest start
      else
        let e := boundOf nodes bp
        let line := AS.sliceAS start e a
        (if isPenalty (nodes.getD bp default) then ins line else line) ::
          breakLinesGo ins a nodes rest e

/-- `breakLines` (`textkit.js`, lines 2328–2354). -/
def breakLines (a : AttrString α) (nodes : List LBNode) (bs : List ℕ) :
    List (AttrString α) :=
  breakLinesGo hyphenAppend a nodes bs 0

/-- `linebreaker` (`textkit.js`, lines 2408–2429): nodes from the
syllables, breaks from Knuth–Plass with escalation and best-fit
fallback, lines from `breakLines` on the breaks past the root. -/
def linebreakerRun (isSpace : Char → Bool) (wOf : ℤ → ℤ → ℚ)
    (optTol : Option ℚ) (hp : ℚ) (a : AttrString α)
    (syllables : List (List Char)) (widths : List ℚ) : List (AttrString α) :=
  breakLines a (getNodes isSpace wOf hp syllables)
    ((linebreakerBreaks optTol (getNodes isSpace wOf hp syllables) widths).drop 1)

/-- Proof-side: the running totals over the first `i` nodes — the `sum`
state of `linebreak` when `mainLoop` runs at index `i`. -/
def sumUpTo (nodes : List LBNode) (i : ℕ) : Sums :=
  (nodes.take i).foldl (fun s n =>
    match n with
    | .box w _ _ _ => ⟨s.width + w, s.stretch, s.shrink⟩
    | .glue w _ _ st sh => ⟨s.width + w, s.stretch + st, s.shrink + sh⟩
    | .penalty _ _ _ => s) ⟨0, 0, 0⟩

/-- Proof-side: the adjustment ratio `computeCost` assigns to a line
ending at `endIdx` against previous-break totals `prevT`. -/
def ratioFor (nodes : List LBNode) (widths : List ℚ) (prevT : Sums)
    (endIdx : ℕ) (line : ℕ) : ℚ :=
  computeCost nodes widths (sumUpTo nodes endIdx) endIdx prevT.width
    prevT.stretch prevT.shrink line

/-- Proof-side: a break chain is legal at tolerance `tol` when every
line's ratio (as `linebreak` computes it) lies in `[-1, tol]`; the next
line starts from the `computeSum` totals at the break, exactly as a new
breakpoint records them. -/
def LegalChain (nodes : List LBNode) (widths : List ℚ) (tol : ℚ) :
    ℕ → Sums → List ℕ → Prop
  | _, _, [] => True
  | line, prevT, p :: rest =>
      (-1 ≤ ratioFor nodes widths prevT p (line + 1) ∧
        ratioFor nodes widths prevT p (line + 1) ≤ tol) ∧
      LegalChain nodes widths tol (line + 1)
        (computeSum nodes (sumUpTo nodes p) p) rest

/-- Proof-side: monotone, in-range slice bounds for a break list — what
ascending breakpoints over a `getNodes` stream induce. -/
def BoundsMono (nodes : List LBNode) (len : ℤ) : List ℕ → ℤ → Prop
  | [], start => 0 ≤ start ∧ start ≤ len
  | bp :: rest, start =>
      if bp = nodes.length - 1 then BoundsMono nodes len rest start
      else 0 ≤ start ∧ start ≤ boundOf nodes bp ∧ boundOf nodes bp ≤ len ∧
        BoundsMono nodes len rest (boundOf nodes bp)

/-- Proof-side: the ladder of slice bounds along a node list — box and
glue nodes move it to their end, penalties keep the previous offset. -/
def nodeBounds : List LBNode → ℤ → List ℤ
  | [], _ => []
  | n :: rest, lo =>
      match n with
      | .box _ _ e _ => e :: nodeBounds rest e
      | .glue _ _ e _ _ => e :: nodeBounds rest e
      | .penalty _ _ _ => lo :: nodeBounds rest lo

/-- Proof-side: well-shaped node lists — box and glue ends climb from
`lo` to `hi`, and a penalty only ever follows a box or glue (`pr` says
whether one does). `getNodes` streams satisfy this from `0` to the
paragraph length. -/
def NodesOK : List LBNode → ℤ → ℤ → Bool → Prop
  | [], _, _, _ => True
  | n :: rest, lo, hi, pr =>
      match n with
      | .box _ _ e _ => lo ≤ e ∧ e ≤ hi ∧ NodesOK rest e hi true
      | .glue _ _ e _ _ => lo ≤ e ∧ e ≤ hi ∧ NodesOK rest e hi true
      | .penalty _ _ _ => pr = true ∧ NodesOK rest lo hi false

/-- Proof-side: `boundOf` relative to a virtual preceding node of end
`prevEnd` — what the slice boundary at index `i` is when the list is a
suffix of a larger stream. -/
def boundOfP (prevEnd : ℤ) (nodes : List LBNode) (i : ℕ) : ℤ :=
  if isPenalty (nodes.getD i default) then
    if i = 0 then prevEnd else nodeEnd (nodes.getD (i - 1) default)
  else nodeEnd (nodes.getD i default)

/-- Concrete stream of one 100-wide word against a 10-wide line: no
feasible break at any escalated tolerance (every ratio is the 10000
sentinel). -/
def ex5nodes : List LBNode :=
  [.box 100 0 3 true, .glue 0 3 3 INF 0, .penalty 0 (-INF) 1]

/-- Concrete stream of one 10-wide word against a 10-wide line: the
break at the final glue has ratio 0. -/
def exC6nodes : List LBNode :=
  [.box 10 0 3 true, .glue 0 3 3 INF 0, .penalty 0 (-INF) 1]

end LB

namespace Pipe

open AS (ASRun AttrString)
open Textkit (Rect)

/-- Numbers in the layout pipeline that can be JS `NaN` (`Option ℚ`,
with `none` for `NaN`): addition propagates `NaN`. -/
def nAdd : Option ℚ → Option ℚ → Option ℚ
  | some a, some b => some (a + b)
  | _, _ => none

/-- Comparison `<` on possibly-`NaN` numbers: every comparison against
`NaN` is false in JS. -/
def nLt : Option ℚ → Option ℚ → Bool
  | some a, some b => decide (a < b)
  | _, _ => false

/-- Comparison `>` on possibly-`NaN` numbers. -/
def nGt (a b : Option ℚ) : Bool := nLt b a

/-- Comparison `>=` on possibly-`NaN` numbers. -/
def nGe : Option ℚ → Option ℚ → Bool
  | some a, some b => decide (b ≤ a)
  | _, _ => false

/-- The container `layoutEngine` lays text into: a rectangle plus the
optional `excludeRects`, `maxLines` (absent = `Infinity`) and the
`truncateMode === 'ellipsis'` flag (`typesetter`, lines 756–758). -/
structure Container where
  x : ℚ := 0
  y : ℚ := 0
  width : ℚ := 0
  height : ℚ := 0
  excludeRects : Option (List Rect) := none
  maxLines : Option ℕ := none
  truncateEllipsis : Bool := false

/-- Plain rectangle of a container
(`const { excludeRects, ...rect } = container`, line 631). -/
def Container.rect (c : Container) : Rect :=
  { x := c.x, y := c.y, width := c.width, height := c.height }

/-- Source `partition` (`textkit.js`, lines 85–96) on a container — the
source spreads the object, so the non-rect fields survive. -/
def partitionC (c : Container) (h : ℚ) : Container × Container :=
  ({ c with height := h }, { c with y := c.y + h, height := c.height - h })

/-- Source `crop` (`textkit.js`, lines 98–108). -/
def cropC (h : ℚ) (c : Container) : Container := (partitionC c h).2

/-- Source `partition` on a plain rectangle. -/
def partitionR (r : Rect) (h : ℚ) : Rect × Rect :=
  ({ r with height := h }, { r with y := r.y + h, height := r.height - h })

/-- Source `intersects` (`textkit.js`, lines 594–600):
`num1 >= x && num2 >= y`. -/
def intersects (a b : Rect) : Bool :=
  let x := max a.x b.x
  let num1 := min (a.x + a.width) (b.x + b.width)
  let y := max a.y b.y
  let num2 := min (a.y + a.height) (b.y + b.height)
  decide (x ≤ num1) && decide (y ≤ num2)

/-- Source `getLineFragment` (`textkit.js`, lines 602–612). -/
def getLineFragment (lineRect excludeRect : Rect) : List Rect :=
  if !intersects excludeRect lineRect then [lineRect]
  else
    let eStart := excludeRect.x
    let eEnd := excludeRect.x + excludeRect.width
    let lStart := lineRect.x
    let lEnd := lineRect.x + lineRect.width
    let a : Rect := { lineRect with width := eStart - lStart }
    let b : Rect := { lineRect with x := eEnd, width := lEnd - eEnd }
    [a, b].filter (fun r => decide (0 < r.width))

/-- Source `getLineFragments` (`textkit.js`, lines 613–624): fold each
exclusion rect over the accumulated fragments. -/
def getLineFragments (rect : Rect) (excludeRects : List Rect) : List Rect :=
  excludeRects.foldl
    (fun fragments ex => (fragments.map (fun f => getLineFragment f ex)).flatten)
    [rect]

/-- The `while (currentRect.y < maxY)` loop of `generateLineRects`
(`textkit.js`, lines 630–645), fuel-bounded: each pass carves a line
rect of height `h` off the top of the remaining rect.  `none` means the
fuel ran out with the loop condition still true — the source loop would
still be running (with `h = 0` the rect never advances). -/
def glrGo (excludeRects : List Rect) (h maxY : ℚ) :
    ℕ → List Rect → Rect → Option (List Rect)
  | 0, lineRects, currentRect =>
      if currentRect.y < maxY then none
      else some (lineRects ++ [currentRect])
  | fuel + 1, lineRects, currentRect =>
      if currentRect.y < maxY then
        glrGo excludeRects h maxY fuel
          (lineRects ++ getLineFragments (partitionR currentRect h).1 excludeRects)
          (partitionR currentRect h).2
      else some (lineRects ++ [currentRect])

/-- Source `generateLineRects` (`textkit.js`, lines 630–645): without
`excludeRects` the container's own rectangle is the single line rect;
with them, line rects of the paragraph's height are carved off until the
deepest exclusion rect is passed.  `Math.max(...)` of no rects is
`-Infinity`, so an empty exclusion list skips the loop. -/
def generateLineRects (c : Container) (h : ℚ) (fuel : ℕ) :
    Option (List Rect) :=
  match c.excludeRects with
  | none => some [c.rect]
  | some [] => some [c.rect]
  | some (e :: es) =>
      let maxY := es.foldl (fun m r => max m (r.y + r.height)) (e.y + e.height)
      glrGo (e :: es) h maxY fuel [] c.rect

/-- A paragraph as it reaches the typesetter: the attributed string plus
the syllables `wrapWords` attached (the later per-run stages spread the
object, so the field survives to the linebreaker engine). -/
structure Paragraph (α : Type) where
  string : List Char
  runs : List (ASRun α)
  syllables : List (List Char)
  deriving DecidableEq, Repr

/-- A laid-out line: its text and runs plus the box `layoutLines`
assigns.  The box's `y` and `height` can be `NaN`: a line with no runs
has `style.lineHeight` read `undefined`, and `Math.max` against
`undefined` is `NaN`. -/
structure PLine (α : Type) where
  string : List Char
  runs : List (ASRun α)
  boxX : ℚ
  boxY : Option ℚ
  boxWidth : ℚ
  boxHeight : Option ℚ
  deriving DecidableEq, Repr

/-- The external engines of `layoutEngine(engines)` together with the
per-run and per-attribute callbacks whose bodies read external font or
bidi data; each field names the source function it stands for.  The run
maps keep the run's range — the source spreads the run and replaces
only its payload arrays or attributes. -/
structure Engines (α : Type) where
  /-- `Object.assign` on attribute maps, as used by `flatten`. -/
  merge : α → α → α
  /-- The empty attribute map `{}`. -/
  aEmpty : α
  /-- `applyAttributes` (`textkit.js`, lines 1503–1545): fill attribute
  defaults. -/
  defA : α → α
  /-- `omit('font', run)`'s attribute part (`textkit.js`, lines 521–531). -/
  omitF : α → α
  /-- `omit('attachment', run)`'s attribute part (`purgeAttachments`). -/
  omitAttach : α → α
  /-- The `scriptItemizer` engine's run output. -/
  eSI : AttrString α → AttrString α
  /-- The `fontSubstitution` engine's run output. -/
  eFS : AttrString α → AttrString α
  /-- The `bidi` engine's run output. -/
  eBidi : AttrString α → AttrString α
  /-- The `bidiLevel` attribute, absent before the bidi engine ran. -/
  lvlOf : α → Option ℕ
  /-- The bidi mirror table `getMirroredCharacter`. -/
  getMirrored : Char → Option Char
  /-- `layoutRun` (`textkit.js`, lines 948–973): fontkit shaping of one
  run against the text. -/
  lr : List Char → ASRun α → ASRun α
  /-- The word hyphenation callback of `wrapWords`. -/
  hyph : List Char → List (List Char)
  /-- `verticalAlignment`'s per-run attribute update (`sub`/`super` set
  `yOffset`; `textkit.js`, lines 1568–1586). -/
  va : α → α
  /-- `resolveRunAttachments` (`textkit.js`, lines 1471–1487). -/
  ra : ASRun α → ASRun α
  /-- `resolveRunYOffset` (`textkit.js`, lines 994–1001). -/
  ry : ASRun α → ASRun α
  /-- Run height `height$1` (`textkit.js`, lines 577–582):
  `lineHeight || lineGap + ascent - descent`, all font metrics. -/
  hOf : ASRun α → ℚ
  /-- `style.lineHeight` as read by `layoutLines` on a run that is
  present (`null` coerces to `0` inside `Math.max`). -/
  lhOf : α → ℚ
  /-- `attributes.indent || 0` of a present first run. -/
  indentOf : α → ℚ
  /-- Whether `attributes.font[0]` is present (`truncate`'s guard). -/
  fontOf : α → Bool
  /-- The ellipsis insertion `append(glyph, trim(line))` of `truncate`,
  behind the external font's `glyphForCodePoint`. -/
  ellip : PLine α → PLine α
  /-- The `linebreaker` engine: paragraph (with its syllables) and
  available widths to lines.  The library's own engine is the
  `linebreaker` embedded in the `LB` namespace. -/
  lbE : Paragraph α → List ℚ → List (AttrString α)
  /-- `reorderLine` (`textkit.js`, lines 819–874), driven by the
  external bidi segment data. -/
  reorderLine : PLine α → PLine α
  /-- `finalizeBlock` (`textkit.js`, lines 1430–1444) at a line index
  within its paragraph: composes the justification and text-decoration
  engines. -/
  finB : ℕ → List (PLine α) → PLine α → PLine α

/-- Source `height` of an attributed string (`textkit.js`, lines
584–591): `Math.max` of the run heights over the initial `0`. -/
def asHeight (hOf : ASRun α → ℚ) (runs : List (ASRun α)) : ℚ :=
  runs.foldl (fun acc r => max acc (hOf r)) 0

/-- The box height `layoutLines` gives a line (`textkit.js`, line 674):
`Math.max(height(line), style.lineHeight)`, where `style` is the first
run's attributes or `{}` when the line has no runs — then
`style.lineHeight` is `undefined` and the result is `NaN`. -/
def lineBoxHeight (hOf : ASRun α → ℚ) (lhOf : α → ℚ)
    (runs : List (ASRun α)) : Option ℚ :=
  match runs.head? with
  | none => none
  | some r => some (max (asHeight hOf runs) (lhOf r.attributes))

/-- The `'￼'` attachment code point (`textkit.js`, line 1466). -/
def attachmentChar : Char := Char.ofNat 0xFFFC

/-- Source `purgeAttachments` (`textkit.js`, lines 653–659): when the
line text carries no attachment character, the `attachment` attribute
is dropped from every run. -/
def purgeAttachments (omitAttach : α → α) (l : PLine α) : PLine α :=
  if l.string.contains attachmentChar then l
  else { l with runs := l.runs.map (fun r =>
    { r with attributes := omitAttach r.attributes }) }

/-- Source `layoutLines` (`textkit.js`, lines 668–692): wrap each line
from the linebreaker in a box, moving to the next line rect when the
current one overflows (a `NaN` height fails the comparison, so the rect
is kept); only the first line gets the paragraph indent. -/
def layoutLinesGo (hOf : ASRun α → ℚ) (lhOf : α → ℚ) (omitAttach : α → α) :
    List (AttrString α) → Rect → List Rect → Option ℚ → ℚ → List (PLine α)
  | [], _, _, _, _ => []
  | l :: ls, rect, rects, currentY, indent =>
      let h := lineBoxHeight hOf lhOf l.runs
      let switch := nGt (nAdd currentY h) (some (rect.y + rect.height)) &&
        !rects.isEmpty
      let rect2 := if switch then rects.headD rect else rect
      let rects2 := if switch then rects.tail else rects
      let cy := if switch then some rect2.y else currentY
      purgeAttachments omitAttach
          ⟨l.string, l.runs, rect2.x + indent, cy, rect2.width - indent, h⟩ ::
        layoutLinesGo hOf lhOf omitAttach ls rect2 rects2 (nAdd cy h) 0

/-- Source `layoutParagraph` (`textkit.js`, lines 699–723): line rects
from the paragraph's height, available widths (the first reduced by the
first run's `indent`), lines from the linebreaker engine, boxes from
`layoutLines`.  `none` when the line-rect loop is still running; the
produced rect list is never empty, so that pattern is folded into the
failure case (`rects.shift()` on nothing would throw). -/
def layoutParagraph (E : Engines α) (c : Container) (p : Paragraph α)
    (fuel : ℕ) : Option (List (PLine α)) :=
  let h := asHeight E.hOf p.runs
  let indent := match p.runs.head? with
    | none => 0
    | some r => E.indentOf r.attributes
  match generateLineRects c h fuel with
  | none => none
  | some [] => none
  | some (r0 :: rs) =>
      let availableWidths := (r0.width - indent) :: (r0 :: rs).map Rect.width
      some (layoutLinesGo E.hOf E.lhOf E.omitAttach
        (E.lbE p availableWidths) r0 rs (some r0.y) indent)

/-- Source `height$2` of a block (`textkit.js`, lines 115–118): the sum
of the line box heights; `NaN` propagates. -/
def blockHeight (block : List (PLine α)) : Option ℚ :=
  block.foldl (fun acc l => nAdd acc l.boxHeight) (some 0)

/-- The accumulator loop of `sliceAtHeight` (`textkit.js`, lines
725–740): keep lines while the accumulated height stays below `height`;
a `NaN` line height fails the comparison and stops immediately. -/
def sliceAtHeightGo (h : ℚ) : Option ℚ → List (PLine α) → List (PLine α)
  | _, [] => []
  | counter, l :: ls =>
      let c2 := nAdd counter l.boxHeight
      if nLt c2 (some h) then l :: sliceAtHeightGo h c2 ls else []

/-- Source `sliceAtHeight` (`textkit.js`, lines 725–740). -/
def sliceAtHeight (h : ℚ) (block : List (PLine α)) : List (PLine α) :=
  sliceAtHeightGo h (some 0) block

/-- Source `truncate` (`textkit.js`, lines 508–519): only when the
block's last line's last run carries a font is the ellipsis appended to
that line (`ellip`); otherwise the block is returned unchanged
(`last(paragraph)?.runs || []` and the `font` guard both fall through
on an empty block or run list). -/
def truncateBlock (fontOf : α → Bool) (ellip : PLine α → PLine α)
    (block : List (PLine α)) : List (PLine α) :=
  match block.getLast? with
  | none => block
  | some l =>
      match l.runs.getLast? with
      | none => block
      | some r =>
          if fontOf r.attributes then
            block.set (block.length - 1) (ellip l)
          else block

/-- The `while (linesCount > 0 && nextParagraph)` loop of `typesetter`
(`textkit.js`, lines 747–790): lay out each paragraph, slice it to the
remaining `maxLines` (`none` = `Infinity`), and stop at the first block
that no longer fits the container height — a `NaN` block height (from
a line with no runs) fails `paragraphRect.height >= linesHeight` and
takes the stopping branch. -/
def typesetterGo (E : Engines α) (truncE : Bool) (fuel : ℕ) :
    List (Paragraph α) → Option ℕ → Container →
      Option (List (List (PLine α)))
  | [], _, _ => some []
  | p :: ps, linesCount, c =>
      if (match linesCount with | none => true | some k => decide (0 < k)) then
        match layoutParagraph E c p fuel with
        | none => none
        | some block =>
            let sliced := match linesCount with
              | none => block
              | some k => block.take k
            let shouldTruncate := truncE && decide (block.length ≠ sliced.length)
            let lc2 := linesCount.map (fun k => k - sliced.length)
            match blockHeight sliced with
            | some lh =>
                if lh ≤ c.height then
                  match typesetterGo E truncE fuel ps lc2 (cropC lh c) with
                  | none => none
                  | some rest =>
                      some ((if shouldTruncate then
                          truncateBlock E.fontOf E.ellip sliced
                        else sliced) :: rest)
                else
                  some [truncateBlock E.fontOf E.ellip
                    (sliceAtHeight c.height sliced)]
            | none =>
                some [truncateBlock E.fontOf E.ellip
                  (sliceAtHeight c.height sliced)]
      else some []

/-- Source `typesetter` (`textkit.js`, lines 747–790):
`paragraphRect = copy(container)` is the container itself (a shallow
value copy), `maxLines` absent means `Infinity`. -/
def typesetter (E : Engines α) (c : Container) (paras : List (Paragraph α))
    (fuel : ℕ) : Option (List (List (PLine α))) :=
  typesetterGo E c.truncateEllipsis fuel paras c.maxLines c

/-- Source `applyDefaultStyles` (`textkit.js`, lines 1558–1564):
`string || ''` (the empty string is the only falsy one) and the per-run
attribute defaulting `applyRunStyles`. -/
def applyDefaultStyles (defA : α → α) (as : AttrString α) : AttrString α :=
  { string := if as.string.isEmpty then [] else as.string
    runs := as.runs.map (fun r => { r with attributes := defA r.attributes }) }

/-- Helper for `String.indexOf(c, from)`: the first index at or past the
running counter holding `c`. -/
def idxFromGo (c : Char) : List Char → ℕ → Option ℕ
  | [], _ => none
  | d :: rest, k => if d = c then some k else idxFromGo c rest (k + 1)

/-- JS `String.indexOf(c, from)`: first index `≥ from` holding `c`,
`-1` when there is none. -/
def jsIndexOfFrom (c : Char) (s : List Char) (f : ℕ) : ℤ :=
  match idxFromGo c (s.drop f) f with
  | none => -1
  | some i => (i : ℤ)

/-- Source `start` of an attributed string (`textkit.js`, lines
785–792). -/
def asStart (as : AttrString α) : ℤ :=
  match as.runs with | [] => 0 | r :: _ => r.start

/-- Source `end` of an attributed string (`textkit.js`, lines
794–803). -/
def asEnd (as : AttrString α) : ℤ :=
  match as.runs.getLast? with | none => 0 | some r => r.endPos

/-- Source `length$1` (`textkit.js`, lines 805–812). -/
def asLength (as : AttrString α) : ℤ := asEnd as - asStart as

/-- The `while (breakPoint > 0)` loop of `splitParagraphs`
(`textkit.js`, lines 1189–1211): slice at each `'\n'` (kept with the
preceding paragraph); when no newline was found at all (`start` still
`0`) the original object itself is pushed, and a trailing piece is
sliced up to `length$1`. -/
def splitParagraphsGo (as : AttrString α) (start : ℕ) :
    List (AttrString α) :=
  let bp := jsIndexOfFrom '\n' as.string start + 1
  if h : 0 < bp then
    AS.sliceAS (start : ℤ) bp as :: splitParagraphsGo as bp.toNat
  else if start = 0 then [as]
  else if (start : ℤ) < (as.string.length : ℤ) then
    [AS.sliceAS (start : ℤ) (asLength as) as]
  else []
termination_by as.string.length - start
decreasing_by
  have haux : ∀ (l : List Char) (k i : ℕ), idxFromGo '\n' l k = some i →
      k ≤ i ∧ i < k + l.length := by
    intro l
    induction l with
    | nil => intro k i h2; exact absurd h2 (by simp [idxFromGo])
    | cons d rest ih =>
        intro k i h2
        rw [idxFromGo] at h2
        by_cases hd : d = '\n'
        · rw [if_pos hd] at h2
          injection h2 with h3
          simp only [List.length_cons]
          omega
        · rw [if_neg hd] at h2
          have h4 := ih (k + 1) i h2
          simp only [List.length_cons]
          omega
  have hb : 0 ≤ jsIndexOfFrom '\n' as.string start →
      (start : ℤ) ≤ jsIndexOfFrom '\n' as.string start ∧
      jsIndexOfFrom '\n' as.string start < (as.string.length : ℤ) := by
    intro h0
    cases hidx : idxFromGo '\n' (as.string.drop start) start with
    | none =>
        exfalso
        have hji : jsIndexOfFrom '\n' as.string start = -1 := by
          unfold jsIndexOfFrom
          rw [hidx]
        omega
    | some i =>
        have hji : jsIndexOfFrom '\n' as.string start = (i : ℤ) := by
          unfold jsIndexOfFrom
          rw [hidx]
        have h2 := haux (as.string.drop start) start i hidx
        have h3 : (as.string.drop start).length = as.string.length - start :=
          List.length_drop start as.string
        rw [hji]
        constructor
        · exact_mod_cast h2.1
        · show (i : ℤ) < (as.string.length : ℤ)
          omega
  have h4 := hb (by omega)
  omega

/-- Source `splitParagraphs` (`textkit.js`, lines 1189–1211). -/
def splitParagraphs (as : AttrString α) : List (AttrString α) :=
  splitParagraphsGo as 0

/-- Source `preprocessRuns` (`textkit.js`, lines 1164–1186): the run
outputs of the bidi, font-substitution and script-itemization engines
plus the font-omitted original runs, concatenated in that order and
flattened with the library's own `flatten`.  (The `isNil` guard never
fires here: the inputs are the values `splitParagraphs` produced.) -/
def preprocessRuns (E : Engines α) (as : AttrString α) : AttrString α :=
  { string := as.string
    runs := Flatten.flatten E.merge E.aEmpty
      ((E.eBidi as).runs ++ (E.eFS as).runs ++ (E.eSI as).runs ++
        as.runs.map (fun r => { r with attributes := E.omitF r.attributes })) }

/-- Source `getBidiLevels` (`textkit.js`, lines 1593–1600): each run's
`bidiLevel` attribute repeated over the run's length. -/
def getBidiLevels (lvlOf : α → Option ℕ) (runs : List (ASRun α)) :
    List (Option ℕ) :=
  (runs.map (fun r =>
    List.replicate (r.endPos - r.start).toNat (lvlOf r.attributes))).flatten

/-- Source `mirrorString` (`textkit.js`, lines 1603–1624): mirror each
character whose bidi level is odd (`mirroredChar || char` keeps the
original when the mirror table has none).  Reading past the levels
array gives `undefined`, which is not odd. -/
def mirrorString (lvlOf : α → Option ℕ) (getMirrored : Char → Option Char)
    (as : AttrString α) : AttrString α :=
  let levels := getBidiLevels lvlOf as.runs
  { as with string := as.string.mapIdx (fun i c =>
      let isRTL := match levels.getD i none with
        | some l => decide (l % 2 = 1)
        | none => false
      match (if isRTL then getMirrored c else none) with
      | some m => m
      | none => c) }

/-- Source `generateGlyphs` (`textkit.js`, lines 977–987): shape every
run against the text. -/
def generateGlyphs (lr : List Char → ASRun α → ASRun α)
    (as : AttrString α) : AttrString α :=
  { as with runs := as.runs.map (lr as.string) }

/-- The `/([ ]+)/g` split with separators kept and empty pieces
filtered out (`textkit.js`, lines 57–60): maximal chunks of spaces and
of non-spaces. -/
def spaceChunks : List Char → List (List Char)
  | [] => []
  | c :: rest =>
      match spaceChunks rest with
      | [] => [[c]]
      | [] :: gs => [c] :: gs
      | (d :: g) :: gs =>
          if (decide (c = ' ')) = (decide (d = ' ')) then (c :: d :: g) :: gs
          else [c] :: (d :: g) :: gs

/-- Source `fromFragments` (`textkit.js`, lines 13–28): concatenate the
fragment strings and lay their runs end to end from the running
offset. -/
def fromFragments : List (α × List Char) → ℕ → List Char × List (ASRun α)
  | [], _ => ([], [])
  | (a, str) :: rest, offset =>
      let tail := fromFragments rest (offset + str.length)
      (str ++ tail.1,
        ⟨(offset : ℤ), ((offset + str.length : ℕ) : ℤ), a⟩ :: tail.2)

/-- Source `wrapWords` (`textkit.js`, lines 44–73): per run, split the
run's text slice into space/word chunks, hyphenate each chunk, collect
every part into the syllable list, and rebuild the fragments from the
re-joined parts. -/
def wrapWords (hyph : List Char → List (List Char))
    (as : AttrString α) : Paragraph α :=
  let parts := as.runs.map (fun r =>
    (r.attributes,
      (spaceChunks (AS.jsSlice r.start r.endPos as.string)).map hyph))
  let syllables := (parts.map (fun p => p.2.flatten)).flatten
  let fragments := parts.map (fun p => (p.1, (p.2.map List.flatten).flatten))
  let fa := fromFragments fragments 0
  ⟨fa.1, fa.2, syllables⟩

/-- Source `verticalAlignment` (`textkit.js`, lines 1568–1586): per-run
attribute update; the object itself (with its syllables) is returned. -/
def verticalAlignment (va : α → α) (p : Paragraph α) : Paragraph α :=
  { p with runs := p.runs.map (fun r =>
    { r with attributes := va r.attributes }) }

/-- Source `resolveAttachments` (`textkit.js`, lines 1489–1509): map
`resolveRunAttachments` over the runs, keeping the other fields. -/
def resolveAttachments (ra : ASRun α → ASRun α) (p : Paragraph α) :
    Paragraph α :=
  { p with runs := p.runs.map ra }

/-- Source `resolveYOffset` (`textkit.js`, lines 1006–1016): map
`resolveRunYOffset` over the runs, keeping the other fields. -/
def resolveYOffset (ry : ASRun α → ASRun α) (p : Paragraph α) :
    Paragraph α :=
  { p with runs := p.runs.map ry }

/-- The per-paragraph composition `processParagraph` (`textkit.js`,
line 1636), right to left: preprocess runs, mirror, shape, wrap words,
vertical alignment, attachments, yOffset. -/
def processParagraph (E : Engines α) (as : AttrString α) : Paragraph α :=
  resolveYOffset E.ry (resolveAttachments E.ra (verticalAlignment E.va
    (wrapWords E.hyph (generateGlyphs E.lr (mirrorString E.lvlOf E.getMirrored
      (preprocessRuns E as))))))

/-- Source `bidiReordering` (`textkit.js`, lines 893–900): reorder every
line of every paragraph block. -/
def bidiReordering (reorder : PLine α → PLine α)
    (blocks : List (List (PLine α))) : List (List (PLine α)) :=
  blocks.map (fun b => b.map reorder)

/-- Source `finalizeFragments` (`textkit.js`, lines 1451–1460):
finalize every line with its index and its paragraph. -/
def finalizeFragments (finB : ℕ → List (PLine α) → PLine α → PLine α)
    (blocks : List (List (PLine α))) : List (List (PLine α)) :=
  blocks.map (fun para => para.mapIdx (fun i l => finB i para l))

/-- Source `layoutEngine` (`textkit.js`, lines 1634–1640): the full
pipeline — default styles, paragraph split, per-paragraph processing,
typesetting into the container, bidi reordering, fragment finalization.
Returns `none` when the line-rect loop inside `generateLineRects` is
still running after `fuel` passes. -/
def layoutEngineRun (E : Engines α) (as : AttrString α) (c : Container)
    (fuel : ℕ) : Option (List (List (PLine α))) :=
  let paragraphs := (splitParagraphs (applyDefaultStyles E.defA as)).map
    (processParagraph E)
  match typesetter E c paragraphs fuel with
  | none => none
  | some blocks =>
      some (finalizeFragments E.finB (bidiReordering E.reorderLine blocks))

/-- Concrete engine bundle over `ℕ` attributes: identity callbacks,
right-biased merge, and the library's own embedded `linebreaker` as the
linebreaker engine. -/
def exEngines : Engines ℕ where
  merge := fun _ b => b
  aEmpty := 0
  defA := id
  omitF := id
  omitAttach := id
  eSI := id
  eFS := id
  eBidi := id
  lvlOf := fun _ => none
  getMirrored := fun _ => none
  lr := fun _ r => r
  hyph := fun w => [w]
  va := id
  ra := id
  ry := id
  hOf := fun _ => 0
  lhOf := fun _ => 0
  indentOf := fun _ => 0
  fontOf := fun _ => false
  ellip := id
  lbE := fun p ws =>
    LB.linebreakerRun (fun _ => false) (fun _ _ => 0) none 0
      ⟨p.string, p.runs⟩ p.syllables ws
  reorderLine := id
  finB := fun _ _ l => l

/-- Concrete 100×100 container at the origin, no exclusion rects, no
line limit. -/
def exContainer : Container :=
  { x := 0, y := 0, width := 100, height := 100 }

/-- Concrete container with one 10×10 exclusion rect at the origin. -/
def exContainerEx : Container :=
  { x := 0, y := 0, width := 100, height := 100,
    excludeRects := some [{ x := 0, y := 0, width := 10, height := 10 }] }

end Pipe


namespace Pagination

/-! ## Theorems -/

/-- C2 — counterexample.  For a text node of exactly 5 lines (10 units
each) with `orphans = widows = 2`, split at height 30 (room for exactly 3
lines), the code computes the break at line index 3 — not 2 as the claim
states — so the next fragment receives 2 lines (indices 3..4), not the 3
lines (indices 2..4) the claim requires. -/
theorem C2_counterexample :
    getLineBreak fiveLineNode 30 = 3 ∧ getLineBreak fiveLineNode 30 ≠ 2 ∧
      (splitText fiveLineNode 30).2.lines.length ≠ 3 := by
  have h : getLineBreak fiveLineNode 30 = 3 := by
    norm_num [getLineBreak, lineIndexAtHeight, lineIndexAtHeightAux, jsOrNat,
      fiveLineNode, PNode.props, PNode.box, PNode.lines]
  refine ⟨h, by omega, ?_⟩
  simp only [splitText, h]
  simp [fiveLineNode, PNode.lines]

theorem lineIndexAtHeightAux_le (lines : List PLine) (y height : ℚ) (i : ℕ) :
    lineIndexAtHeightAux lines y height i ≤ i + lines.length := by
  induction lines generalizing y i with
  | nil => simp [lineIndexAtHeightAux]
  | cons l rest ih =>
      simp only [lineIndexAtHeightAux, List.length_cons]
      split
      · omega
      · have := ih (y + l.height) (i + 1)
        omega

/-- C2 — amended.  For a text node of exactly 5 lines with
`orphans = widows = 2`, split at a height with room for exactly 3 lines
(the first three lines fit above `height - top`, the fourth crosses it),
the computed break occurs at line index 3: lines 0..2 stay on the current
fragment and lines 3..4 move entirely to the next fragment. -/
theorem C2_amended (n : PNode) (height : ℚ)
    (hw : jsOrNat n.props.widows 2 = 2) (ho : jsOrNat n.props.orphans 2 = 2)
    (a b c d e : PLine) (hl : n.lines = [a, b, c, d, e])
    (hfit : a.height + b.height + c.height ≤ height - n.box.top)
    (hcross : a.height + b.height + c.height + d.height > height - n.box.top)
    (_ha : 0 ≤ a.height) (hb : 0 ≤ b.height) (hc : 0 ≤ c.height) :
    getLineBreak n height = 3 ∧
      (splitText n height).1.lines = [a, b, c] ∧
      (splitText n height).2.lines = [d, e] := by
  obtain ⟨t, p, st, bx, ls, ch⟩ := n
  simp only [PNode.lines] at hl
  subst hl
  simp only [PNode.props] at hw ho
  simp only [PNode.box] at hfit hcross
  have hidx : lineIndexAtHeightAux [a, b, c, d, e] 0 (height - bx.top) 0 = 3 := by
    simp only [lineIndexAtHeightAux]
    rw [if_neg (by push_neg; linarith), if_neg (by push_neg; linarith),
      if_neg (by push_neg; linarith), if_pos (by linarith)]
  have hbreak :
      getLineBreak (.node t p st bx [a, b, c, d, e] ch) height = 3 := by
    unfold getLineBreak lineIndexAtHeight
    simp only [PNode.props, PNode.box, PNode.lines, hw, ho, hidx,
      List.length_cons, List.length_nil]
    norm_num
  refine ⟨hbreak, ?_, ?_⟩
  · simp [splitText, hbreak, PNode.lines]
  · simp [splitText, hbreak, PNode.lines]

/-- C2 — witness for the amended theorem at the concrete five-line node. -/
theorem C2_amended_witness :
    getLineBreak fiveLineNode 30 = 3 ∧
      (splitText fiveLineNode 30).1.lines = [⟨10⟩, ⟨10⟩, ⟨10⟩] ∧
      (splitText fiveLineNode 30).2.lines = [⟨10⟩, ⟨10⟩] :=
  C2_amended fiveLineNode 30 rfl rfl ⟨10⟩ ⟨10⟩ ⟨10⟩ ⟨10⟩ ⟨10⟩ rfl
    (by norm_num [fiveLineNode, PNode.box]) (by norm_num [fiveLineNode, PNode.box])
    (by norm_num) (by norm_num) (by norm_num)

theorem splitNodesGo_allFixed (height contentArea : ℚ) (nodes : List PNode)
    (hfix : ∀ c ∈ nodes, isFixed c = true) (cur nxt : List PNode) :
    splitNodesGo height contentArea cur nxt nodes = (cur ++ nodes, nxt ++ nodes) := by
  induction nodes generalizing cur nxt with
  | nil => simp [splitNodesGo]
  | cons child rest ih =>
      rw [splitNodesGo]
      simp only [hfix child (by simp), if_true]
      rw [ih (fun c hc => hfix c (by simp [hc]))]
      simp

/-- C10.  First conjunct: `splitPage` returns no continuation page
whenever the children assigned to the next page are empty or consist
solely of fixed nodes (the guard `nextChilds.length === 0 ||
allFixed(nextChilds)`).  Second conjunct: a page with no dynamic nodes
whose children are all fixed paginates to exactly one page, for any fuel —
fixed-node replication alone never produces an additional page. -/
theorem C10_splitPage_termination (resolveDynNodes : ℕ → PNode → PNode)
    (relayout : PNode → PNode) (fuel pageNumber : ℕ) (page : PNode) :
    ((splitNodes (getWrapArea page) (getContentArea page)
        (resolveDynamicPage resolveDynNodes relayout pageNumber page).children).2 = [] ∨
      allFixed (splitNodes (getWrapArea page) (getContentArea page)
        (resolveDynamicPage resolveDynNodes relayout pageNumber page).children).2 = true →
      (splitPage resolveDynNodes relayout page pageNumber).2 = none) ∧
    (shouldResolveDynamicNodes page = false → allFixed page.children = true →
      (paginate resolveDynNodes relayout fuel page pageNumber).length = 1) := by
  constructor
  · intro h
    unfold splitPage
    rcases h with h | h
    · simp [h]
    · simp [h]
  · intro hdyn hfix
    unfold paginate
    split
    · simp
    · have hsplit : (splitPage resolveDynNodes relayout page pageNumber).2 = none := by
        unfold splitPage resolveDynamicPage
        rw [hdyn]
        simp only [Bool.false_eq_true, if_false, splitNodes]
        rw [splitNodesGo_allFixed _ _ _ (fun c hc => by
          revert hc
          simpa [allFixed, List.all_eq_true] using fun hc => by
            exact (List.all_eq_true.mp hfix) c hc)]
        simp [hfix]
      simp [paginateGo, hsplit]

/-- C10 — witness: a page whose only child is a fixed header paginates to
a single page, with both hypotheses discharged concretely. -/
theorem C10_witness :
    (splitPage (fun _ p => p) id fixedOnlyPage 0).2 = none ∧
      (paginate (fun _ p => p) id 7 fixedOnlyPage 0).length = 1 := by
  refine ⟨(C10_splitPage_termination (fun _ p => p) id 7 0 fixedOnlyPage).1 ?_,
    (C10_splitPage_termination (fun _ p => p) id 7 0 fixedOnlyPage).2 ?_ ?_⟩
  · right
    simp [fixedOnlyPage, resolveDynamicPage, shouldResolveDynamicNodes, isDynamic,
      anyDynamic, splitNodes, splitNodesGo, isFixed, allFixed, PNode.children,
      PNode.props]
  · simp [fixedOnlyPage, shouldResolveDynamicNodes, isDynamic, anyDynamic,
      PNode.children, PNode.props]
  · simp [fixedOnlyPage, allFixed, isFixed, PNode.children, PNode.props]

theorem splitNodesGo_fixed_mem_next (height contentArea : ℚ) :
    ∀ (nodes cur nxt : List PNode) (f : PNode), isFixed f = true →
      f ∈ nxt ∨ f ∈ nodes → f ∈ (splitNodesGo height contentArea cur nxt nodes).2 := by
  intro nodes
  induction nodes with
  | nil =>
      intro cur nxt f hf hmem
      simp only [splitNodesGo]
      rcases hmem with h | h
      · exact h
      · simp at h
  | cons child rest ih =>
      intro cur nxt f hf hmem
      rw [splitNodesGo]
      by_cases c1 : isFixed child = true
      · rw [if_pos c1]
        refine ih _ _ f hf ?_
        rcases hmem with h | h
        · exact Or.inl (List.mem_append_left _ h)
        · rcases List.mem_cons.mp h with h | h
          · exact Or.inl (by simp [h])
          · exact Or.inr h
      · rw [if_neg c1]
        have hne : f ≠ child := fun he => c1 (he ▸ hf)
        have hmem2 : f ∈ nxt ∨ f ∈ rest := by
          rcases hmem with h | h
          · exact Or.inl h
          · rcases List.mem_cons.mp h with h | h
            · exact absurd h hne
            · exact Or.inr h
        by_cases c2 : height ≤ getTop child
        · rw [if_pos c2]
          exact ih _ _ f hf (hmem2.imp (fun h => List.mem_append_left _ h) id)
        · rw [if_neg c2]
          by_cases c3 : ¬child.box.height ≤ contentArea ∧ ¬getWrap child = true
          · rw [if_pos c3]
            rcases hmem2 with h | h <;> simp [List.mem_append, h]
          · rw [if_neg c3]
            by_cases c4 : shouldBreakNode child rest height = true
            · rw [if_pos c4]
              rcases hmem2 with h | h <;> simp [List.mem_append, h]
            · rw [if_neg c4]
              by_cases c5 : height + 1 / 1000 < getTop child + child.box.height
              · rw [if_pos c5]
                by_cases c6 : child.children.length > 0 ∧
                    (split child height contentArea).1.children.length = 0
                · rw [if_pos c6]
                  by_cases c7 : cur.length = 0
                  · rw [if_pos c7]
                    rcases hmem2 with h | h <;> simp [List.mem_append, h]
                  · rw [if_neg c7]
                    rcases hmem2 with h | h <;> simp [List.mem_append, h]
                · rw [if_neg c6]
                  exact ih _ _ f hf (hmem2.imp (fun h => List.mem_append_left _ h) id)
              · rw [if_neg c5]
                exact ih _ _ f hf hmem2

theorem splitNodesGo_fixed_mem_cur (height contentArea : ℚ) :
    ∀ (nodes cur nxt : List PNode) (f : PNode), isFixed f = true →
      f ∈ cur ∨ f ∈ nodes →
      (∀ c ∈ nodes, getWrap c = true ∨ c.box.height ≤ contentArea) →
      f ∈ (splitNodesGo height contentArea cur nxt nodes).1 := by
  intro nodes
  induction nodes with
  | nil =>
      intro cur nxt f hf hmem _
      simp only [splitNodesGo]
      rcases hmem with h | h
      · exact h
      · simp at h
  | cons child rest ih =>
      intro cur nxt f hf hmem hwrap
      have hwrap_rest : ∀ c ∈ rest, getWrap c = true ∨ c.box.height ≤ contentArea :=
        fun c hc => hwrap c (by simp [hc])
      rw [splitNodesGo]
      by_cases c1 : isFixed child = true
      · rw [if_pos c1]
        refine ih _ _ f hf ?_ hwrap_rest
        rcases hmem with h | h
        · exact Or.inl (List.mem_append_left _ h)
        · rcases List.mem_cons.mp h with h | h
          · exact Or.inl (by simp [h])
          · exact Or.inr h
      · rw [if_neg c1]
        have hne : f ≠ child := fun he => c1 (he ▸ hf)
        have hmem2 : f ∈ cur ∨ f ∈ rest := by
          rcases hmem with h | h
          · exact Or.inl h
          · rcases List.mem_cons.mp h with h | h
            · exact absurd h hne
            · exact Or.inr h
        by_cases c2 : height ≤ getTop child
        · rw [if_pos c2]
          exact ih _ _ f hf hmem2 hwrap_rest
        · rw [if_neg c2]
          by_cases c3 : ¬child.box.height ≤ contentArea ∧ ¬getWrap child = true
          · exfalso
            rcases hwrap child (by simp) with h | h
            · exact c3.2 (by simp [h])
            · exact c3.1 h
          · rw [if_neg c3]
            by_cases c4 : shouldBreakNode child rest height = true
            · rw [if_pos c4]
              rcases hmem2 with h | h
              · simp [List.mem_append, h]
              · exact List.mem_append_right _ (List.mem_filter.mpr ⟨h, hf⟩)
            · rw [if_neg c4]
              by_cases c5 : height + 1 / 1000 < getTop child + child.box.height
              · rw [if_pos c5]
                by_cases c6 : child.children.length > 0 ∧
                    (split child height contentArea).1.children.length = 0
                · rw [if_pos c6]
                  by_cases c7 : cur.length = 0
                  · rw [if_pos c7]
                    rcases hmem2 with h | h
                    · simp [List.mem_append, h]
                    · exact List.mem_append_right _
                        (List.mem_cons_of_mem _ (List.mem_filter.mpr ⟨h, hf⟩))
                  · rw [if_neg c7]
                    rcases hmem2 with h | h
                    · simp [List.mem_append, h]
                    · exact List.mem_append_right _ (List.mem_filter.mpr ⟨h, hf⟩)
                · rw [if_neg c6]
                  exact ih _ _ f hf
                    (hmem2.imp (fun h => List.mem_append_left _ h) id) hwrap_rest
              · rw [if_neg c5]
                exact ih _ _ f hf
                  (hmem2.imp (fun h => List.mem_append_left _ h) id) hwrap_rest

/-- C8 — counterexample.  `splitNodes` at height 100 / content area 50 on
an oversized non-wrapping image followed by a fixed header takes the
`!fitsInsidePage && !canWrap` path: the fixed header is pushed only onto
the next page's children and is absent from the current page's children,
contradicting the claim that every fixed child is replicated into both. -/
theorem C8_counterexample :
    isFixed fixedHeader = true ∧
      (splitNodes 100 50 [bigUnwrappable, fixedHeader]).1 = [bigUnwrappable] ∧
      (splitNodes 100 50 [bigUnwrappable, fixedHeader]).2 = [fixedHeader] ∧
      fixedHeader ∉ (splitNodes 100 50 [bigUnwrappable, fixedHeader]).1 := by
  have h1 : (splitNodes 100 50 [bigUnwrappable, fixedHeader]) =
      ([bigUnwrappable], [fixedHeader]) := by
    rw [splitNodes, splitNodesGo]
    norm_num [isFixed, getTop, getWrap, bigUnwrappable, fixedHeader,
      PNode.box, PNode.props, PNode.type]
  refine ⟨by simp [isFixed, fixedHeader, PNode.props], by simp [h1], by simp [h1], ?_⟩
  rw [h1]
  simp [bigUnwrappable, fixedHeader]

/-- C8 — amended.  Every fixed child is placed unchanged into the next
page's children; it is also placed unchanged into the current page's
children provided no sibling is forced whole onto the current page by the
unwrappable-overflow path (i.e. every child either can wrap or fits the
content area).  In the unwrappable-overflow path, fixed children after
the oversized child land only on the next page. -/
theorem C8_amended (height contentArea : ℚ) (nodes : List PNode) (f : PNode)
    (hf : isFixed f = true) (hmem : f ∈ nodes) :
    f ∈ (splitNodes height contentArea nodes).2 ∧
      ((∀ c ∈ nodes, getWrap c = true ∨ c.box.height ≤ contentArea) →
        f ∈ (splitNodes height contentArea nodes).1) :=
  ⟨splitNodesGo_fixed_mem_next height contentArea nodes [] [] f hf (Or.inr hmem),
   fun hwrap =>
     splitNodesGo_fixed_mem_cur height contentArea nodes [] [] f hf (Or.inr hmem) hwrap⟩

/-- C8 — witness: a single fixed header is replicated into both fragments. -/
theorem C8_amended_witness :
    fixedHeader ∈ (splitNodes 100 50 [fixedHeader]).2 ∧
      ((∀ c ∈ [fixedHeader], getWrap c = true ∨ c.box.height ≤ (50 : ℚ)) →
        fixedHeader ∈ (splitNodes 100 50 [fixedHeader]).1) :=
  C8_amended 100 50 [fixedHeader] fixedHeader
    (by simp [isFixed, fixedHeader, PNode.props]) (by simp)

end Pagination

namespace Textkit

theorem listGetD_set_self (l : List ℚ) (i : ℕ) (v : ℚ) (h : i < l.length) :
    (l.set i v).getD i 0 = v := by
  induction l generalizing i with
  | nil => simp at h
  | cons a t ih =>
      cases i with
      | zero => simp
      | succ n => simpa using ih n (by simpa using h)

theorem listGetD_set_ne (l : List ℚ) (i j : ℕ) (v : ℚ) (h : i ≠ j) :
    (l.set i v).getD j 0 = l.getD j 0 := by
  induction l generalizing i j with
  | nil => simp
  | cons a t ih =>
      cases i with
      | zero =>
          cases j with
          | zero => exact absurd rfl h
          | succ m => simp
      | succ n =>
          cases j with
          | zero => simp
          | succ m => simpa using ih n m (fun hh => h (by rw [hh]))

theorem foldl_add_eq_sum (g : α → ℚ) (l : List α) (init : ℚ) :
    l.foldl (fun acc x => acc + g x) init = init + (l.map g).sum := by
  induction l generalizing init with
  | nil => simp
  | cons a t ih => simp [ih, add_assoc]

theorem advanceWidthPositions_eq (positions : List Pos) :
    advanceWidthPositions positions = (positions.map (fun p => p.xAdvance)).sum := by
  simpa using foldl_add_eq_sum (fun p : Pos => p.xAdvance) positions 0

theorem advanceWidthLine_eq (line : Line α) :
    advanceWidthLine line = (line.runs.map advanceWidthRun).sum := by
  simpa using foldl_add_eq_sum advanceWidthRun line.runs 0

theorem prioSum_cons (f : Factor) (rest : List Factor) (p : ℕ) :
    prioSum (f :: rest) p =
      (if f.priority = p then f.before + f.after else 0) + prioSum rest p := by
  by_cases h : f.priority = p <;> simp [prioSum, List.filter_cons, h]

theorem prioSum_nonneg (factors : List Factor)
    (h : ∀ f ∈ factors, 0 ≤ f.before + f.after) (p : ℕ) :
    0 ≤ prioSum factors p := by
  induction factors with
  | nil => simp [prioSum]
  | cons f rest ih =>
      rw [prioSum_cons]
      have h1 := h f (by simp)
      have h2 := ih (fun g hg => h g (by simp [hg]))
      by_cases hp : f.priority = p <;> simp [hp] <;> linarith

theorem sumFactorsGo_spec (factors : List Factor) :
    ∀ (t : ℚ) (ps us : List ℚ), ps.length = 4 →
      (∀ f ∈ factors, f.priority < 4) →
      (∀ f ∈ factors, f.unconstrained = false) →
      (List.foldl sumFactorsStep (t, ps, us) factors).1 = t + totalSum factors ∧
      (List.foldl sumFactorsStep (t, ps, us) factors).2.1.length = 4 ∧
      (∀ p, (List.foldl sumFactorsStep (t, ps, us) factors).2.1.getD p 0 =
        ps.getD p 0 + prioSum factors p) ∧
      (List.foldl sumFactorsStep (t, ps, us) factors).2.2 = us := by
  induction factors with
  | nil =>
      intro t ps us hlen _ _
      simp [totalSum, prioSum, hlen]
  | cons f rest ih =>
      intro t ps us hlen h4 hu
      have hf4 : f.priority < 4 := h4 f (by simp)
      have hfu : f.unconstrained = false := hu f (by simp)
      have h4r : ∀ g ∈ rest, g.priority < 4 := fun g hg => h4 g (by simp [hg])
      have hur : ∀ g ∈ rest, g.unconstrained = false := fun g hg => hu g (by simp [hg])
      have hstep : sumFactorsStep (t, ps, us) f =
          (t + (f.before + f.after),
           ps.set f.priority (ps.getD f.priority 0 + (f.before + f.after)), us) := by
        simp [sumFactorsStep, hfu]
      rw [List.foldl_cons, hstep]
      have hlen2 :
          (ps.set f.priority (ps.getD f.priority 0 + (f.before + f.after))).length = 4 := by
        simp [hlen]
      obtain ⟨c1, c2, c3, c4⟩ :=
        ih (t + (f.before + f.after))
          (ps.set f.priority (ps.getD f.priority 0 + (f.before + f.after))) us hlen2 h4r hur
      refine ⟨?_, c2, ?_, c4⟩
      · rw [c1]
        simp [totalSum]
        ring
      · intro p
        rw [c3 p, prioSum_cons]
        by_cases hp : f.priority = p
        · subst hp
          rw [listGetD_set_self _ _ _ (by omega)]
          simp
          ring
        · rw [listGetD_set_ne _ _ _ _ hp]
          simp [hp]

end Textkit

namespace Textkit

theorem zeros_set (pr : ℕ) : (([0, 0, 0, 0] : List ℚ).set pr 0) = [0, 0, 0, 0] := by
  match pr with
  | 0 => rfl
  | 1 => rfl
  | 2 => rfl
  | 3 => rfl
  | n + 4 => rfl

theorem zeros_getD (pr : ℕ) : (([0, 0, 0, 0] : List ℚ).getD pr 0) = 0 := by
  match pr with
  | 0 => rfl
  | 1 => rfl
  | 2 => rfl
  | 3 => rfl
  | n + 4 => rfl

theorem sum_mul_congr (l : List ℕ) (g S1 S2 : ℕ → ℚ)
    (h : ∀ q ∈ l, S1 q = S2 q) :
    (l.map (fun q => g q * S1 q)).sum = (l.map (fun q => g q * S2 q)).sum := by
  apply congrArg
  apply List.map_congr_left
  intro q hq
  rw [h q hq]

theorem distLoop_spec :
    ∀ (prs : List ℕ) (P : List ℚ) (rem : ℚ) (hi : ℤ) (his : ℚ),
      P.length = 4 →
      prs.Pairwise (· < ·) →
      (∀ p ∈ prs, p < 4) →
      0 < rem →
      (∀ p ∈ prs, 0 ≤ P.getD p 0) →
      DistLoopSpec prs P rem hi his (distLoop P [0, 0, 0, 0] rem hi his prs) := by
  intro prs
  induction prs with
  | nil =>
      intro P rem hi his hlen _ _ hrem _
      unfold DistLoopSpec distLoop
      refine ⟨rfl, hlen, fun q _ => rfl,
        Or.inl ⟨rfl, by simp, by simpa using hrem, ?_, ?_⟩⟩
      · intro p hp
        simp at hp
      · by_cases h : hi = -1
        · exact Or.inl ⟨h, fun p hp => by simp at hp, h, rfl⟩
        · exact Or.inr (Or.inr ⟨h, rfl, rfl⟩)
  | cons p rest ih =>
      intro P rem hi his hlen hsort hbound hrem hnn
      have hp4 : p < 4 := hbound p (by simp)
      have hplt : ∀ q ∈ rest, p < q := (List.pairwise_cons.mp hsort).1
      have hnotin : p ∉ rest := fun h => lt_irrefl p (hplt p h)
      have hsort2 : rest.Pairwise (· < ·) := (List.pairwise_cons.mp hsort).2
      have hbound2 : ∀ q ∈ rest, q < 4 := fun q hq => hbound q (by simp [hq])
      have hSp := hnn p (by simp)
      rw [distLoop]
      by_cases hz : P.getD p 0 ≠ 0
      · rw [if_pos hz]
        by_cases hcover : |rem| ≤ |P.getD p 0|
        · rw [if_pos hcover]
          refine ⟨zeros_set p, by simp [hlen], ?_, Or.inr ⟨rfl, by simp, ?_⟩⟩
          · intro q hq
            exact listGetD_set_ne _ _ _ _ (fun he => hq (by simp [he]))
          · simp only [List.map_cons, List.sum_cons]
            rw [if_neg (lt_irrefl p), listGetD_set_self _ _ _ (by omega)]
            have h2 : (rest.map (fun q =>
                (if p < q then 0 else (P.set p (rem / P.getD p 0)).getD q 0) *
                  P.getD q 0)).sum = 0 := by
              apply List.sum_eq_zero
              intro x hx
              obtain ⟨q, hq, hqx⟩ := List.mem_map.mp hx
              rw [← hqx, if_pos (hplt q hq), zero_mul]
            rw [h2, div_mul_cancel₀ _ hz]
            ring
        · rw [if_neg hcover]
          rw [if_neg (fun hcon => hcon (zeros_getD p))]
          have habs : |P.getD p 0| = P.getD p 0 := abs_of_nonneg hSp
          have h1 : |P.getD p 0| < |rem| := lt_of_not_le hcover
          have h2 : P.getD p 0 < rem := by rwa [habs, abs_of_pos hrem] at h1
          have hrem2 : 0 < rem - P.getD p 0 := by linarith
          have hlen2 : (P.set p 1).length = 4 := by simp [hlen]
          have hset_ne : ∀ q ∈ rest, (P.set p 1).getD q 0 = P.getD q 0 := fun q hq =>
            listGetD_set_ne _ _ _ _ (fun he => hnotin (by rw [he]; exact hq))
          have hnn2 : ∀ q ∈ rest, 0 ≤ (P.set p 1).getD q 0 := by
            intro q hq
            rw [hset_ne q hq]
            exact hnn q (by simp [hq])
          have hmapeq : rest.map (fun q => (P.set p 1).getD q 0) =
              rest.map (fun q => P.getD q 0) := by
            apply List.map_congr_left
            exact hset_ne
          have hhi2 : (if hi = -1 then (p : ℤ) else hi) ≠ -1 := by
            by_cases hhi : hi = -1
            · rw [if_pos hhi]
              omega
            · rw [if_neg hhi]
              exact hhi
          obtain ⟨u1, u2, u3, u4⟩ := ih (P.set p 1) (rem - P.getD p 0)
            (if hi = -1 then (p : ℤ) else hi)
            (if hi = -1 then P.getD p 0 else his) hlen2 hsort2 hbound2 hrem2 hnn2
          set out := distLoop (P.set p 1) [0, 0, 0, 0] (rem - P.getD p 0)
            (if hi = -1 then (p : ℤ) else hi)
            (if hi = -1 then P.getD p 0 else his) rest with hout
          refine ⟨u1, u2, ?_, ?_⟩
          · intro q hq
            have hqp : p ≠ q := fun he => hq (by simp [he])
            have hqr : q ∉ rest := fun h => hq (by simp [h])
            rw [u3 q hqr, listGetD_set_ne _ _ _ _ hqp]
          · rcases u4 with ⟨e1, e2, e3, e4, e5⟩ | ⟨b1, b2, b3⟩
            · left
              refine ⟨e1, ?_, ?_, ?_, ?_⟩
              · rw [e2, hmapeq]
                simp only [List.map_cons, List.sum_cons]
                ring
              · exact e3
              · intro q hq
                rcases List.mem_cons.mp hq with he | hq2
                · subst he
                  rw [u3 q hnotin, listGetD_set_self _ _ _ (by omega), if_neg hz]
                · rw [e4 q hq2, hset_ne q hq2]
              · rcases e5 with ⟨f1, _, _, _⟩ | ⟨f1, _, _, _, _, _⟩ | ⟨_, f2, f3⟩
                · exact absurd f1 hhi2
                · exact absurd f1 hhi2
                · by_cases hhi : hi = -1
                  · exact Or.inr (Or.inl ⟨hhi, p, by simp,
                      f2.trans (by rw [if_pos hhi]),
                      f3.trans (by rw [if_pos hhi]), hz⟩)
                  · exact Or.inr (Or.inr ⟨hhi,
                      f2.trans (by rw [if_neg hhi]),
                      f3.trans (by rw [if_neg hhi])⟩)
            · right
              refine ⟨b1, List.mem_cons.mpr (Or.inr b2), ?_⟩
              simp only [List.map_cons, List.sum_cons]
              have hpe := hplt _ b2
              rw [if_neg (by omega), u3 p hnotin,
                listGetD_set_self _ _ _ (by omega), one_mul]
              have hsum2 := sum_mul_congr rest
                (fun q => if out.exitPriority < q then 0 else out.priorities.getD q 0)
                (fun q => P.getD q 0) (fun q => (P.set p 1).getD q 0)
                (fun q hq => (hset_ne q hq).symm)
              simp only at hsum2
              linarith [hsum2, b3]
      · rw [if_neg hz]
        push_neg at hz
        obtain ⟨u1, u2, u3, u4⟩ := ih P rem hi his hlen hsort2 hbound2 hrem
          (fun q hq => hnn q (by simp [hq]))
        refine ⟨u1, u2, ?_, ?_⟩
        · intro q hq
          exact u3 q (fun h => hq (by simp [h]))
        · rcases u4 with ⟨e1, e2, e3, e4, e5⟩ | ⟨b1, b2, b3⟩
          · left
            refine ⟨e1, by
              rw [e2]
              simp only [List.map_cons, List.sum_cons]
              rw [hz]
              ring, e3, ?_, ?_⟩
            · intro q hq
              rcases List.mem_cons.mp hq with he | hq2
              · subst he
                rw [u3 q hnotin, hz]
                simp
              · exact e4 q hq2
            · rcases e5 with ⟨f1, f2, f3, f4⟩ | ⟨f1, h, hh, f3, f4, f5⟩ | hf
              · left
                refine ⟨f1, ?_, f3, f4⟩
                intro q hq
                rcases List.mem_cons.mp hq with he | hq2
                · subst he
                  exact hz
                · exact f2 q hq2
              · exact Or.inr (Or.inl ⟨f1, h, by simp [hh], f3, f4, f5⟩)
              · exact Or.inr (Or.inr hf)
          · right
            refine ⟨b1, List.mem_cons.mpr (Or.inr b2), ?_⟩
            simp only [List.map_cons, List.sum_cons, hz, mul_zero, zero_add]
            exact b3

end Textkit

namespace Textkit

theorem zeroAfterGo_length (e : ℕ) : ∀ (l : List ℚ) (i : ℕ),
    (zeroAfterGo e i l).length = l.length := by
  intro l
  induction l with
  | nil => intro i; rfl
  | cons x rest ih => intro i; simp [zeroAfterGo, ih]

theorem zeroAfterGo_getD (e : ℕ) : ∀ (l : List ℚ) (i p : ℕ),
    (zeroAfterGo e i l).getD p 0 =
      if p < l.length then (if e < i + p then 0 else l.getD p 0) else 0 := by
  intro l
  induction l with
  | nil => intro i p; simp [zeroAfterGo]
  | cons x rest ih =>
      intro i p
      cases p with
      | zero => simp [zeroAfterGo]
      | succ n =>
          simp only [zeroAfterGo, List.getD_cons_succ, List.length_cons]
          rw [ih (i + 1) n]
          have harith : i + 1 + n = i + (n + 1) := by omega
          rw [harith]
          by_cases hlt : n < rest.length
          · simp [hlt]
          · simp [hlt]

end Textkit

namespace Textkit

theorem distancesFrom_sum (P U : List ℚ) :
    ∀ (factors : List Factor), (∀ f ∈ factors, f.unconstrained = false) →
      (distancesFrom P U factors).sum =
        (factors.map (fun f => (f.before + f.after) * P.getD f.priority 0)).sum -
          (match factors.head? with
           | some f => f.before * P.getD f.priority 0
           | none => 0) := by
  intro factors
  induction factors with
  | nil => intro _; simp [distancesFrom]
  | cons f rest ih =>
      intro hu
      have hfu : f.unconstrained = false := hu f (by simp)
      have hur : ∀ g ∈ rest, g.unconstrained = false := fun g hg => hu g (by simp [hg])
      rw [distancesFrom]
      simp only [hfu, Bool.false_eq_true, if_false, List.sum_cons]
      rw [ih hur]
      cases rest with
      | nil => simp; ring
      | cons g rest2 =>
          simp only [List.head?_cons, List.map_cons, List.sum_cons]
          ring

theorem group_by_priority (M : ℕ → ℚ) :
    ∀ (factors : List Factor), (∀ f ∈ factors, f.priority < 4) →
      (factors.map (fun f => (f.before + f.after) * M f.priority)).sum =
        M 0 * prioSum factors 0 + M 1 * prioSum factors 1 +
          M 2 * prioSum factors 2 + M 3 * prioSum factors 3 := by
  intro factors
  induction factors with
  | nil => intro _; simp [prioSum]
  | cons f rest ih =>
      intro h4
      have hf4 : f.priority < 4 := h4 f (by simp)
      have h4r : ∀ g ∈ rest, g.priority < 4 := fun g hg => h4 g (by simp [hg])
      simp only [List.map_cons, List.sum_cons]
      rw [ih h4r, prioSum_cons, prioSum_cons, prioSum_cons, prioSum_cons]
      interval_cases h : f.priority <;> simp <;> ring

theorem totalSum_eq_prioSums (factors : List Factor)
    (h4 : ∀ f ∈ factors, f.priority < 4) :
    totalSum factors =
      prioSum factors 0 + prioSum factors 1 + prioSum factors 2 + prioSum factors 3 := by
  have h := group_by_priority (fun _ => 1) factors h4
  simp only [mul_one, one_mul] at h
  rw [totalSum, ← h]

theorem prioSum_pos_of_mem (factors : List Factor) (f : Factor)
    (hmem : f ∈ factors) (hnz : f.before + f.after ≠ 0)
    (hnn : ∀ g ∈ factors, 0 ≤ g.before + g.after) :
    prioSum factors f.priority ≠ 0 := by
  have hfpos : 0 < f.before + f.after :=
    lt_of_le_of_ne (hnn f hmem) (Ne.symm hnz)
  have hmem2 : f ∈ factors.filter (fun g => g.priority = f.priority) :=
    List.mem_filter.mpr ⟨hmem, by simp⟩
  have hsum : f.before + f.after ≤ prioSum factors f.priority := by
    unfold prioSum
    apply List.single_le_sum
    · intro x hx
      obtain ⟨g, hg, hgx⟩ := List.mem_map.mp hx
      rw [← hgx]
      exact hnn g (List.mem_filter.mp hg).1
    · exact List.mem_map.mpr ⟨f, hmem2, rfl⟩
  linarith

theorem mem_range4 (p : ℕ) (h : p < 4) : p ∈ [0, 1, 2, 3] := by
  interval_cases p <;> simp

end Textkit

namespace Textkit

theorem ite_mul_self (S : ℚ) : (if S = 0 then (0 : ℚ) else 1) * S = S := by
  by_cases h : S = 0 <;> simp [h]

theorem getDistances_sum (gap : ℚ) (factors : List Factor)
    (h4 : ∀ f ∈ factors, f.priority < 4)
    (hu : ∀ f ∈ factors, f.unconstrained = false)
    (hnn : ∀ f ∈ factors, 0 ≤ f.before + f.after)
    (hgap : 0 < gap)
    (hex : ∃ f ∈ factors, f.before + f.after ≠ 0)
    (hhead : ∀ f, factors.head? = some f → f.before = 0) :
    (getDistances gap factors).sum = gap := by
  obtain ⟨s1, s2, s3, s4⟩ :=
    sumFactorsGo_spec factors 0 [0, 0, 0, 0] [0, 0, 0, 0] rfl h4 hu
  have hT : (sumFactors factors).1 = totalSum factors := by
    simpa [sumFactors] using s1
  have hP : ∀ p, (sumFactors factors).2.1.getD p 0 = prioSum factors p := by
    intro p
    have h := s3 p
    rw [zeros_getD, zero_add] at h
    simpa [sumFactors] using h
  have hlen : (sumFactors factors).2.1.length = 4 := by simpa [sumFactors] using s2
  have hU : (sumFactors factors).2.2 = [0, 0, 0, 0] := by simpa [sumFactors] using s4
  have hTsum : totalSum factors =
      prioSum factors 0 + prioSum factors 1 + prioSum factors 2 + prioSum factors 3 :=
    totalSum_eq_prioSums factors h4
  obtain ⟨ff, hff, hffnz⟩ := hex
  have hSpos : prioSum factors ff.priority ≠ 0 :=
    prioSum_pos_of_mem factors ff hff hffnz hnn
  obtain ⟨f0, hf0⟩ : ∃ f, factors.head? = some f := by
    cases factors with
    | nil => simp at hff
    | cons g rest => exact ⟨g, rfl⟩
  have hf0b : f0.before = 0 := hhead f0 hf0
  rw [getDistances]
  rw [hU]
  obtain ⟨w1, w2, w3, w4⟩ := distLoop_spec [0, 1, 2, 3] (sumFactors factors).2.1
    gap (-1) 0 hlen (by decide) (by decide) hgap
    (fun p _ => by rw [hP p]; exact prioSum_nonneg factors hnn p)
  set out := distLoop (sumFactors factors).2.1 [0, 0, 0, 0] gap (-1) 0 [0, 1, 2, 3]
    with hout
  rcases w4 with ⟨e1, e2, e3, e4, e5⟩ | ⟨b1, b2, b3⟩
  · -- natural exit: the leftover assignment restores conservation
    have hhighest : ∃ h : ℕ, h ∈ ([0, 1, 2, 3] : List ℕ) ∧
        out.highestPriority = (h : ℤ) ∧
        out.highestPrioritySum = (sumFactors factors).2.1.getD h 0 ∧
        (sumFactors factors).2.1.getD h 0 ≠ 0 := by
      rcases e5 with ⟨_, hall, _, _⟩ | ⟨_, hex2⟩ | ⟨hne, _, _⟩
      · exfalso
        apply hSpos
        rw [← hP ff.priority]
        exact hall ff.priority (mem_range4 ff.priority (h4 ff hff))
      · exact hex2
      · exact absurd rfl hne
    obtain ⟨h, hh, v1, v2, v3⟩ := hhighest
    have hcond : out.remainingGap > 0 ∧ out.highestPriority > -1 := by
      constructor
      · exact e3
      · rw [v1]
        omega
    rw [if_pos hcond, e1]
    have hlen2 : (zeroAfter 4 out.priorities).length = 4 := by
      rw [zeroAfter, zeroAfterGo_length, w2]
    have hzero4 : ∀ p, p < 4 → (zeroAfter 4 out.priorities).getD p 0 =
        out.priorities.getD p 0 := by
      intro p hp
      rw [zeroAfter, zeroAfterGo_getD, w2]
      rw [if_pos hp, if_neg (by omega)]
    have htoNat : out.highestPriority.toNat = h := by rw [v1]; simp
    rw [htoNat]
    set v := (out.highestPrioritySum + (gap - (sumFactors factors).1)) /
      out.highestPrioritySum with hv
    rw [distancesFrom_sum _ _ factors hu, hf0]
    simp only [hf0b, zero_mul, sub_zero]
    have hgrp := group_by_priority
      (fun p => ((zeroAfter 4 out.priorities).set h v).getD p 0) factors h4
    simp only at hgrp
    rw [hgrp]
    have hh4 : h < 4 := by
      rcases (by simpa using hh : h = 0 ∨ h = 1 ∨ h = 2 ∨ h = 3) with
        rfl | rfl | rfl | rfl <;> omega
    have hMh : ((zeroAfter 4 out.priorities).set h v).getD h 0 = v :=
      listGetD_set_self _ _ _ (by omega)
    have hMother : ∀ p, p < 4 → p ≠ h →
        ((zeroAfter 4 out.priorities).set h v).getD p 0 * prioSum factors p =
          prioSum factors p := by
      intro p hp hne
      rw [listGetD_set_ne _ _ _ _ (fun he => hne he.symm), hzero4 p hp,
        e4 p (mem_range4 p hp), hP p]
      exact ite_mul_self _
    have hvS : v * prioSum factors h = prioSum factors h + gap - totalSum factors := by
      rw [hv, v2, hP h, hT]
      rw [div_mul_cancel₀]
      · ring
      · rw [hP h] at v3
        exact v3
    rcases (by simpa using hh : h = 0 ∨ h = 1 ∨ h = 2 ∨ h = 3) with rfl | rfl | rfl | rfl
    · rw [hMh, hMother 1 (by omega) (by omega), hMother 2 (by omega) (by omega),
        hMother 3 (by omega) (by omega), hvS]
      linarith
    · rw [hMh, hMother 0 (by omega) (by omega), hMother 2 (by omega) (by omega),
        hMother 3 (by omega) (by omega), hvS]
      linarith
    · rw [hMh, hMother 0 (by omega) (by omega), hMother 1 (by omega) (by omega),
        hMother 3 (by omega) (by omega), hvS]
      linarith
    · rw [hMh, hMother 0 (by omega) (by omega), hMother 1 (by omega) (by omega),
        hMother 2 (by omega) (by omega), hvS]
      linarith
  · -- break: the visited buckets already absorbed the whole gap
    rw [if_neg (by rw [b1]; simp)]
    rw [distancesFrom_sum _ _ factors hu, hf0]
    simp only [hf0b, zero_mul, sub_zero]
    have hgrp := group_by_priority
      (fun p => (zeroAfter out.exitPriority out.priorities).getD p 0) factors h4
    simp only at hgrp
    rw [hgrp]
    have hzg : ∀ p, p < 4 → (zeroAfter out.exitPriority out.priorities).getD p 0 =
        if out.exitPriority < p then 0 else out.priorities.getD p 0 := by
      intro p hp
      rw [zeroAfter, zeroAfterGo_getD, w2, if_pos hp]
      simp
    simp only [List.map_cons, List.map_nil, List.sum_cons, List.sum_nil] at b3
    rw [hP 0, hP 1, hP 2, hP 3] at b3
    rw [hzg 0 (by omega), hzg 1 (by omega), hzg 2 (by omega), hzg 3 (by omega)]
    linarith

end Textkit

namespace Textkit

theorem growOK_before0 (f : Factor) (h : GrowFactorOK f) :
    GrowFactorOK { f with before := 0 } := ⟨h.1, h.2.1, le_refl 0, h.2.2.2⟩

theorem growOK_after0 (f : Factor) (h : GrowFactorOK f) :
    GrowFactorOK { f with after := 0 } := ⟨h.1, h.2.1, h.2.2.1, le_refl 0⟩

theorem growOK_char : GrowFactorOK (getCharFactor Direction.grow {}) := by
  refine ⟨rfl, ?_, ?_, ?_⟩ <;>
    norm_num [getCharFactor, applyOverride, EXPAND_CHAR_FACTOR, LETTER_PRIORITY]

theorem growOK_ws : GrowFactorOK (getWhitespaceFactor Direction.grow {}) := by
  refine ⟨rfl, ?_, ?_, ?_⟩ <;>
    norm_num [getWhitespaceFactor, applyOverride, EXPAND_WHITESPACE_FACTOR,
      WHITESPACE_PRIORITY]

theorem factorGo_growOK (cf wf : Factor) (hcf : GrowFactorOK cf)
    (hwf : GrowFactorOK wf) (total : ℕ) :
    ∀ (glyphs : List Glyph) (acc : List Factor), (∀ f ∈ acc, GrowFactorOK f) →
      ∀ f ∈ factorGo cf wf total glyphs acc, GrowFactorOK f := by
  intro glyphs
  induction glyphs with
  | nil =>
      intro acc hacc f hf
      simp only [factorGo] at hf
      exact hacc f (List.mem_reverse.mp hf)
  | cons g rest ih =>
      intro acc hacc f hf
      cases acc with
      | nil =>
          simp only [factorGo, List.length_nil] at hf
          by_cases hws : isWhiteSpace g
          · rw [if_pos hws] at hf
            by_cases hlast : (0 : ℕ) = total - 1
            · rw [if_pos hlast] at hf
              refine ih _ ?_ f hf
              intro f2 hf2
              rcases List.mem_singleton.mp hf2 with rfl
              exact growOK_before0 wf hwf
            · rw [if_neg hlast] at hf
              refine ih _ ?_ f hf
              intro f2 hf2
              rcases List.mem_singleton.mp hf2 with rfl
              exact hwf
          · rw [if_neg hws] at hf
            refine ih _ ?_ f hf
            intro f2 hf2
            rcases List.mem_singleton.mp hf2 with rfl
            exact hcf
      | cons prev tail =>
          have hprev : GrowFactorOK prev := hacc prev (by simp)
          have htail : ∀ f2 ∈ tail, GrowFactorOK f2 := fun f2 h2 => hacc f2 (by simp [h2])
          simp only [factorGo, List.length_cons] at hf
          by_cases hws : isWhiteSpace g
          · rw [if_pos hws] at hf
            by_cases hlast : tail.length + 1 = total - 1
            · rw [if_pos hlast] at hf
              refine ih _ ?_ f hf
              intro f2 hf2
              rcases List.mem_cons.mp hf2 with rfl | hf3
              · exact growOK_before0 wf hwf
              rcases List.mem_cons.mp hf3 with rfl | hf4
              · exact growOK_after0 prev hprev
              · exact htail f2 hf4
            · rw [if_neg hlast] at hf
              refine ih _ ?_ f hf
              intro f2 hf2
              rcases List.mem_cons.mp hf2 with rfl | hf3
              · exact hwf
              · exact hacc f2 hf3
          · rw [if_neg hws] at hf
            by_cases hmark : g.isMark
            · rw [if_pos hmark] at hf
              refine ih _ ?_ f hf
              intro f2 hf2
              rcases List.mem_cons.mp hf2 with rfl | hf3
              · exact growOK_before0 prev hprev
              rcases List.mem_cons.mp hf3 with rfl | hf4
              · exact growOK_after0 prev hprev
              · exact htail f2 hf4
            · rw [if_neg hmark] at hf
              refine ih _ ?_ f hf
              intro f2 hf2
              rcases List.mem_cons.mp hf2 with rfl | hf3
              · exact hcf
              · exact hacc f2 hf3

theorem foldl_append_mem (g : Run Attrs → List Factor) :
    ∀ (runs : List (Run Attrs)) (acc : List Factor) (f : Factor),
      f ∈ runs.foldl (fun a r => a ++ g r) acc → f ∈ acc ∨ ∃ r ∈ runs, f ∈ g r := by
  intro runs
  induction runs with
  | nil => intro acc f hf; exact Or.inl hf
  | cons r rest ih =>
      intro acc f hf
      rcases ih (acc ++ g r) f hf with h | ⟨r2, hr2, hfr2⟩
      · rcases List.mem_append.mp h with h | h
        · exact Or.inl h
        · exact Or.inr ⟨r, by simp, h⟩
      · exact Or.inr ⟨r2, by simp [hr2], hfr2⟩

theorem modifyLast_mem (g : Factor → Factor) :
    ∀ (l : List Factor) (f : Factor), f ∈ modifyLast g l →
      ∃ f0 ∈ l, f = f0 ∨ f = g f0 := by
  intro l
  induction l with
  | nil => intro f hf; simp [modifyLast] at hf
  | cons x rest ih =>
      intro f hf
      cases rest with
      | nil =>
          rcases List.mem_singleton.mp hf with rfl
          exact ⟨x, by simp, Or.inr rfl⟩
      | cons y rest2 =>
          simp only [modifyLast] at hf
          rcases List.mem_cons.mp hf with rfl | hf2
          · exact ⟨f, by simp, Or.inl rfl⟩
          · obtain ⟨f0, hf0, hor⟩ := ih f hf2
            exact ⟨f0, by simp [hf0], hor⟩

theorem getFactors_growOK (gap : ℚ) (line : Line Attrs) (hgap : 0 < gap) :
    ∀ f ∈ getFactors gap line {}, GrowFactorOK f := by
  intro f hf
  rw [getFactors] at hf
  simp only [if_pos hgap] at hf
  have hbase : ∀ f2 ∈ line.runs.foldl
      (fun acc run => acc ++ factorList Direction.grow {} run.glyphs) [],
      GrowFactorOK f2 := by
    intro f2 hf2
    rcases foldl_append_mem _ line.runs [] f2 hf2 with h | ⟨r, _, hfr⟩
    · simp at h
    · exact factorGo_growOK _ _ growOK_char growOK_ws _ _ []
        (by intro f3 hf3; simp at hf3) f2 hfr
  obtain ⟨f0, hf0, hor⟩ := modifyLast_mem _ _ f hf
  have hf0OK : GrowFactorOK f0 := by
    rcases hmm : (line.runs.foldl
        (fun acc run => acc ++ factorList Direction.grow {} run.glyphs) []) with
      _ | ⟨g0, grest⟩
    · rw [hmm] at hf0
      simp at hf0
    · rw [hmm] at hf0
      rcases List.mem_cons.mp hf0 with rfl | h
      · exact growOK_before0 g0 (hbase g0 (by rw [hmm]; simp))
      · exact hbase f0 (by rw [hmm]; simp [h])
  rcases hor with rfl | rfl
  · exact hf0OK
  · exact growOK_after0 f0 hf0OK

theorem getFactors_head_before (gap : ℚ) (line : Line Attrs)
    (options : JustificationOptions) :
    ∀ f, (getFactors gap line options).head? = some f → f.before = 0 := by
  intro f hf
  rw [getFactors] at hf
  rcases hmm : (line.runs.foldl (fun acc run => acc ++ factorList
      (if gap > 0 then Direction.grow else Direction.shrink) options run.glyphs) []) with
    _ | ⟨g0, grest⟩
  · rw [hmm] at hf
    simp [modifyLast] at hf
  · rw [hmm] at hf
    cases grest with
    | nil =>
        simp only [modifyLast, List.head?_cons] at hf
        have h := Option.some.inj hf
        rw [← h]
    | cons g1 grest2 =>
        simp only [modifyLast, List.head?_cons] at hf
        have h := Option.some.inj hf
        rw [← h]

end Textkit

namespace Textkit

theorem factorGo_length (cf wf : Factor) (total : ℕ) :
    ∀ (glyphs : List Glyph) (acc : List Factor),
      (factorGo cf wf total glyphs acc).length = acc.length + glyphs.length := by
  intro glyphs
  induction glyphs with
  | nil => intro acc; simp [factorGo]
  | cons g rest ih =>
      intro acc
      cases acc with
      | nil =>
          simp only [factorGo, List.length_nil]
          by_cases hws : isWhiteSpace g
          · rw [if_pos hws]
            by_cases hlast : (0 : ℕ) = total - 1
            · rw [if_pos hlast, ih]
              simp
              omega
            · rw [if_neg hlast, ih]
              simp
              omega
          · rw [if_neg hws, ih]
            simp
            omega
      | cons prev tail =>
          simp only [factorGo, List.length_cons]
          by_cases hws : isWhiteSpace g
          · rw [if_pos hws]
            by_cases hlast : tail.length + 1 = total - 1
            · rw [if_pos hlast, ih]
              simp
              omega
            · rw [if_neg hlast, ih]
              simp
              omega
          · rw [if_neg hws]
            by_cases hmark : g.isMark
            · rw [if_pos hmark, ih]
              simp
              omega
            · rw [if_neg hmark, ih]
              simp
              omega

theorem factorList_length (direction : Direction) (options : JustificationOptions)
    (glyphs : List Glyph) :
    (factorList direction options glyphs).length = glyphs.length := by
  rw [factorList, factorGo_length]
  simp

theorem foldl_append_length (g : Run Attrs → List Factor) :
    ∀ (runs : List (Run Attrs)) (acc : List Factor),
      (runs.foldl (fun a r => a ++ g r) acc).length =
        acc.length + (runs.map (fun r => (g r).length)).sum := by
  intro runs
  induction runs with
  | nil => intro acc; simp
  | cons r rest ih =>
      intro acc
      simp only [List.foldl_cons, List.map_cons, List.sum_cons]
      rw [ih]
      simp
      omega

theorem modifyLast_length (g : Factor → Factor) :
    ∀ (l : List Factor), (modifyLast g l).length = l.length := by
  intro l
  induction l with
  | nil => rfl
  | cons x rest ih =>
      cases rest with
      | nil => rfl
      | cons y rest2 =>
          simp only [modifyLast, List.length_cons]
          rw [ih]
          simp

theorem getFactors_length (gap : ℚ) (line : Line Attrs)
    (options : JustificationOptions) :
    (getFactors gap line options).length =
      (line.runs.map (fun r => r.glyphs.length)).sum := by
  have hfold := foldl_append_length (fun run => factorList
      (if gap > 0 then Direction.grow else Direction.shrink) options run.glyphs)
      line.runs []
  have h2 : (line.runs.map (fun r => (factorList
      (if gap > 0 then Direction.grow else Direction.shrink) options r.glyphs).length)).sum =
      (line.runs.map (fun r => r.glyphs.length)).sum := by
    apply congrArg
    apply List.map_congr_left
    intro r _
    rw [factorList_length]
  rw [h2] at hfold
  simp only [List.length_nil, zero_add] at hfold
  simp only [getFactors]
  rw [modifyLast_length]
  rcases hmm : line.runs.foldl (fun acc run => acc ++ factorList
      (if gap > 0 then Direction.grow else Direction.shrink) options run.glyphs) [] with
    _ | ⟨g0, grest⟩
  · rw [hmm] at hfold ⊢
    simpa using hfold
  · rw [hmm] at hfold ⊢
    simpa using hfold

theorem distancesFrom_length (P U : List ℚ) :
    ∀ (factors : List Factor), (distancesFrom P U factors).length = factors.length := by
  intro factors
  induction factors with
  | nil => rfl
  | cons f rest ih => simp [distancesFrom, ih]

theorem getDistances_length (gap : ℚ) (factors : List Factor) :
    (getDistances gap factors).length = factors.length := by
  rw [getDistances]
  exact distancesFrom_length _ _ _

theorem sumGetD_zero (d : List ℚ) (s : ℕ) : sumGetD d s 0 = 0 := by
  simp [sumGetD]

theorem sumGetD_succ (d : List ℚ) (s n : ℕ) :
    sumGetD d s (n + 1) = d.getD s 0 + sumGetD d (s + 1) n := by
  rw [sumGetD, List.range_succ_eq_map]
  simp only [List.map_cons, List.sum_cons, add_zero, List.map_map]
  rw [sumGetD]
  congr 1
  apply congrArg
  apply List.map_congr_left
  intro j _
  show d.getD (s + (j + 1)) 0 = d.getD (s + 1 + j) 0
  have h3 : s + (j + 1) = s + 1 + j := by omega
  rw [h3]

theorem sumGetD_add (d : List ℚ) :
    ∀ (n m s : ℕ), sumGetD d s (n + m) = sumGetD d s n + sumGetD d (s + n) m := by
  intro n
  induction n with
  | zero => intro m s; simp [sumGetD_zero]
  | succ k ih =>
      intro m s
      have h1 : k + 1 + m = (k + m) + 1 := by omega
      rw [h1, sumGetD_succ, sumGetD_succ, ih]
      have h2 : s + 1 + k = s + (k + 1) := by omega
      rw [h2]
      ring

theorem sumGetD_shift (x : ℚ) (xs : List ℚ) :
    ∀ (n k : ℕ), sumGetD (x :: xs) (k + 1) n = sumGetD xs k n := by
  intro n k
  rw [sumGetD, sumGetD]
  apply congrArg
  apply List.map_congr_left
  intro j _
  have : k + 1 + j = (k + j) + 1 := by omega
  rw [this]
  simp

theorem sumGetD_full (d : List ℚ) : sumGetD d 0 d.length = d.sum := by
  induction d with
  | nil => simp [sumGetD_zero]
  | cons x xs ih =>
      rw [List.length_cons, sumGetD_succ]
      rw [show (0 : ℕ) + 1 = 0 + 1 from rfl]
      rw [sumGetD_shift x xs xs.length 0, ih]
      simp

theorem advanceWidthPositions_cons (x : Pos) (xs : List Pos) :
    advanceWidthPositions (x :: xs) = x.xAdvance + advanceWidthPositions xs := by
  rw [advanceWidthPositions_eq, advanceWidthPositions_eq]
  simp

theorem justifyPos_adv (d : List ℚ) (idx : ℕ) :
    ∀ (ps : List Pos) (k : ℕ),
      advanceWidthPositions ((List.enumFrom k ps).map
        (fun p => { p.2 with xAdvance := p.2.xAdvance + d.getD (idx + p.1) 0 })) =
      advanceWidthPositions ps + sumGetD d (idx + k) ps.length := by
  intro ps
  induction ps with
  | nil => intro k; simp [advanceWidthPositions, sumGetD_zero]
  | cons x xs ih =>
      intro k
      simp only [List.enumFrom, List.map_cons, List.length_cons]
      rw [advanceWidthPositions_cons, advanceWidthPositions_cons, ih (k + 1),
        sumGetD_succ]
      have h : idx + (k + 1) = idx + k + 1 := by omega
      rw [h]
      ring

theorem advanceWidthRun_justify (d : List ℚ) (idx : ℕ) (r : Run α) :
    advanceWidthRun { r with
      positions := r.positions.enum.map (fun p =>
        { p.2 with xAdvance := p.2.xAdvance + d.getD (idx + p.1) 0 }) } =
      advanceWidthRun r + sumGetD d idx r.positions.length := by
  rw [advanceWidthRun, advanceWidthRun]
  have h := justifyPos_adv d idx r.positions 0
  rw [add_zero] at h
  exact h

theorem justifyRuns_adv (d : List ℚ) :
    ∀ (runs : List (Run α)) (idx : ℕ),
      ((justifyRuns d idx runs).map advanceWidthRun).sum =
        (runs.map advanceWidthRun).sum + sumGetD d idx (posCount runs) := by
  intro runs
  induction runs with
  | nil => intro idx; simp [justifyRuns, posCount, sumGetD_zero]
  | cons r rest ih =>
      intro idx
      rw [justifyRuns]
      simp only [List.map_cons, List.sum_cons]
      rw [ih (idx + r.positions.length)]
      rw [advanceWidthRun_justify]
      have hpc : posCount (r :: rest) = r.positions.length + posCount rest := by
        simp [posCount]
      rw [hpc, sumGetD_add]
      ring

theorem advanceWidthLine_justifyLine (d : List ℚ) (line : Line α)
    (hlen : d.length = posCount line.runs) :
    advanceWidthLine (justifyLine d line) = advanceWidthLine line + d.sum := by
  rw [justifyLine]
  rw [advanceWidthLine_eq, advanceWidthLine_eq]
  simp only
  rw [justifyRuns_adv d line.runs 0, ← hlen, sumGetD_full]

/-- **C3** (amended): a line strictly below capacity with at least one
non-zero-weight factor is justified to exactly its box width (assuming
positions and glyphs are in bijection, as shaping guarantees); a line
whose gap is zero is returned unchanged.  The spec's stronger "in every
other case the line is returned unchanged" is refuted by
`C3_counterexample`: an over-full line is shrunk, not left alone. -/
theorem C3_amended (line l2 : Line Attrs)
    (hcnt : ∀ r ∈ line.runs, r.positions.length = r.glyphs.length)
    (hlt : advanceWidthLine line < line.box.width)
    (hex : ∃ f ∈ getFactors (line.box.width - advanceWidthLine line) line {},
      f.before + f.after ≠ 0)
    (h0 : l2.box.width - advanceWidthLine l2 = 0) :
    advanceWidthLine (justification {} line) = line.box.width ∧
      justification {} l2 = l2 := by
  constructor
  · have hgap : 0 < line.box.width - advanceWidthLine line := by linarith
    have hOK := getFactors_growOK (line.box.width - advanceWidthLine line) line hgap
    have hsum := getDistances_sum (line.box.width - advanceWidthLine line)
      (getFactors (line.box.width - advanceWidthLine line) line {})
      (fun f hf => (hOK f hf).2.1)
      (fun f hf => (hOK f hf).1)
      (fun f hf => add_nonneg (hOK f hf).2.2.1 (hOK f hf).2.2.2)
      hgap hex
      (getFactors_head_before (line.box.width - advanceWidthLine line) line {})
    have hlen : (getDistances (line.box.width - advanceWidthLine line)
        (getFactors (line.box.width - advanceWidthLine line) line {})).length =
        posCount line.runs := by
      rw [getDistances_length, getFactors_length, posCount]
      apply congrArg
      apply List.map_congr_left
      intro r hr
      exact (hcnt r hr).symm
    have hne : line.box.width - advanceWidthLine line ≠ 0 := ne_of_gt hgap
    simp only [justification]
    rw [if_neg hne]
    rw [advanceWidthLine_justifyLine _ _ hlen, hsum]
    ring
  · simp only [justification]
    rw [if_pos h0]

/-- **C3** counterexample: `shrinkLine` is over-full (advance 20 against a
box of width 15), so it falls in the spec's "every other case", yet
`justification` does not return it unchanged — the shrink direction
modifies the glyph advances. -/
theorem C3_counterexample :
    shrinkLine.box.width < advanceWidthLine shrinkLine ∧
      justification {} shrinkLine ≠ shrinkLine := by
  constructor
  · norm_num [shrinkLine, advanceWidthLine, advanceWidthRun, advanceWidthPositions]
  · have habs : |(11 : ℚ) / 128| = 11 / 128 := abs_of_nonneg (by norm_num)
    norm_num [habs, justification, shrinkLine, advanceWidthLine, advanceWidthRun,
      advanceWidthPositions, justifyLine, justifyRuns, getDistances, getFactors,
      factorList, factorGo, getCharFactor, getWhitespaceFactor, isWhiteSpace,
      applyOverride, SHRINK_CHAR_FACTOR, SHRINK_WHITESPACE_FACTOR, modifyLast,
      sumFactors, sumFactorsStep, distLoop, zeroAfter, zeroAfterGo,
      distancesFrom, List.enum, List.enumFrom, Line.mk.injEq, Run.mk.injEq,
      Pos.mk.injEq, List.getD, KASHIDA_PRIORITY, WHITESPACE_PRIORITY,
      LETTER_PRIORITY, NULL_PRIORITY]

/-- Witness for **C3**: the amended theorem applied at the concrete
under-full two-glyph line `growLine` (justified to width 30) and at an
exact-fit variant of it (returned unchanged). -/
theorem C3_amended_witness :
    advanceWidthLine (justification {} growLine) = growLine.box.width ∧
      justification {} ({ growLine with box := { width := 20 } }) =
        { growLine with box := { width := 20 } } :=
  C3_amended growLine { growLine with box := { width := 20 } }
    (by intro r hr
        simp only [growLine, List.mem_singleton] at hr
        subst hr
        rfl)
    (by norm_num [growLine, advanceWidthLine, advanceWidthRun, advanceWidthPositions])
    (by refine ⟨⟨0, 37 / 256, 2, false⟩, ?_, by norm_num⟩
        norm_num [growLine, advanceWidthLine, advanceWidthRun, advanceWidthPositions,
          getFactors, factorList, factorGo, getCharFactor, getWhitespaceFactor,
          isWhiteSpace, applyOverride, EXPAND_CHAR_FACTOR, EXPAND_WHITESPACE_FACTOR,
          modifyLast, LETTER_PRIORITY, WHITESPACE_PRIORITY])
    (by norm_num [growLine, advanceWidthLine, advanceWidthRun, advanceWidthPositions])

end Textkit

namespace AS

theorem jsSlice_nonneg (i j : ℤ) (l : List α) (hi : 0 ≤ i) (hj : 0 ≤ j) :
    jsSlice i j l =
      (l.drop (min i (l.length : ℤ)).toNat).take
        ((min j (l.length : ℤ)) - (min i (l.length : ℤ))).toNat := by
  rw [jsSlice]
  rw [if_neg (by omega), if_neg (by omega)]

theorem jsSlice_append_left (i j : ℤ) (l : List α) (hi : 0 ≤ i) (hij : i ≤ j) :
    jsSlice 0 i l ++ jsSlice i j l = jsSlice 0 j l := by
  rw [jsSlice_nonneg 0 i l le_rfl hi, jsSlice_nonneg i j l hi (by omega),
    jsSlice_nonneg 0 j l le_rfl (by omega)]
  rw [min_eq_left (by omega : (0 : ℤ) ≤ (l.length : ℤ))]
  simp only [Int.toNat_zero, List.drop_zero, sub_zero]
  have h1 : (min j (l.length : ℤ)).toNat =
      (min i (l.length : ℤ)).toNat +
        ((min j (l.length : ℤ)) - (min i (l.length : ℤ))).toNat := by omega
  rw [h1, List.take_add]

theorem jsSlice_prefix_length (b : ℤ) (l : List α) (hb : 0 ≤ b)
    (hbn : b ≤ (l.length : ℤ)) : ((jsSlice 0 b l).length : ℤ) = b := by
  rw [jsSlice_nonneg 0 b l le_rfl hb]
  rw [min_eq_left (by omega : (0 : ℤ) ≤ (l.length : ℤ))]
  simp only [Int.toNat_zero, List.drop_zero, sub_zero]
  rw [List.length_take]
  omega

theorem runIndexAt_singleton (idx : ℤ) (r : ASRun α) :
    runIndexAt idx [r] = if r.start ≤ idx ∧ idx < r.endPos then 0 else -1 := by
  by_cases h : r.start ≤ idx ∧ idx < r.endPos
  · rw [if_pos h]
    simp [runIndexAt, List.findIdx?_cons, h]
  · rw [if_neg h]
    simp [runIndexAt, List.findIdx?_cons, h]

theorem jsSlice_singleton (r : ASRun α) : jsSlice 0 1 [r] = [r] := by
  simp [jsSlice]

theorem filterRuns_singleton (a b : ℤ) (r : ASRun α) (h1 : r.start ≤ a)
    (h2 : a < r.endPos) (h3 : r.start ≤ b - 1) (h4 : b - 1 < r.endPos) :
    filterRuns a b [r] = [r] := by
  rw [filterRuns, runIndexAt_singleton, runIndexAt_singleton,
    if_pos ⟨h1, h2⟩, if_pos ⟨h3, h4⟩]
  simp [jsSlice]

theorem sliceRuns_singleton (a b : ℤ) (r : ASRun α) :
    sliceRuns a b [r] = [subtractRun a (sliceRun (a - r.start) (b - r.start) r)] := by
  simp [sliceRuns, List.enum, List.enumFrom]

theorem sliceAS_singleRun (cs : List Char) (v : α) (a b : ℤ)
    (ha : 0 ≤ a) (han : a < (cs.length : ℤ)) (hb1 : 1 ≤ b)
    (hbn : b ≤ (cs.length : ℤ)) :
    sliceAS a b (singleRunAS cs v) = ⟨jsSlice a b cs, [⟨0, b - a, v⟩]⟩ := by
  have hr : filterRuns a b [(⟨0, (cs.length : ℤ), v⟩ : ASRun α)] =
      [⟨0, (cs.length : ℤ), v⟩] :=
    filterRuns_singleton a b _ (by show (0 : ℤ) ≤ a; omega)
      (by show a < (cs.length : ℤ); omega) (by show (0 : ℤ) ≤ b - 1; omega)
      (by show b - 1 < (cs.length : ℤ); omega)
  rw [sliceAS, if_neg (by show ¬cs.length = 0; omega)]
  show AttrString.mk (jsSlice a b cs)
      (sliceRuns a b (filterRuns a b [⟨0, (cs.length : ℤ), v⟩])) = _
  rw [hr, sliceRuns_singleton]
  simp only [sliceRun, subtractRun, AttrString.mk.injEq, List.cons.injEq,
    ASRun.mk.injEq]
  exact ⟨trivial, ⟨by omega, by omega, trivial⟩, trivial⟩

end AS

namespace AS

/-- **C4** counterexample: for the 3-character single-run attributed
string and the interior split point `i = 1`, `j = 3`, the concatenation
of the two slices reproduces `slice(0,3,s)` byte-for-byte in the string
but NOT run-for-run: the left list carries the straddled run split into
`[0,1)` and `[1,3)` where `slice(0,3,s)` has the single run `[0,3)`. -/
theorem C4_counterexample :
    (concatAS (sliceAS 0 1 exampleAS) (sliceAS 1 3 exampleAS)).string =
        (sliceAS 0 3 exampleAS).string ∧
      (concatAS (sliceAS 0 1 exampleAS) (sliceAS 1 3 exampleAS)).runs ≠
        (sliceAS 0 3 exampleAS).runs ∧
      concatAS (sliceAS 0 1 exampleAS) (sliceAS 1 3 exampleAS) ≠
        sliceAS 0 3 exampleAS := by
  refine ⟨by decide, by decide, by decide⟩

/-- **C4** (amended): `concat(slice(0,i,s), slice(i,j,s))` reproduces
`slice(0,j,s)` byte-for-byte in the underlying string for every
attributed string and all `0 ≤ i ≤ j`; run-for-run equality fails when
`i` falls strictly inside a run — for a single-run string the
concatenation carries the straddled run split into `[0,i)` and `[i,j)`
against the single run `[0,j)` of `slice(0,j,s)` — but the split pieces
merge back into that run under the source's run-level `concat`. -/
theorem C4_amended {α : Type} (merge : α → α → α) (a : AttrString α) (i j : ℤ)
    (hi : 0 ≤ i) (hij : i ≤ j)
    (cs : List Char) (v : α) (i2 j2 : ℤ)
    (h0 : 0 < i2) (h12 : i2 < j2) (h2n : j2 ≤ (cs.length : ℤ))
    (hmv : merge v v = v) :
    (concatAS (sliceAS 0 i a) (sliceAS i j a)).string = (sliceAS 0 j a).string ∧
      (concatAS (sliceAS 0 i2 (singleRunAS cs v))
          (sliceAS i2 j2 (singleRunAS cs v))).runs =
        [⟨0, i2, v⟩, ⟨i2, j2, v⟩] ∧
      (sliceAS 0 j2 (singleRunAS cs v)).runs = [⟨0, j2, v⟩] ∧
      concatRun merge (⟨0, i2, v⟩ : ASRun α) ⟨i2, j2, v⟩ = ⟨0, j2, v⟩ := by
  refine ⟨?_, ?_, ?_, ?_⟩
  · by_cases hz : a.string.length = 0
    · simp only [sliceAS, if_pos hz, concatAS]
      have : a.string = [] := List.length_eq_zero.mp hz
      simp [this]
    · simp only [sliceAS, if_neg hz, concatAS]
      exact jsSlice_append_left i j a.string hi hij
  · rw [sliceAS_singleRun cs v 0 i2 le_rfl (by omega) (by omega) (by omega),
      sliceAS_singleRun cs v i2 j2 (by omega) (by omega) (by omega) (by omega)]
    have hL : (((jsSlice 0 i2 cs).length : ℤ)) = i2 :=
      jsSlice_prefix_length i2 cs (by omega) (by omega)
    rw [concatAS]
    simp only [List.map_cons, List.map_map, List.map_nil]
    show ([⟨0, i2 - 0, v⟩] : List (ASRun α)) ++
        [⟨0 + ((jsSlice 0 i2 cs).length : ℤ),
          j2 - i2 + ((jsSlice 0 i2 cs).length : ℤ), v⟩] = _
    rw [hL]
    simp only [List.cons_append, List.nil_append, List.cons.injEq,
      ASRun.mk.injEq]
    exact ⟨⟨trivial, by omega, trivial⟩, ⟨by omega, by omega, trivial⟩, trivial⟩
  · rw [sliceAS_singleRun cs v 0 j2 le_rfl (by omega) (by omega) (by omega)]
    simp only [List.cons.injEq, ASRun.mk.injEq]
    exact ⟨⟨trivial, by omega, trivial⟩, trivial⟩
  · rw [concatRun, runLength]
    simp only [ASRun.mk.injEq]
    refine ⟨trivial, by omega, ?_⟩
    exact hmv

/-- Witness for **C4**: the amended theorem applied at the concrete
3-character single-run string with `i = 1`, `j = 3` and first-argument
attribute merge. -/
theorem C4_amended_witness :
    (concatAS (sliceAS 0 1 exampleAS) (sliceAS 1 3 exampleAS)).string =
        (sliceAS 0 3 exampleAS).string ∧
      (concatAS (sliceAS 0 1 (singleRunAS ['a', 'b', 'c'] ()))
          (sliceAS 1 3 (singleRunAS ['a', 'b', 'c'] ()))).runs =
        [⟨0, 1, ()⟩, ⟨1, 3, ()⟩] ∧
      (sliceAS 0 3 (singleRunAS ['a', 'b', 'c'] ())).runs = [⟨0, 3, ()⟩] ∧
      concatRun (fun x _ => x) (⟨0, 1, ()⟩ : ASRun Unit) ⟨1, 3, ()⟩ =
        ⟨0, 3, ()⟩ :=
  C4_amended (fun x _ => x) exampleAS 1 3 (by norm_num) (by norm_num)
    ['a', 'b', 'c'] () 1 3 (by norm_num) (by norm_num) (by norm_num) rfl

end AS

namespace Flatten

open AS (ASRun)

theorem sweepGo_nil (m : α → α → α) (e : α) (st : ℤ) (a : α)
    (stk : List (ℕ × α)) : sweepGo m e [] st a stk = [] := rfl

theorem sweepGo_canon (m : α → α → α) (e : α) :
    ∀ (ps : List (Point α)) (st : ℤ) (a : α) (stk : List (ℕ × α)),
      ps.Pairwise (fun p q => p.offset ≤ q.offset) →
      (st = -1 ∨ ∀ p ∈ ps, st ≤ p.offset) →
      (∀ r ∈ sweepGo m e ps st a stk, r.start ≠ -1 ∧ r.start < r.endPos) ∧
        (sweepGo m e ps st a stk).Chain' chainOK ∧
        ((∀ p ∈ ps, st ≤ p.offset) → ∀ r ∈ sweepGo m e ps st a stk, st ≤ r.start) ∧
        (∀ r l2, sweepGo m e ps st a stk = r :: l2 → st = -1 ∨ r.start = st) := by
  intro ps
  induction ps with
  | nil =>
      intro st a stk _ _
      refine ⟨by simp [sweepGo_nil], by simp [sweepGo_nil], by simp [sweepGo_nil], ?_⟩
      intro r l2 h
      rw [sweepGo_nil] at h
      exact absurd h (by simp)
  | cons p rest ih =>
      intro st a stk hsort hst
      have hsort2 : rest.Pairwise (fun p q => p.offset ≤ q.offset) := hsort.of_cons
      have hhead : ∀ q ∈ rest, p.offset ≤ q.offset := fun q hq =>
        List.rel_of_pairwise_cons hsort hq
      have hst2 : p.offset = -1 ∨ ∀ q ∈ rest, p.offset ≤ q.offset := Or.inr hhead
      -- the continuation state after this point, by kind
      obtain ⟨kind, off, a0, i0⟩ := p
      cases kind with
      | start =>
          obtain ⟨ih1, ih2, ih3, ih4⟩ :=
            ih off (m a a0) (stk ++ [(i0, a0)]) hsort2 hst2
          by_cases hc : st ≠ -1 ∧ st < off
          · rw [show sweepGo m e (⟨.start, off, a0, i0⟩ :: rest) st a stk =
                ⟨st, off, a⟩ ::
                  sweepGo m e rest off (m a a0) (stk ++ [(i0, a0)]) by
              simp only [sweepGo, if_pos hc]
              rfl]
            refine ⟨?_, ?_, ?_, ?_⟩
            · intro r hr
              rcases List.mem_cons.mp hr with h | h
              · subst h
                exact ⟨hc.1, hc.2⟩
              · exact ih1 r h
            · rw [List.chain'_cons']
              refine ⟨?_, ih2⟩
              intro y hy
              rcases hout : sweepGo m e rest off (m a a0) (stk ++ [(i0, a0)]) with
                _ | ⟨r2, l2⟩
              · rw [hout] at hy
                simp at hy
              · rw [hout] at hy
                simp only [List.head?_cons, Option.mem_def, Option.some.injEq] at hy
                subst hy
                rcases ih4 r2 l2 hout with hoff | heq
                · right
                  refine ⟨hoff, ?_⟩
                  have := ih3 hhead r2 (by rw [hout]; exact List.mem_cons_self r2 l2)
                  omega
                · left
                  rw [heq]
            · intro hall r hr
              rcases List.mem_cons.mp hr with h | h
              · subst h
                exact le_refl st
              · have := ih3 hhead r h
                have h2 := hall ⟨.start, off, a0, i0⟩ (by simp)
                simp only at h2
                omega
            · intro r l2 h
              right
              rw [List.cons.injEq] at h
              rw [← h.1]
          · rw [show sweepGo m e (⟨.start, off, a0, i0⟩ :: rest) st a stk =
                sweepGo m e rest off (m a a0) (stk ++ [(i0, a0)]) by
              simp only [sweepGo, if_neg hc]
              rfl]
            refine ⟨ih1, ih2, ?_, ?_⟩
            · intro hall r hr
              have := ih3 hhead r hr
              have h2 := hall ⟨.start, off, a0, i0⟩ (by simp)
              simp only at h2
              omega
            · intro r l2 h
              rcases ih4 r l2 h with hoff | heq
              · rcases hst with h1 | hall
                · exact Or.inl h1
                · by_cases hm : st = -1
                  · exact Or.inl hm
                  · have h2 := hall ⟨.start, off, a0, i0⟩ (by simp)
                    simp only at h2
                    right
                    omega
              · rcases hst with h1 | hall
                · exact Or.inl h1
                · by_cases hm : st = -1
                  · exact Or.inl hm
                  · have h2 := hall ⟨.start, off, a0, i0⟩ (by simp)
                    simp only at h2
                    right
                    omega
      | stop =>
          obtain ⟨ih1, ih2, ih3, ih4⟩ :=
            ih off ((stk.filter (fun e2 => e2.1 ≠ i0)).foldl (fun x e2 => m x e2.2) e)
              (stk.filter (fun e2 => e2.1 ≠ i0)) hsort2 hst2
          by_cases hc : st ≠ -1 ∧ st < off
          · rw [show sweepGo m e (⟨.stop, off, a0, i0⟩ :: rest) st a stk =
                ⟨st, off, a⟩ ::
                  sweepGo m e rest off
                    ((stk.filter (fun e2 => e2.1 ≠ i0)).foldl (fun x e2 => m x e2.2) e)
                    (stk.filter (fun e2 => e2.1 ≠ i0)) by
              simp only [sweepGo, if_pos hc]
              rfl]
            refine ⟨?_, ?_, ?_, ?_⟩
            · intro r hr
              rcases List.mem_cons.mp hr with h | h
              · subst h
                exact ⟨hc.1, hc.2⟩
              · exact ih1 r h
            · rw [List.chain'_cons']
              refine ⟨?_, ih2⟩
              intro y hy
              rcases hout : sweepGo m e rest off
                  ((stk.filter (fun e2 => e2.1 ≠ i0)).foldl (fun x e2 => m x e2.2) e)
                  (stk.filter (fun e2 => e2.1 ≠ i0)) with _ | ⟨r2, l2⟩
              · rw [hout] at hy
                simp at hy
              · rw [hout] at hy
                simp only [List.head?_cons, Option.mem_def, Option.some.injEq] at hy
                subst hy
                rcases ih4 r2 l2 hout with hoff | heq
                · right
                  refine ⟨hoff, ?_⟩
                  have := ih3 hhead r2 (by rw [hout]; exact List.mem_cons_self r2 l2)
                  omega
                · left
                  rw [heq]
            · intro hall r hr
              rcases List.mem_cons.mp hr with h | h
              · subst h
                exact le_refl st
              · have := ih3 hhead r h
                have h2 := hall ⟨.stop, off, a0, i0⟩ (by simp)
                simp only at h2
                omega
            · intro r l2 h
              right
              rw [List.cons.injEq] at h
              rw [← h.1]
          · rw [show sweepGo m e (⟨.stop, off, a0, i0⟩ :: rest) st a stk =
                sweepGo m e rest off
                  ((stk.filter (fun e2 => e2.1 ≠ i0)).foldl (fun x e2 => m x e2.2) e)
                  (stk.filter (fun e2 => e2.1 ≠ i0)) by
              simp only [sweepGo, if_neg hc]
              rfl]
            refine ⟨ih1, ih2, ?_, ?_⟩
            · intro hall r hr
              have := ih3 hhead r hr
              have h2 := hall ⟨.stop, off, a0, i0⟩ (by simp)
              simp only at h2
              omega
            · intro r l2 h
              rcases ih4 r l2 h with hoff | heq
              · rcases hst with h1 | hall
                · exact Or.inl h1
                · by_cases hm : st = -1
                  · exact Or.inl hm
                  · have h2 := hall ⟨.stop, off, a0, i0⟩ (by simp)
                    simp only at h2
                    right
                    omega
              · rcases hst with h1 | hall
                · exact Or.inl h1
                · by_cases hm : st = -1
                  · exact Or.inl hm
                  · have h2 := hall ⟨.stop, off, a0, i0⟩ (by simp)
                    simp only at h2
                    right
                    omega

end Flatten

namespace Flatten

open AS (ASRun)

theorem sweep_replay (m : α → α → α) (e : α) (hlaw : ∀ x, m e x = x) :
    ∀ (l : List (ASRun α)) (k : ℕ) (st : ℤ),
      (∀ r ∈ l, r.start ≠ -1 ∧ r.start < r.endPos) →
      l.Chain' chainOK →
      (∀ r l2, l = r :: l2 → st = r.start ∨ st = -1) →
      sweepGo m e (interleave k l) st e [] = l := by
  intro l
  induction l with
  | nil =>
      intro k st _ _ _
      rw [interleave, sweepGo_nil]
  | cons r rest ih =>
      intro k st hnd hch hlink
      have hr := hnd r (List.mem_cons_self r rest)
      have hguard1 : ¬(st ≠ -1 ∧ st < r.start) := by
        rcases hlink r rest rfl with h | h
        · intro hcon
          omega
        · intro hcon
          exact hcon.1 h
      rw [interleave]
      rw [show sweepGo m e
            (Point.mk .start r.start r.attributes k ::
              Point.mk .stop r.endPos r.attributes k :: interleave (k + 1) rest)
            st e [] =
          sweepGo m e
            (Point.mk .stop r.endPos r.attributes k :: interleave (k + 1) rest)
            r.start (m e r.attributes) [(k, r.attributes)] by
        simp only [sweepGo, if_neg hguard1]
        rfl]
      rw [show sweepGo m e
            (Point.mk .stop r.endPos r.attributes k :: interleave (k + 1) rest)
            r.start (m e r.attributes) [(k, r.attributes)] =
          ⟨r.start, r.endPos, m e r.attributes⟩ ::
            sweepGo m e (interleave (k + 1) rest) r.endPos e [] by
        simp only [sweepGo, if_pos hr]
        have hf : ([(k, r.attributes)].filter (fun e2 => e2.1 ≠ k)) = [] := by
          simp
        rw [hf]
        rfl]
      rw [hlaw]
      rw [ih (k + 1) r.endPos (fun r2 h2 => hnd r2 (List.mem_cons_of_mem r h2))
        hch.tail ?link]
      case link =>
        intro r2 l2 h2
        have hc : chainOK r r2 := by
          rw [h2] at hch
          exact (List.chain'_cons.mp hch).1
        rcases hc with h | h
        · exact Or.inl h
        · exact Or.inr h.1

end Flatten

namespace Flatten

open AS (ASRun)

theorem canon_chain_lt (l : List (ASRun α)) (h : Canon l) :
    l.Chain' (fun a b => a.start < b.start) := by
  obtain ⟨hnd, hch⟩ := h
  induction l with
  | nil => exact List.chain'_nil
  | cons r rest ih =>
      rw [List.chain'_cons']
      refine ⟨?_, ih (fun x hx => hnd x (List.mem_cons_of_mem r hx)) hch.tail⟩
      intro y hy
      cases rest with
      | nil => simp at hy
      | cons r2 l2 =>
          simp only [List.head?_cons, Option.mem_def, Option.some.injEq] at hy
          subst hy
          have hc : chainOK r r2 := (List.chain'_cons.mp hch).1
          have h1 := hnd r (List.mem_cons_self r _)
          rcases hc with h | h
          · omega
          · omega

theorem canon_pairwise_lt (l : List (ASRun α)) (h : Canon l) :
    l.Pairwise (fun a b => a.start < b.start) := by
  haveI : IsTrans (ASRun α) (fun a b => a.start < b.start) :=
    ⟨fun _ _ _ h1 h2 => by omega⟩
  exact List.chain'_iff_pairwise.mp (canon_chain_lt l h)

theorem canon_pairwise_runLT (l : List (ASRun α)) (h : Canon l) :
    l.Pairwise runLT := by
  exact (canon_pairwise_lt l h).imp (fun h2 => Or.inl h2)

theorem interleave_chain (l : List (ASRun α)) (h : Canon l) :
    ∀ k, (interleave k l).Chain' ptLE := by
  obtain ⟨hnd, hch⟩ := h
  induction l with
  | nil => intro k; rw [interleave]; exact List.chain'_nil
  | cons r rest ih =>
      intro k
      rw [interleave]
      rw [List.chain'_cons]
      constructor
      · left
        exact (hnd r (List.mem_cons_self r _)).2
      · rw [List.chain'_cons']
        refine ⟨?_, ih (fun x hx => hnd x (List.mem_cons_of_mem r hx)) hch.tail (k + 1)⟩
        intro y hy
        cases rest with
        | nil =>
            rw [interleave] at hy
            simp at hy
        | cons r2 l2 =>
            rw [interleave] at hy
            simp only [List.head?_cons, Option.mem_def, Option.some.injEq] at hy
            subst hy
            have hc : chainOK r r2 := (List.chain'_cons.mp hch).1
            show r.endPos < r2.start ∨ (r.endPos = r2.start ∧ k ≤ k + 1)
            rcases hc with h | h
            · right
              exact ⟨h, by omega⟩
            · rcases lt_or_eq_of_le h.2 with h2 | h2
              · left
                rw [h.1]
                exact h2
              · right
                exact ⟨by rw [h.1, h2], by omega⟩

theorem runPoints_from (l : List (ASRun α)) :
    ∀ k, ((List.enumFrom k l).map (fun p =>
        [Point.mk .start p.2.start p.2.attributes p.1,
         Point.mk .stop p.2.endPos p.2.attributes p.1])).flatten = interleave k l := by
  induction l with
  | nil => intro k; rw [interleave]; rfl
  | cons r rest ih =>
      intro k
      rw [interleave]
      simp only [List.enumFrom, List.map_cons, List.flatten_cons]
      rw [ih (k + 1)]
      rfl

theorem runPoints_eq (l : List (ASRun α)) : runPoints l = interleave 0 l := by
  rw [runPoints, List.enum]
  exact runPoints_from l 0

theorem generatePoints_canon (l : List (ASRun α)) (h : Canon l) :
    generatePoints l = interleave 0 l := by
  rw [generatePoints, runPoints_eq]
  exact List.Sorted.insertionSort_eq
    (List.chain'_iff_pairwise.mp (interleave_chain l h 0))

theorem flattenRegularRuns_canon (m : α → α → α) (e : α) (hlaw : ∀ x, m e x = x)
    (l : List (ASRun α)) (h : Canon l) :
    flattenRegularRuns m e l = l := by
  rw [flattenRegularRuns, generatePoints_canon l h]
  exact sweep_replay m e hlaw l 0 (-1) h.1 h.2 (fun r l2 _ => Or.inr rfl)

theorem flattenRegularRuns_isCanon (m : α → α → α) (e : α)
    (runs : List (ASRun α)) : Canon (flattenRegularRuns m e runs) := by
  rw [flattenRegularRuns]
  have hsorted : (generatePoints runs).Pairwise (fun p q => p.offset ≤ q.offset) := by
    have := List.sorted_insertionSort ptLE (runPoints runs)
    exact this.imp (fun h2 => by
      unfold ptLE at h2
      omega)
  obtain ⟨h1, h2, _, _⟩ :=
    sweepGo_canon m e (generatePoints runs) (-1) e [] hsorted (Or.inl rfl)
  exact ⟨h1, h2⟩

end Flatten

namespace Flatten

open AS (ASRun)

theorem mergeRuns_fields (m : α → α → α) :
    ∀ (rest : List (ASRun α)) (r0 : ASRun α) (s t : ℤ),
      r0.start = s ∧ r0.endPos = t → (∀ x ∈ rest, x.start = s ∧ x.endPos = t) →
      (mergeRuns m r0 rest).start = s ∧ (mergeRuns m r0 rest).endPos = t := by
  intro rest
  induction rest with
  | nil => intro r0 s t h0 _; exact h0
  | cons x xs ih =>
      intro r0 s t h0 hx
      have hx0 := hx x (List.mem_cons_self x xs)
      exact ih { x with attributes := m r0.attributes x.attributes } s t
        ⟨hx0.1, hx0.2⟩ (fun y hy => hx y (List.mem_cons_of_mem x hy))

theorem filter_start_singleton :
    ∀ (l : List (ASRun α)), l.Pairwise (fun a b => a.start ≠ b.start) →
      ∀ r ∈ l, l.filter (fun x => decide (x.start = r.start)) = [r] := by
  intro l
  induction l with
  | nil => intro _ r hr; simp at hr
  | cons a rest ih =>
      intro hp r hr
      rcases List.mem_cons.mp hr with h | h
      · subst h
        rw [List.filter_cons, if_pos (by simp)]
        have hnil : rest.filter (fun x => decide (x.start = r.start)) = [] := by
          rw [List.filter_eq_nil_iff]
          intro x hx
          have := List.rel_of_pairwise_cons hp hx
          simp only [decide_eq_true_eq]
          omega
        rw [hnil]
      · rw [List.filter_cons]
        have hne : a.start ≠ r.start := List.rel_of_pairwise_cons hp h
        rw [if_neg (by simp only [decide_eq_true_eq]; omega)]
        exact ih hp.of_cons r h

theorem flattenEmptyRuns_self (m : α → α → α) (e : α) (E : List (ASRun α))
    (hlt : E.Pairwise (fun a b => a.start < b.start)) :
    flattenEmptyRuns m e E = E := by
  have hstarts : (E.map (fun r => r.start)).Pairwise (· < ·) :=
    List.pairwise_map.mpr hlt
  have hnd : (E.map (fun r => r.start)).Nodup := hstarts.imp (fun h => ne_of_lt h)
  have hded : (E.map (fun r => r.start)).dedup = E.map (fun r => r.start) :=
    List.dedup_eq_self.mpr hnd
  have hsorted : List.Sorted (· ≤ ·) (E.map (fun r => r.start)) :=
    hstarts.imp (fun h => le_of_lt h)
  have hpne : E.Pairwise (fun a b => a.start ≠ b.start) :=
    hlt.imp (fun h => ne_of_lt h)
  rw [flattenEmptyRuns, groupEmptyRuns, hded, List.Sorted.insertionSort_eq hsorted]
  rw [List.map_map, List.map_map]
  refine Eq.trans (List.map_congr_left ?_) (List.map_id E)
  intro r hr
  show mergeGroup m e (E.filter (fun x => decide (x.start = r.start))) = id r
  rw [filter_start_singleton E hpne r hr]
  rfl

theorem mergeGroup_fields (m : α → α → α) (e : α) (runs0 : List (ASRun α))
    (hemp : ∀ r ∈ runs0, r.start = r.endPos) (s : ℤ)
    (hs : ∃ r ∈ runs0, r.start = s) :
    (mergeGroup m e (runs0.filter (fun x => decide (x.start = s)))).start = s ∧
      (mergeGroup m e (runs0.filter (fun x => decide (x.start = s)))).endPos = s := by
  obtain ⟨r, hr, hrs⟩ := hs
  rcases hmm : runs0.filter (fun x => decide (x.start = s)) with _ | ⟨g0, grest⟩
  · exfalso
    have : r ∈ runs0.filter (fun x => decide (x.start = s)) :=
      List.mem_filter.mpr ⟨hr, by simp [hrs]⟩
    rw [hmm] at this
    simp at this
  · have hall : ∀ x ∈ g0 :: grest, x.start = s ∧ x.endPos = s := by
      intro x hx
      rw [← hmm] at hx
      obtain ⟨hx1, hx2⟩ := List.mem_filter.mp hx
      have h1 : x.start = s := by simpa using hx2
      exact ⟨h1, by rw [← h1]; exact (hemp x hx1).symm⟩
    rw [hmm]
    show (mergeRuns m g0 grest).start = s ∧ (mergeRuns m g0 grest).endPos = s
    exact mergeRuns_fields m grest g0 s s (hall g0 (List.mem_cons_self g0 grest))
      (fun y hy => hall y (List.mem_cons_of_mem g0 hy))

theorem flattenEmptyRuns_out (m : α → α → α) (e : α) (runs0 : List (ASRun α))
    (hemp : ∀ r ∈ runs0, r.start = r.endPos) :
    (∀ r ∈ flattenEmptyRuns m e runs0, r.start = r.endPos) ∧
      (flattenEmptyRuns m e runs0).Pairwise (fun a b => a.start < b.start) := by
  have hsort := List.sorted_insertionSort (· ≤ ·) (runs0.map (fun r => r.start)).dedup
  have hnodup : (List.insertionSort (· ≤ ·)
      (runs0.map (fun r => r.start)).dedup).Nodup :=
    (List.perm_insertionSort _ _).nodup_iff.mpr (List.nodup_dedup _)
  have hslt : (List.insertionSort (· ≤ ·)
      (runs0.map (fun r => r.start)).dedup).Pairwise (· < ·) :=
    (hsort.and hnodup).imp (fun h => lt_of_le_of_ne h.1 h.2)
  have hmem : ∀ s ∈ List.insertionSort (· ≤ ·) (runs0.map (fun r => r.start)).dedup,
      ∃ r ∈ runs0, r.start = s := by
    intro s hs
    have h1 : s ∈ (runs0.map (fun r => r.start)).dedup :=
      (List.perm_insertionSort _ _).mem_iff.mp hs
    have h2 : s ∈ runs0.map (fun r => r.start) := List.mem_dedup.mp h1
    obtain ⟨r, hr, hrs⟩ := List.mem_map.mp h2
    exact ⟨r, hr, hrs⟩
  constructor
  · intro r hr
    rw [flattenEmptyRuns, groupEmptyRuns, List.map_map] at hr
    obtain ⟨s, hs, hrs⟩ := List.mem_map.mp hr
    have hk := mergeGroup_fields m e runs0 hemp s (hmem s hs)
    have hrs2 : mergeGroup m e (runs0.filter (fun x => decide (x.start = s))) = r := hrs
    rw [hrs2] at hk
    omega
  · rw [flattenEmptyRuns, groupEmptyRuns, List.map_map, List.pairwise_map]
    refine hslt.imp_of_mem ?_
    intro s t hsmem htmem hlt2
    show (mergeGroup m e (runs0.filter (fun x => decide (x.start = s)))).start <
      (mergeGroup m e (runs0.filter (fun x => decide (x.start = t)))).start
    rw [(mergeGroup_fields m e runs0 hemp s (hmem s hsmem)).1,
      (mergeGroup_fields m e runs0 hemp t (hmem t htmem)).1]
    exact hlt2

end Flatten


namespace Flatten

open AS (ASRun)

theorem runLT_of_runLE_ne (a b : ASRun α) (h1 : runLE a b) (h2 : key a ≠ key b) :
    runLT a b := by
  unfold runLE at h1
  unfold runLT
  rcases h1 with h | h
  · exact Or.inl h
  · right
    refine ⟨h.1, ?_⟩
    rcases lt_or_eq_of_le h.2 with h3 | h3
    · exact h3
    · exact absurd (by rw [key, key, h.1, h3]) h2

theorem sorted_unique (l1 l2 : List (ASRun α)) (hp : l1.Perm l2)
    (h1 : l1.Pairwise runLT) (h2 : l2.Pairwise runLT) : l1 = l2 :=
  List.eq_of_perm_of_sorted hp h1 h2

theorem flatten_parts (m : α → α → α) (e : α) (runs : List (ASRun α)) :
    (flatten m e runs).filter (fun r => decide (r.start = r.endPos)) =
        flattenEmptyRuns m e
          (runs.filter (fun r => decide (r.start = r.endPos))) ∧
      (flatten m e runs).filter (fun r => !decide (r.start = r.endPos)) =
        flattenRegularRuns m e
          (runs.filter (fun r => !decide (r.start = r.endPos))) := by
  have hCanR := flattenRegularRuns_isCanon m e
    (runs.filter (fun r => !decide (r.start = r.endPos)))
  have hEout := flattenEmptyRuns_out m e
    (runs.filter (fun r => decide (r.start = r.endPos)))
    (fun r hr => by simpa using (List.mem_filter.mp hr).2)
  have hE_LT : (flattenEmptyRuns m e
      (runs.filter (fun r => decide (r.start = r.endPos)))).Pairwise runLT :=
    hEout.2.imp (fun h => Or.inl h)
  have hR_LT : (flattenRegularRuns m e
      (runs.filter (fun r => !decide (r.start = r.endPos)))).Pairwise runLT :=
    canon_pairwise_runLT _ hCanR
  have hkeyd : (flattenEmptyRuns m e
        (runs.filter (fun r => decide (r.start = r.endPos))) ++
      flattenRegularRuns m e
        (runs.filter (fun r => !decide (r.start = r.endPos)))).Pairwise
      (fun a b => key a ≠ key b) := by
    rw [List.pairwise_append]
    refine ⟨hEout.2.imp ?_, (canon_pairwise_lt _ hCanR).imp ?_, ?_⟩
    · intro a b h
      intro hk
      rw [key, key, Prod.mk.injEq] at hk
      omega
    · intro a b h
      intro hk
      rw [key, key, Prod.mk.injEq] at hk
      omega
    · intro a ha b hb hk
      have hae := hEout.1 a ha
      have hbr := (hCanR.1 b hb).2
      rw [key, key, Prod.mk.injEq] at hk
      omega
  have hperm : (flatten m e runs).Perm
      (flattenEmptyRuns m e (runs.filter (fun r => decide (r.start = r.endPos))) ++
        flattenRegularRuns m e
          (runs.filter (fun r => !decide (r.start = r.endPos)))) := by
    rw [flatten, sortRuns]
    exact List.perm_insertionSort _ _
  have hsorted : (flatten m e runs).Pairwise runLE := by
    rw [flatten, sortRuns]
    exact List.sorted_insertionSort runLE _
  have hkeyS : (flatten m e runs).Pairwise (fun a b => key a ≠ key b) :=
    (List.Perm.pairwise_iff (fun h hk => h hk.symm) hperm).mpr hkeyd
  have hS_LT : (flatten m e runs).Pairwise runLT :=
    (hsorted.and hkeyS).imp (fun h => runLT_of_runLE_ne _ _ h.1 h.2)
  have hfE : (flattenEmptyRuns m e
      (runs.filter (fun r => decide (r.start = r.endPos)))).filter
        (fun r => decide (r.start = r.endPos)) =
      flattenEmptyRuns m e (runs.filter (fun r => decide (r.start = r.endPos))) :=
    List.filter_eq_self.mpr (fun a ha => by simp [hEout.1 a ha])
  have hfR0 : (flattenRegularRuns m e
      (runs.filter (fun r => !decide (r.start = r.endPos)))).filter
        (fun r => decide (r.start = r.endPos)) = [] :=
    List.filter_eq_nil_iff.mpr (fun a ha => by
      have h2 := (hCanR.1 a ha).2
      simp only [decide_eq_true_eq]
      omega)
  have hfE0 : (flattenEmptyRuns m e
      (runs.filter (fun r => decide (r.start = r.endPos)))).filter
        (fun r => !decide (r.start = r.endPos)) = [] :=
    List.filter_eq_nil_iff.mpr (fun a ha => by simp [hEout.1 a ha])
  have hfR : (flattenRegularRuns m e
      (runs.filter (fun r => !decide (r.start = r.endPos)))).filter
        (fun r => !decide (r.start = r.endPos)) =
      flattenRegularRuns m e (runs.filter (fun r => !decide (r.start = r.endPos))) :=
    List.filter_eq_self.mpr (fun a ha => by
      have h2 := (hCanR.1 a ha).2
      rw [Bool.not_eq_true', decide_eq_false_iff_not]
      omega)
  constructor
  · refine sorted_unique _ _ ?_ (hS_LT.filter _) hE_LT
    have h1 := hperm.filter (fun r => decide (r.start = r.endPos))
    rw [List.filter_append, hfE, hfR0, List.append_nil] at h1
    exact h1
  · refine sorted_unique _ _ ?_ (hS_LT.filter _) hR_LT
    have h1 := hperm.filter (fun r => !decide (r.start = r.endPos))
    rw [List.filter_append, hfE0, hfR, List.nil_append] at h1
    exact h1

/-- **C7**: `flatten` is idempotent on every run list —
`flatten (flatten runs) = flatten runs`.  Attribute maps are a type
parameter with an `Object.assign`-style merge; the only law used is that
merging an attribute map over the empty map `{}` gives it back. -/
theorem C7_flatten_idempotent (m : α → α → α) (e : α)
    (hlaw : ∀ a, m e a = a) (runs : List (ASRun α)) :
    flatten m e (flatten m e runs) = flatten m e runs := by
  obtain ⟨hE, hR⟩ := flatten_parts m e runs
  conv_lhs => rw [flatten]
  rw [hE, hR]
  have hEout := flattenEmptyRuns_out m e
    (runs.filter (fun r => decide (r.start = r.endPos)))
    (fun r hr => by simpa using (List.mem_filter.mp hr).2)
  rw [flattenEmptyRuns_self m e _ hEout.2]
  rw [flattenRegularRuns_canon m e hlaw _ (flattenRegularRuns_isCanon m e _)]
  rw [flatten]

/-- Witness for **C7**: idempotence applied at the concrete run list
`sampleRuns` (two overlapping regular runs and an empty run) with
right-biased merge over `0`. -/
theorem C7_witness :
    flatten (fun _ b => b) 0 (flatten (fun _ b => b) 0 sampleRuns) =
      flatten (fun _ b => b) 0 sampleRuns :=
  C7_flatten_idempotent (fun _ b => b) 0 (fun _ => rfl) sampleRuns

end Flatten

namespace Textkit

/-- **C9** counterexample: appending a real glyph to the empty attributed
string yields a non-empty text, and even appending the falsy value yields
one (empty) run — `append` never returns the claimed "empty result"
(empty text, zero runs). -/
theorem C9_counterexample :
    (appendAS (fun _ => none) (some glyphA) emptyTAS).string ≠ [] ∧
      (appendAS (fun _ => none) none emptyTAS).runs.length = 1 := by
  constructor
  · simp [appendAS, emptyTAS, glyphA, cpString]
  · simp [appendAS, emptyTAS, appendRun]

end Textkit

namespace LB

/-- **C6**: raising the tolerance of the Knuth–Plass `linebreak` never
removes a legal break chain — every chain of breakpoints whose line
ratios (as `computeCost` assigns them, against the `computeSum` totals
each breakpoint records) are admitted at tolerance `t` is still
admitted at any tolerance `t2 ≥ t`. -/
theorem C6_tolerance_monotone (nodes : List LBNode) (widths : List ℚ)
    (t t2 : ℚ) (h : t ≤ t2) :
    ∀ (ps : List ℕ) (line : ℕ) (prevT : Sums),
      LegalChain nodes widths t line prevT ps →
      LegalChain nodes widths t2 line prevT ps := by
  intro ps
  induction ps with
  | nil => intro line prevT _; trivial
  | cons p rest ih =>
      intro line prevT hp
      rw [LegalChain] at hp ⊢
      exact ⟨⟨hp.1.1, le_trans hp.1.2 h⟩, ih (line + 1) _ hp.2⟩

/-- Witness for **C6**: the chain `[1]` (break at the final glue of a
perfectly fitting one-word line, ratio `0`) is legal at tolerance `4`
and stays legal at tolerance `9`. -/
theorem C6_witness :
    LegalChain exC6nodes [10] 4 0 ⟨0, 0, 0⟩ [1] ∧
      LegalChain exC6nodes [10] 9 0 ⟨0, 0, 0⟩ [1] := by
  have h1 : LegalChain exC6nodes [10] 4 0 ⟨0, 0, 0⟩ [1] := by
    rw [LegalChain]
    refine ⟨?_, trivial⟩
    norm_num [ratioFor, computeCost, sumUpTo, exC6nodes, lineLengthAt,
      isPenalty, nodeWidth, INF]
  exact ⟨h1, C6_tolerance_monotone exC6nodes [10] 4 9 (by norm_num) [1] 0 _ h1⟩

end LB

namespace LB

theorem flushCands_none (idx : ℕ) (tmp : Sums) :
    flushCands idx tmp (List.replicate 4 none) = [] := rfl

theorem linebreak_ex5_empty (t : ℚ) (ht : t ≤ 54) :
    linebreak ex5nodes [10] t = [] := by
  have hc : ¬((10000 : ℚ) ≤ t) := by linarith
  norm_num [linebreak, lbGo, ex5nodes, mainLoop, mainGo, computeSum,
    computeSumGo, computeCost, lineLengthAt, isBox, isPenalty, penaltyVal,
    nodeWidth, INF, updateCand, fitClass, demeritsOf,
    findBestBreakpoints, bestActive, BP.line, BP.width, BP.stretch, BP.shrink,
    BP.demerits, BP.fitnessClass, BP.position, hc, flushCands_none]

end LB

namespace LB

theorem escalateGo_step (lb : ℚ → List ℕ) (t : ℚ) (breaks : List ℕ)
    (hb : breaks.length = 0) (ht : t < 50) :
    escalateGo lb t breaks = escalateGo lb (t + 5) (lb (t + 5)) := by
  rw [escalateGo]
  rw [dif_pos ⟨hb, ht⟩]

theorem escalateGo_stop (lb : ℚ → List ℕ) (t : ℚ) (breaks : List ℕ)
    (h : ¬(breaks.length = 0 ∧ t < 50)) :
    escalateGo lb t breaks = (t, breaks) := by
  rw [escalateGo]
  rw [dif_neg h]

theorem escalateGo_from4 (lb : ℚ → List ℕ) (hFail : ∀ t, t ≤ 54 → lb t = []) :
    escalateGo lb 4 [] = (54, []) := by
  rw [escalateGo_step lb 4 [] rfl (by norm_num)]
  rw [show (4 : ℚ) + 5 = 9 by norm_num, hFail 9 (by norm_num)]
  rw [escalateGo_step lb 9 [] rfl (by norm_num)]
  rw [show (9 : ℚ) + 5 = 14 by norm_num, hFail 14 (by norm_num)]
  rw [escalateGo_step lb 14 [] rfl (by norm_num)]
  rw [show (14 : ℚ) + 5 = 19 by norm_num, hFail 19 (by norm_num)]
  rw [escalateGo_step lb 19 [] rfl (by norm_num)]
  rw [show (19 : ℚ) + 5 = 24 by norm_num, hFail 24 (by norm_num)]
  rw [escalateGo_step lb 24 [] rfl (by norm_num)]
  rw [show (24 : ℚ) + 5 = 29 by norm_num, hFail 29 (by norm_num)]
  rw [escalateGo_step lb 29 [] rfl (by norm_num)]
  rw [show (29 : ℚ) + 5 = 34 by norm_num, hFail 34 (by norm_num)]
  rw [escalateGo_step lb 34 [] rfl (by norm_num)]
  rw [show (34 : ℚ) + 5 = 39 by norm_num, hFail 39 (by norm_num)]
  rw [escalateGo_step lb 39 [] rfl (by norm_num)]
  rw [show (39 : ℚ) + 5 = 44 by norm_num, hFail 44 (by norm_num)]
  rw [escalateGo_step lb 44 [] rfl (by norm_num)]
  rw [show (44 : ℚ) + 5 = 49 by norm_num, hFail 49 (by norm_num)]
  rw [escalateGo_step lb 49 [] rfl (by norm_num)]
  rw [show (49 : ℚ) + 5 = 54 by norm_num, hFail 54 (by norm_num)]
  rw [escalateGo_stop lb 54 [] (by norm_num)]

/-- **C5** counterexample: when every attempt fails, the escalation loop
(`while (breaks.length === 0 && tolerance < 50) tolerance += 5`) leaves
the final attempted tolerance at `54`, strictly above the claimed hard
ceiling of `50` — the guard bounds the pre-increment value only. -/
theorem C5_counterexample :
    (escalateGo (fun _ => ([] : List ℕ)) 4 []).1 = 54 ∧
      ¬((escalateGo (fun _ => ([] : List ℕ)) 4 []).1 ≤ 50) := by
  have h := escalateGo_from4 (fun _ => ([] : List ℕ)) (fun _ _ => rfl)
  rw [h]
  norm_num

/-- **C5** (amended): when Knuth–Plass yields no break set at any
attempted tolerance, the escalation from the default `4` proceeds in
steps of `5` and last attempts `54` (the guard `tolerance < 50` bounds
the pre-increment value, so the ceiling of attempts is `54`, not `50`);
`linebreaker` then falls back to the greedy best-fit pass, and with the
minimal breakpoint list `[0]` the paragraph is emitted as the single
unbroken line `slice(0, length)` — never an error, never dropped. -/
theorem C5_amended {α : Type} (lb : ℚ → List ℕ) (nodes : List LBNode)
    (widths : List ℚ) (a : AS.AttrString α)
    (hFail : ∀ t, t ≤ 54 → lb t = [])
    (hLB : ∀ t, t ≤ 54 → linebreak nodes widths t = []) :
    (escalateGo lb 4 (lb 4)).1 = 54 ∧
      linebreakerBreaks none nodes widths = applyBestFit nodes widths ∧
      breakLines a nodes (([0] : List ℕ).drop 1) =
        [AS.sliceAS 0 (a.string.length : ℤ) a] := by
  refine ⟨?_, ?_, rfl⟩
  · rw [hFail 4 (by norm_num), escalateGo_from4 lb hFail]
  · simp only [linebreakerBreaks]
    rw [hLB 4 (by norm_num),
      escalateGo_from4 (fun t => linebreak nodes widths t) hLB]
    norm_num

/-- Witness for **C5**: the amended theorem at the concrete one-word
overflow stream `ex5nodes` against width 10, where every tolerance up
to 54 fails. -/
theorem C5_amended_witness :
    (escalateGo (fun _ => ([] : List ℕ)) 4 ((fun _ => ([] : List ℕ)) 4)).1 = 54 ∧
      linebreakerBreaks none ex5nodes [10] = applyBestFit ex5nodes [10] ∧
      breakLines AS.exampleAS ex5nodes (([0] : List ℕ).drop 1) =
        [AS.sliceAS 0 (AS.exampleAS.string.length : ℤ) AS.exampleAS] :=
  C5_amended (fun _ => ([] : List ℕ)) ex5nodes [10] AS.exampleAS
    (fun _ _ => rfl) (fun t ht => linebreak_ex5_empty t ht)

end LB

namespace AS

theorem jsSlice_append_mid (s e j : ℤ) (l : List α) (hs : 0 ≤ s)
    (hse : s ≤ e) (hej : e ≤ j) :
    jsSlice s e l ++ jsSlice e j l = jsSlice s j l := by
  rw [jsSlice_nonneg s e l hs (by omega), jsSlice_nonneg e j l (by omega) (by omega),
    jsSlice_nonneg s j l hs (by omega)]
  have hdrop : l.drop (min e (l.length : ℤ)).toNat =
      (l.drop (min s (l.length : ℤ)).toNat).drop
        ((min e (l.length : ℤ)).toNat - (min s (l.length : ℤ)).toNat) := by
    rw [List.drop_drop]
    congr 1
    omega
  rw [hdrop]
  have htA : ((min e (l.length : ℤ)) - (min s (l.length : ℤ))).toNat =
      (min e (l.length : ℤ)).toNat - (min s (l.length : ℤ)).toNat := by omega
  have htB : ((min j (l.length : ℤ)) - (min e (l.length : ℤ))).toNat =
      (min j (l.length : ℤ)).toNat - (min e (l.length : ℤ)).toNat := by omega
  have htC : ((min j (l.length : ℤ)) - (min s (l.length : ℤ))).toNat =
      (min j (l.length : ℤ)).toNat - (min s (l.length : ℤ)).toNat := by omega
  rw [htA, htB, htC, ← List.take_add]
  congr 1
  omega

theorem jsSlice_full (l : List α) : jsSlice 0 (l.length : ℤ) l = l := by
  rw [jsSlice_nonneg 0 (l.length : ℤ) l le_rfl (by omega)]
  rw [min_eq_left (by omega : (0 : ℤ) ≤ (l.length : ℤ)), min_self]
  simp only [Int.toNat_zero, List.drop_zero, sub_zero, Int.toNat_natCast,
    List.take_length]

end AS

namespace LB

theorem boundOfP_shift (p : ℤ) (n : LBNode) (rest : List LBNode) (i : ℕ) :
    boundOfP p (n :: rest) (i + 1) = boundOfP (nodeEnd n) rest i := by
  cases i with
  | zero =>
      simp [boundOfP, List.getD_cons_succ, List.getD_cons_zero]
  | succ k =>
      simp only [boundOfP, List.getD_cons_succ]
      rw [show k + 1 + 1 - 1 = k + 1 by omega, show k + 1 - 1 = k by omega]
      simp [List.getD_cons_succ]

theorem boundOfP_irrel (p1 p2 : ℤ) (nodes : List LBNode) (i : ℕ)
    (h : i = 0 → isPenalty (nodes.getD 0 default) = false) :
    boundOfP p1 nodes i = boundOfP p2 nodes i := by
  cases i with
  | zero =>
      simp only [boundOfP, h rfl]
      simp
  | succ k => simp [boundOfP]

theorem nodesOK_head (n : LBNode) (rest : List LBNode) (lo hi : ℤ)
    (h : NodesOK (n :: rest) lo hi false) : isPenalty n = false := by
  cases n with
  | box => rfl
  | glue => rfl
  | penalty =>
      rw [NodesOK] at h
      exact absurd h.1 (by simp)

open AS (AttrString) in
theorem breakLinesGo_empty_string {α : Type} (a : AttrString α)
    (hz : a.string.length = 0) (nodes : List LBNode) :
    ∀ (bs : List ℕ) (start : ℤ),
      ((breakLinesGo id a nodes bs start).map AS.AttrString.string).flatten = [] := by
  intro bs
  induction bs with
  | nil =>
      intro start
      rw [breakLinesGo, AS.sliceAS, if_pos hz]
      simp [List.length_eq_zero.mp hz]
  | cons bp rest ih =>
      intro start
      rw [breakLinesGo]
      by_cases hb : bp = nodes.length - 1
      · rw [if_pos hb]
        exact ih start
      · rw [if_neg hb]
        simp only [id_eq, ite_self, List.map_cons, List.flatten_cons]
        rw [AS.sliceAS, if_pos hz, ih (boundOf nodes bp)]
        simp [List.length_eq_zero.mp hz]

end LB

namespace LB

open AS (AttrString)

theorem breakLinesGo_join {α : Type} (a : AttrString α)
    (hz : ¬a.string.length = 0) (nodes : List LBNode) :
    ∀ (bs : List ℕ) (start : ℤ),
      BoundsMono nodes (a.string.length : ℤ) bs start →
      ((breakLinesGo id a nodes bs start).map AS.AttrString.string).flatten =
        AS.jsSlice start (a.string.length : ℤ) a.string := by
  intro bs
  induction bs with
  | nil =>
      intro start hbm
      rw [breakLinesGo, AS.sliceAS, if_neg hz]
      simp
  | cons bp rest ih =>
      intro start hbm
      rw [breakLinesGo]
      rw [BoundsMono] at hbm
      by_cases hb : bp = nodes.length - 1
      · rw [if_pos hb]
        rw [if_pos hb] at hbm
        exact ih start hbm
      · rw [if_neg hb]
        rw [if_neg hb] at hbm
        obtain ⟨h0, h1, h2, hrec⟩ := hbm
        simp only [id_eq, ite_self, List.map_cons, List.flatten_cons]
        rw [AS.sliceAS, if_neg hz]
        rw [ih (boundOf nodes bp) hrec]
        show AS.jsSlice start (boundOf nodes bp) a.string ++ _ = _
        exact AS.jsSlice_append_mid start (boundOf nodes bp) _ a.string h0 h1 h2

theorem breakLines_hyphen_rel {α : Type} (a : AttrString α)
    (nodes : List LBNode) :
    ∀ (bs : List ℕ) (start : ℤ),
      List.Forall₂ (fun l1 l2 => AS.AttrString.string l1 = AS.AttrString.string l2 ∨
          AS.AttrString.string l1 = AS.AttrString.string l2 ++ [hyphenChar])
        (breakLinesGo hyphenAppend a nodes bs start)
        (breakLinesGo id a nodes bs start) := by
  intro bs
  induction bs with
  | nil =>
      intro start
      rw [breakLinesGo, breakLinesGo]
      exact List.Forall₂.cons (Or.inl rfl) List.Forall₂.nil
  | cons bp rest ih =>
      intro start
      rw [breakLinesGo, breakLinesGo]
      by_cases hb : bp = nodes.length - 1
      · rw [if_pos hb, if_pos hb]
        exact ih start
      · rw [if_neg hb, if_neg hb]
        refine List.Forall₂.cons ?_ (ih (boundOf nodes bp))
        by_cases hp : isPenalty (nodes.getD bp default)
        · rw [if_pos hp, if_pos hp]
          right
          rfl
        · rw [if_neg hp, if_neg hp]
          left
          rfl

end LB

namespace LB

theorem nodesOK_facts :
    ∀ (nodes : List LBNode) (lo hi : ℤ) (pr : Bool),
      NodesOK nodes lo hi pr → lo ≤ hi →
      ∀ i, i < nodes.length →
        (lo ≤ boundOfP lo nodes i ∧ boundOfP lo nodes i ≤ hi) ∧
        (∀ j, i ≤ j → j < nodes.length →
          boundOfP lo nodes i ≤ boundOfP lo nodes j) := by
  intro nodes
  induction nodes with
  | nil =>
      intro lo hi pr _ _ i hi2
      simp at hi2
  | cons n rest ih =>
      intro lo hi pr hok hlh i hilen
      cases n with
      | box w s e hy =>
          rw [NodesOK] at hok
          obtain ⟨hle, hehi, hrest⟩ := hok
          have hb0 : boundOfP lo (LBNode.box w s e hy :: rest) 0 = e := by
            simp [boundOfP, isPenalty, nodeEnd]
          have hshift : ∀ k, boundOfP lo (LBNode.box w s e hy :: rest) (k + 1) =
              boundOfP e rest k := by
            intro k
            rw [boundOfP_shift]
            simp [nodeEnd]
          cases i with
          | zero =>
              refine ⟨⟨by rw [hb0]; exact hle, by rw [hb0]; exact hehi⟩, ?_⟩
              intro j hij hjlen
              cases j with
              | zero => exact le_refl _
              | succ k =>
                  rw [hb0, hshift k]
                  exact (ih e hi true hrest hehi k (by simpa using hjlen)).1.1
          | succ k =>
              have hklen : k < rest.length := by simpa using hilen
              have hfacts := ih e hi true hrest hehi k hklen
              refine ⟨⟨by rw [hshift k]; exact le_trans hle hfacts.1.1,
                by rw [hshift k]; exact hfacts.1.2⟩, ?_⟩
              intro j hij hjlen
              cases j with
              | zero => omega
              | succ m =>
                  rw [hshift k, hshift m]
                  exact hfacts.2 m (by omega) (by simpa using hjlen)
      | glue w s e st sh =>
          rw [NodesOK] at hok
          obtain ⟨hle, hehi, hrest⟩ := hok
          have hb0 : boundOfP lo (LBNode.glue w s e st sh :: rest) 0 = e := by
            simp [boundOfP, isPenalty, nodeEnd]
          have hshift : ∀ k, boundOfP lo (LBNode.glue w s e st sh :: rest) (k + 1) =
              boundOfP e rest k := by
            intro k
            rw [boundOfP_shift]
            simp [nodeEnd]
          cases i with
          | zero =>
              refine ⟨⟨by rw [hb0]; exact hle, by rw [hb0]; exact hehi⟩, ?_⟩
              intro j hij hjlen
              cases j with
              | zero => exact le_refl _
              | succ k =>
                  rw [hb0, hshift k]
                  exact (ih e hi true hrest hehi k (by simpa using hjlen)).1.1
          | succ k =>
              have hklen : k < rest.length := by simpa using hilen
              have hfacts := ih e hi true hrest hehi k hklen
              refine ⟨⟨by rw [hshift k]; exact le_trans hle hfacts.1.1,
                by rw [hshift k]; exact hfacts.1.2⟩, ?_⟩
              intro j hij hjlen
              cases j with
              | zero => omega
              | succ m =>
                  rw [hshift k, hshift m]
                  exact hfacts.2 m (by omega) (by simpa using hjlen)
      | penalty w p f =>
          rw [NodesOK] at hok
          obtain ⟨hpr, hrest⟩ := hok
          have hb0 : boundOfP lo (LBNode.penalty w p f :: rest) 0 = lo := by
            simp [boundOfP, isPenalty]
          have hshift : ∀ k, k < rest.length →
              boundOfP lo (LBNode.penalty w p f :: rest) (k + 1) =
                boundOfP lo rest k := by
            intro k hk
            rw [boundOfP_shift]
            apply boundOfP_irrel
            intro hk0
            subst hk0
            cases rest with
            | nil => simp at hk
            | cons m rest2 =>
                simpa using nodesOK_head m rest2 lo hi hrest
          cases i with
          | zero =>
              refine ⟨⟨by rw [hb0], by rw [hb0]; exact hlh⟩, ?_⟩
              intro j hij hjlen
              cases j with
              | zero => exact le_refl _
              | succ m =>
                  have hmlen : m < rest.length := by simpa using hjlen
                  rw [hb0, hshift m hmlen]
                  exact (ih lo hi false hrest hlh m hmlen).1.1
          | succ k =>
              have hklen : k < rest.length := by simpa using hilen
              have hfacts := ih lo hi false hrest hlh k hklen
              refine ⟨⟨by rw [hshift k hklen]; exact hfacts.1.1,
                by rw [hshift k hklen]; exact hfacts.1.2⟩, ?_⟩
              intro j hij hjlen
              cases j with
              | zero => omega
              | succ m =>
                  have hmlen : m < rest.length := by simpa using hjlen
                  rw [hshift k hklen, hshift m hmlen]
                  exact hfacts.2 m (by omega) hmlen

end LB

namespace LB

theorem getNodesGo_ok (isSpace : Char → Bool) (wOf : ℤ → ℤ → ℚ) (hp : ℚ) :
    ∀ (syl : List (List Char)) (start T : ℤ) (pr : Bool),
      start + ((syl.map List.length).sum : ℤ) = T →
      NodesOK (getNodesGo isSpace wOf hp syl start ++
        [LBNode.glue 0 T T INF 0, LBNode.penalty 0 (-INF) 1]) start T pr := by
  intro syl
  induction syl with
  | nil =>
      intro start T pr hT
      simp only [List.map_nil, List.sum_nil, Nat.cast_zero, add_zero] at hT
      subst hT
      simp [getNodesGo, NodesOK]
  | cons s rest ih =>
      intro start T pr hT
      simp only [List.map_cons, List.sum_cons, Nat.cast_add] at hT
      have hT2 : (start + (s.length : ℤ)) + ((rest.map List.length).sum : ℤ) = T := by
        omega
      simp only [getNodesGo]
      by_cases hsp : s.all isSpace = true
      · rw [if_pos hsp, List.cons_append, NodesOK]
        refine ⟨by omega, by omega, ?_⟩
        exact ih (start + (s.length : ℤ)) T true hT2
      · rw [if_neg hsp, List.cons_append, List.append_assoc, NodesOK]
        refine ⟨by omega, by omega, ?_⟩
        split
        · rw [List.singleton_append, NodesOK]
          exact ⟨rfl, ih (start + (s.length : ℤ)) T false hT2⟩
        · rw [List.nil_append]
          exact ih (start + (s.length : ℤ)) T true hT2

theorem boundOf_eq_P (lo : ℤ) (nodes : List LBNode) (i : ℕ)
    (h : i = 0 → isPenalty (nodes.getD 0 default) = false) :
    boundOf nodes i = boundOfP lo nodes i := by
  cases i with
  | zero =>
      simp only [boundOf, boundOfP, h rfl]
      simp
  | succ k => simp [boundOf, boundOfP]

theorem getNodes_head_ok (isSpace : Char → Bool) (wOf : ℤ → ℤ → ℚ) (hp : ℚ)
    (syl : List (List Char)) :
    isPenalty ((getNodes isSpace wOf hp syl).getD 0 default) = false := by
  cases syl with
  | nil => rfl
  | cons s rest =>
      by_cases hsp : s.all isSpace = true
      · simp [getNodes, getNodesGo, hsp, isPenalty]
      · simp [getNodes, getNodesGo, hsp, isPenalty]

theorem boundsMono_aux (nodes : List LBNode) (hi : ℤ)
    (hfacts : ∀ i, i < nodes.length →
        (0 ≤ boundOfP 0 nodes i ∧ boundOfP 0 nodes i ≤ hi) ∧
        (∀ j, i ≤ j → j < nodes.length →
          boundOfP 0 nodes i ≤ boundOfP 0 nodes j))
    (hhead : isPenalty (nodes.getD 0 default) = false) :
    ∀ (bs : List ℕ) (start : ℤ), bs.Pairwise (· < ·) →
      (∀ bp ∈ bs, bp < nodes.length) →
      0 ≤ start → start ≤ hi →
      (∀ bp ∈ bs, bp ≠ nodes.length - 1 → start ≤ boundOf nodes bp) →
      BoundsMono nodes hi bs start := by
  intro bs
  induction bs with
  | nil =>
      intro start _ _ h0 hsh _
      rw [BoundsMono]
      exact ⟨h0, hsh⟩
  | cons bp rest ih =>
      intro start hpw hin h0 hsh hge
      rw [BoundsMono]
      by_cases hb : bp = nodes.length - 1
      · rw [if_pos hb]
        exact ih start (List.pairwise_cons.mp hpw).2
          (fun b hm => hin b (List.mem_cons_of_mem bp hm)) h0 hsh
          (fun b hm hne => hge b (List.mem_cons_of_mem bp hm) hne)
      · rw [if_neg hb]
        have hbp : bp < nodes.length := hin bp (List.mem_cons_self bp rest)
        have hEq : boundOf nodes bp = boundOfP 0 nodes bp :=
          boundOf_eq_P 0 nodes bp (fun _ => hhead)
        refine ⟨h0, hge bp (List.mem_cons_self bp rest) hb,
          by rw [hEq]; exact (hfacts bp hbp).1.2, ?_⟩
        refine ih (boundOf nodes bp) (List.pairwise_cons.mp hpw).2
          (fun b hm => hin b (List.mem_cons_of_mem bp hm))
          (by rw [hEq]; exact (hfacts bp hbp).1.1)
          (by rw [hEq]; exact (hfacts bp hbp).1.2) ?_
        intro b hm hne
        have hlt : bp < b := List.rel_of_pairwise_cons hpw hm
        have hbl : b < nodes.length := hin b (List.mem_cons_of_mem bp hm)
        rw [hEq, boundOf_eq_P 0 nodes b (fun _ => hhead)]
        exact (hfacts bp hbp).2 b (le_of_lt hlt) hbl

theorem getNodes_boundsMono (isSpace : Char → Bool) (wOf : ℤ → ℤ → ℚ)
    (hp : ℚ) (syl : List (List Char)) (bs : List ℕ)
    (hasc : bs.Pairwise (· < ·))
    (hin : ∀ bp ∈ bs, bp < (getNodes isSpace wOf hp syl).length) :
    BoundsMono (getNodes isSpace wOf hp syl)
      ((syl.map List.length).sum : ℤ) bs 0 := by
  have hok : NodesOK (getNodes isSpace wOf hp syl) 0
      ((syl.map List.length).sum : ℤ) false := by
    rw [getNodes]
    exact getNodesGo_ok isSpace wOf hp syl 0 _ false (by omega)
  have hfacts := nodesOK_facts (getNodes isSpace wOf hp syl) 0
    ((syl.map List.length).sum : ℤ) false hok (by omega)
  have hhead := getNodes_head_ok isSpace wOf hp syl
  refine boundsMono_aux _ _ hfacts hhead bs 0 hasc hin le_rfl (by omega) ?_
  intro bp hm _
  rw [boundOf_eq_P 0 _ bp (fun _ => hhead)]
  exact (hfacts bp (hin bp hm)).1.1

end LB

namespace LB

/-- **C1**: for every paragraph (attributed string) with a syllable
decomposition of matching total length, every width measure, hyphen
penalty and whitespace class, and every ascending in-range list of
breakpoints over the paragraph's `getNodes` stream — which covers the
break positions `linebreaker` returns — the lines `breakLines` produces
reconstruct the original string: the raw (hyphen-free) line slices
concatenate in order to exactly the paragraph's text, no character lost
and none duplicated, and the actually returned lines differ from those
raw slices only by the single break-inserted hyphen appended to a
penalty-broken line. -/
theorem C1_reconstruction {α : Type} (a : AS.AttrString α)
    (isSpace : Char → Bool) (wOf : ℤ → ℤ → ℚ) (hp : ℚ)
    (syl : List (List Char))
    (hlen : (syl.map List.length).sum = a.string.length)
    (bs : List ℕ) (hasc : bs.Pairwise (· < ·))
    (hin : ∀ bp ∈ bs, bp < (getNodes isSpace wOf hp syl).length) :
    ((breakLinesGo id a (getNodes isSpace wOf hp syl) bs 0).map
        AS.AttrString.string).flatten = a.string ∧
      List.Forall₂ (fun l1 l2 =>
          AS.AttrString.string l1 = AS.AttrString.string l2 ∨
          AS.AttrString.string l1 = AS.AttrString.string l2 ++ [hyphenChar])
        (breakLines a (getNodes isSpace wOf hp syl) bs)
        (breakLinesGo id a (getNodes isSpace wOf hp syl) bs 0) := by
  constructor
  · by_cases hz : a.string.length = 0
    · rw [breakLinesGo_empty_string a hz (getNodes isSpace wOf hp syl) bs 0]
      exact (List.length_eq_zero.mp hz).symm
    · have hbm := getNodes_boundsMono isSpace wOf hp syl bs hasc hin
      rw [hlen] at hbm
      rw [breakLinesGo_join a hz (getNodes isSpace wOf hp syl) bs 0 hbm]
      exact AS.jsSlice_full a.string
  · exact breakLines_hyphen_rel a (getNodes isSpace wOf hp syl) bs 0

/-- Witness for C1: the three-character paragraph `"abc"` as one
syllable, broken at the final glue node (index 1 of its stream). -/
theorem C1_witness :
    ((breakLinesGo id AS.exampleAS
        (getNodes (fun _ => false) (fun _ _ => 0) 0 [['a','b','c']]) [1] 0).map
        AS.AttrString.string).flatten = AS.exampleAS.string ∧
      List.Forall₂ (fun l1 l2 =>
          AS.AttrString.string l1 = AS.AttrString.string l2 ∨
          AS.AttrString.string l1 = AS.AttrString.string l2 ++ [hyphenChar])
        (breakLines AS.exampleAS
          (getNodes (fun _ => false) (fun _ _ => 0) 0 [['a','b','c']]) [1])
        (breakLinesGo id AS.exampleAS
          (getNodes (fun _ => false) (fun _ _ => 0) 0 [['a','b','c']]) [1] 0) :=
  C1_reconstruction AS.exampleAS (fun _ => false) (fun _ _ => 0) 0
    [['a','b','c']] (by decide) [1] (by decide) (by decide)

end LB

namespace LB

open AS (AttrString)

theorem breakLines_runs_empty {α : Type} (a : AttrString α)
    (hz : a.string.length = 0) (hr : a.runs = []) (nodes : List LBNode) :
    ∀ (bs : List ℕ) (start : ℤ),
      ∀ l ∈ breakLinesGo hyphenAppend a nodes bs start, l.runs = [] := by
  intro bs
  induction bs with
  | nil =>
      intro start l hl
      rw [breakLinesGo] at hl
      simp only [List.mem_singleton] at hl
      subst hl
      rw [AS.sliceAS, if_pos hz]
      exact hr
  | cons bp rest ih =>
      intro start l hl
      rw [breakLinesGo] at hl
      by_cases hb : bp = nodes.length - 1
      · rw [if_pos hb] at hl
        exact ih start l hl
      · rw [if_neg hb] at hl
        rcases List.mem_cons.mp hl with h | h
        · subst h
          by_cases hp : isPenalty (nodes.getD bp default)
          · rw [if_pos hp, hyphenAppend]
            show (AS.sliceAS start (boundOf nodes bp) a).runs = []
            rw [AS.sliceAS, if_pos hz]
            exact hr
          · rw [if_neg hp]
            rw [AS.sliceAS, if_pos hz]
            exact hr
        · exact ih (boundOf nodes bp) l h

end LB

namespace Pipe

open AS (ASRun AttrString)
open Textkit (Rect)

theorem applyDefaultStyles_empty {α : Type} (defA : α → α) :
    applyDefaultStyles defA (AS.emptyAS (α := α)) = AS.emptyAS := rfl

theorem splitParagraphs_empty {α : Type} :
    splitParagraphs (AS.emptyAS (α := α)) = [AS.emptyAS] := by
  rw [splitParagraphs, splitParagraphsGo]
  norm_num [jsIndexOfFrom, idxFromGo, AS.emptyAS]

theorem preprocessRuns_empty {α : Type} (E : Engines α)
    (hSI : (E.eSI (AS.emptyAS (α := α))).runs = [])
    (hFS : (E.eFS (AS.emptyAS (α := α))).runs = [])
    (hBidi : (E.eBidi (AS.emptyAS (α := α))).runs = []) :
    preprocessRuns E (AS.emptyAS (α := α)) = AS.emptyAS := by
  rw [preprocessRuns, hSI, hFS, hBidi]
  rfl

theorem processParagraph_empty {α : Type} (E : Engines α)
    (hSI : (E.eSI (AS.emptyAS (α := α))).runs = [])
    (hFS : (E.eFS (AS.emptyAS (α := α))).runs = [])
    (hBidi : (E.eBidi (AS.emptyAS (α := α))).runs = []) :
    processParagraph E (AS.emptyAS (α := α)) = ⟨[], [], []⟩ := by
  rw [processParagraph, preprocessRuns_empty E hSI hFS hBidi]
  rfl

end Pipe

namespace Pipe

open AS (ASRun AttrString)
open Textkit (Rect)

theorem nAdd_none (x : Option ℚ) : nAdd none x = none := by
  cases x <;> rfl

theorem foldl_nAdd_none {α : Type} :
    ∀ (l : List (PLine α)),
      l.foldl (fun acc x => nAdd acc x.boxHeight) none = none := by
  intro l
  induction l with
  | nil => rfl
  | cons p rest ih =>
      rw [List.foldl_cons, nAdd_none]
      exact ih

theorem blockHeight_head_none {α : Type} (p : PLine α)
    (rest : List (PLine α)) (hp : p.boxHeight = none) :
    blockHeight (p :: rest) = none := by
  rw [blockHeight, List.foldl_cons, hp]
  exact foldl_nAdd_none rest

theorem sliceAtHeight_head_none {α : Type} (h : ℚ) (p : PLine α)
    (rest : List (PLine α)) (hp : p.boxHeight = none) :
    sliceAtHeight h (p :: rest) = [] := by
  rw [sliceAtHeight, sliceAtHeightGo]
  simp only [hp]
  rfl

theorem truncateBlock_nil {α : Type} (fontOf : α → Bool)
    (ellip : PLine α → PLine α) :
    truncateBlock fontOf ellip ([] : List (PLine α)) = [] := rfl

theorem purgeAttachments_boxHeight {α : Type} (om : α → α) (l : PLine α) :
    (purgeAttachments om l).boxHeight = l.boxHeight := by
  rw [purgeAttachments]
  by_cases hc : l.string.contains attachmentChar
  · rw [if_pos hc]
  · rw [if_neg hc]

theorem layoutLinesGo_boxHeight_none {α : Type} (hOf : ASRun α → ℚ)
    (lhOf : α → ℚ) (om : α → α) :
    ∀ (lines : List (AttrString α)), (∀ l ∈ lines, l.runs = []) →
      ∀ (rect : Rect) (rects : List Rect) (cy : Option ℚ) (ind : ℚ),
      ∀ pl ∈ layoutLinesGo hOf lhOf om lines rect rects cy ind,
        pl.boxHeight = none := by
  intro lines
  induction lines with
  | nil =>
      intro _ rect rects cy ind pl hpl
      simp [layoutLinesGo] at hpl
  | cons l ls ih =>
      intro hruns rect rects cy ind pl hpl
      have hl : l.runs = [] := hruns l (List.mem_cons_self l ls)
      simp only [layoutLinesGo] at hpl
      rcases List.mem_cons.mp hpl with h | h
      · subst h
        rw [purgeAttachments_boxHeight]
        show lineBoxHeight hOf lhOf l.runs = none
        rw [hl]
        rfl
      · exact ih (fun x hx => hruns x (List.mem_cons_of_mem l hx)) _ _ _ _ pl h

end Pipe

namespace Pipe

open AS (ASRun AttrString)
open Textkit (Rect)

theorem layoutParagraph_empty {α : Type} (E : Engines α) (c : Container)
    (hc : c.excludeRects = none) (fuel : ℕ) :
    ∃ ws, layoutParagraph E c (⟨[], [], []⟩ : Paragraph α) fuel =
      some (layoutLinesGo E.hOf E.lhOf E.omitAttach
        (E.lbE ⟨[], [], []⟩ ws) c.rect [] (some c.rect.y) 0) := by
  refine ⟨(c.rect.width - 0) :: [c.rect].map Rect.width, ?_⟩
  simp only [layoutParagraph]
  rw [generateLineRects, hc]
  rfl

theorem typesetterGo_empty_para {α : Type} (E : Engines α) (truncE : Bool)
    (fuel : ℕ)
    (hlb : ∀ (ws : List ℚ), ∀ l ∈ E.lbE (⟨[], [], []⟩ : Paragraph α) ws,
      l.runs = [])
    (c : Container) (hc : c.excludeRects = none) (lc : Option ℕ) :
    ∃ bs, typesetterGo E truncE fuel [(⟨[], [], []⟩ : Paragraph α)] lc c =
        some bs ∧ ∀ b ∈ bs, b = [] := by
  obtain ⟨ws, hlp⟩ := layoutParagraph_empty E c hc fuel
  have hall : ∀ pl ∈ layoutLinesGo E.hOf E.lhOf E.omitAttach
      (E.lbE ⟨[], [], []⟩ ws) c.rect [] (some c.rect.y) 0,
      pl.boxHeight = none :=
    layoutLinesGo_boxHeight_none E.hOf E.lhOf E.omitAttach
      (E.lbE ⟨[], [], []⟩ ws) (hlb ws) c.rect [] (some c.rect.y) 0
  rw [typesetterGo.eq_def]
  dsimp only
  rcases lc with _ | k
  · rw [if_pos rfl, hlp]
    cases hb : layoutLinesGo E.hOf E.lhOf E.omitAttach
        (E.lbE ⟨[], [], []⟩ ws) c.rect [] (some c.rect.y) 0 with
    | nil =>
        dsimp only
        by_cases hh : (0 : ℚ) ≤ c.height
        · rw [show blockHeight ([] : List (PLine α)) = some 0 from rfl]
          dsimp only
          rw [if_pos hh, typesetterGo.eq_def]
          dsimp only
          exact ⟨[[]], by simp, by simp⟩
        · rw [show blockHeight ([] : List (PLine α)) = some 0 from rfl]
          dsimp only
          rw [if_neg hh]
          refine ⟨[truncateBlock E.fontOf E.ellip
            (sliceAtHeight c.height [])], rfl, ?_⟩
          intro b hbm
          simp only [List.mem_singleton] at hbm
          subst hbm
          rfl
    | cons p rest =>
        have hp : p.boxHeight = none := hall p (hb ▸ List.mem_cons_self p rest)
        dsimp only
        rw [blockHeight_head_none p rest hp]
        refine ⟨[truncateBlock E.fontOf E.ellip
          (sliceAtHeight c.height (p :: rest))], rfl, ?_⟩
        rw [sliceAtHeight_head_none c.height p rest hp, truncateBlock_nil]
        simp
  · rcases k with _ | k
    · rw [if_neg (by simp)]
      exact ⟨[], rfl, by simp⟩
    · rw [if_pos (by simp), hlp]
      cases hb : layoutLinesGo E.hOf E.lhOf E.omitAttach
          (E.lbE ⟨[], [], []⟩ ws) c.rect [] (some c.rect.y) 0 with
      | nil =>
          dsimp only
          simp only [List.take_nil]
          by_cases hh : (0 : ℚ) ≤ c.height
          · rw [show blockHeight ([] : List (PLine α)) = some 0 from rfl]
            dsimp only
            rw [if_pos hh, typesetterGo.eq_def]
            dsimp only
            exact ⟨[[]], by simp, by simp⟩
          · rw [show blockHeight ([] : List (PLine α)) = some 0 from rfl]
            dsimp only
            rw [if_neg hh]
            refine ⟨[truncateBlock E.fontOf E.ellip
              (sliceAtHeight c.height [])], rfl, ?_⟩
            intro b hbm
            simp only [List.mem_singleton] at hbm
            subst hbm
            rfl
      | cons p rest =>
          have hp : p.boxHeight = none :=
            hall p (hb ▸ List.mem_cons_self p rest)
          dsimp only
          simp only [List.take_succ_cons]
          rw [blockHeight_head_none p (rest.take k) hp]
          refine ⟨[truncateBlock E.fontOf E.ellip
            (sliceAtHeight c.height (p :: rest.take k))], rfl, ?_⟩
          rw [sliceAtHeight_head_none c.height p (rest.take k) hp,
            truncateBlock_nil]
          simp

end Pipe

namespace Pipe

open AS (ASRun AttrString)
open Textkit (Rect)

theorem layoutEngineRun_empty {α : Type} (E : Engines α)
    (hSI : (E.eSI (AS.emptyAS (α := α))).runs = [])
    (hFS : (E.eFS (AS.emptyAS (α := α))).runs = [])
    (hBidi : (E.eBidi (AS.emptyAS (α := α))).runs = [])
    (hlb : ∀ (ws : List ℚ), ∀ l ∈ E.lbE (⟨[], [], []⟩ : Paragraph α) ws,
      l.runs = [])
    (c : Container) (hc : c.excludeRects = none) (fuel : ℕ) :
    ∃ bs, layoutEngineRun E (AS.emptyAS (α := α)) c fuel = some bs ∧
      ∀ b ∈ bs, b = [] := by
  obtain ⟨bs, hbs, hall⟩ :=
    typesetterGo_empty_para E c.truncateEllipsis fuel hlb c hc c.maxLines
  simp only [layoutEngineRun, applyDefaultStyles_empty, splitParagraphs_empty,
    List.map_cons, List.map_nil, processParagraph_empty E hSI hFS hBidi,
    typesetter, hbs]
  refine ⟨_, rfl, ?_⟩
  intro b hb
  simp only [finalizeFragments, bidiReordering, List.map_map,
    List.mem_map] at hb
  obtain ⟨b0, hb0, rfl⟩ := hb
  rw [hall b0 hb0]
  rfl

theorem glrGo_stuck (ex : List Rect) (maxY : ℚ) :
    ∀ (fuel : ℕ) (r : Rect), r.y < maxY → ∀ (acc : List Rect),
      glrGo ex 0 maxY fuel acc r = none := by
  intro fuel
  induction fuel with
  | zero =>
      intro r hy acc
      rw [glrGo, if_pos hy]
  | succ n ih =>
      intro r hy acc
      rw [glrGo, if_pos hy]
      exact ih _ (by simpa [partitionR] using hy) _

theorem layoutEngineRun_excl_stuck {α : Type} (E : Engines α)
    (hSI : (E.eSI (AS.emptyAS (α := α))).runs = [])
    (hFS : (E.eFS (AS.emptyAS (α := α))).runs = [])
    (hBidi : (E.eBidi (AS.emptyAS (α := α))).runs = []) :
    ∀ (fuel : ℕ),
      layoutEngineRun E (AS.emptyAS (α := α)) exContainerEx fuel = none := by
  intro fuel
  have hglr : generateLineRects exContainerEx
      (asHeight E.hOf ([] : List (ASRun α))) fuel = none := by
    rw [generateLineRects]
    show glrGo _ _ _ fuel [] _ = none
    have h0 : asHeight E.hOf ([] : List (ASRun α)) = 0 := rfl
    rw [h0]
    apply glrGo_stuck
    show (0 : ℚ) < (0 : ℚ) + 10
    norm_num
  have hlp : layoutParagraph E exContainerEx (⟨[], [], []⟩ : Paragraph α)
      fuel = none := by
    simp only [layoutParagraph]
    rw [hglr]
  simp only [layoutEngineRun, applyDefaultStyles_empty, splitParagraphs_empty,
    List.map_cons, List.map_nil, processParagraph_empty E hSI hFS hBidi,
    typesetter]
  rw [typesetterGo.eq_def]
  dsimp only
  have hg : (match exContainerEx.maxLines with
      | none => true | some k => decide (0 < k)) = true := rfl
  rw [if_pos hg, hlp]

end Pipe

namespace Textkit

/-- **C9** (amended): `slice`, `trim` and `flatten` applied to the empty
attributed string (empty text, zero runs) return a defined empty result,
and the full layout pipeline (`layoutEngine`, with its external engines
as parameters that return no runs on the empty string and a linebreaker
whose lines on the empty paragraph carry no runs) applied to it inside a
container without exclusion rects returns a defined result all of whose
paragraph blocks are empty; `append` is also total on it, but by design
does not return an empty result: it returns the appended glyph's code
points as the new text (non-empty whenever the glyph has code points)
inside a single fresh run, and even appending a falsy value yields one
empty run rather than zero runs. -/
theorem C9_amended {α : Type} (i j : ℤ) (isSpace : Char → Bool)
    (m : α → α → α) (e : α) (upem : ℕ → Option ℚ) (g : Glyph)
    (hg : g.codePoints ≠ [])
    (E : Pipe.Engines α) (c : Pipe.Container) (fuel : ℕ)
    (hSI : (E.eSI (AS.emptyAS (α := α))).runs = [])
    (hFS : (E.eFS (AS.emptyAS (α := α))).runs = [])
    (hBidi : (E.eBidi (AS.emptyAS (α := α))).runs = [])
    (hlb : ∀ (ws : List ℚ),
      ∀ l ∈ E.lbE (⟨[], [], []⟩ : Pipe.Paragraph α) ws, l.runs = [])
    (hc : c.excludeRects = none) :
    AS.sliceAS i j (AS.emptyAS (α := α)) = AS.emptyAS ∧
      AS.trimAS isSpace (AS.emptyAS (α := α)) = AS.emptyAS ∧
      Flatten.flatten m e ([] : List (AS.ASRun α)) = [] ∧
      (∃ bs, Pipe.layoutEngineRun E (AS.emptyAS (α := α)) c fuel = some bs ∧
        ∀ b ∈ bs, b = []) ∧
      (appendAS upem (some g) emptyTAS).string = cpString g.codePoints ∧
      (appendAS upem (some g) emptyTAS).string ≠ [] ∧
      (appendAS upem none emptyTAS).runs = [emptyRun] := by
  refine ⟨?_, ?_, ?_, ?_, ?_, ?_, ?_⟩
  · rfl
  · rfl
  · rfl
  · exact Pipe.layoutEngineRun_empty E hSI hFS hBidi hlb c hc fuel
  · simp [appendAS, emptyTAS]
  · simp only [appendAS, emptyTAS, List.nil_append, ne_eq]
    rw [cpString]
    simp [hg]
  · simp [appendAS, emptyTAS, appendRun]

/-- Witness for **C9**: the amended theorem at concrete arguments — the
one-character glyph `'a'`, trivial font table, right-biased merge,
identity engine bundle with the library's own embedded linebreaker, and
the 100×100 container without exclusion rects. -/
theorem C9_amended_witness :
    AS.sliceAS 0 5 (AS.emptyAS (α := ℕ)) = AS.emptyAS ∧
      AS.trimAS (fun c => decide (c = ' ')) (AS.emptyAS (α := ℕ)) = AS.emptyAS ∧
      Flatten.flatten (fun _ b => b) 0 ([] : List (AS.ASRun ℕ)) = [] ∧
      (∃ bs, Pipe.layoutEngineRun Pipe.exEngines (AS.emptyAS (α := ℕ))
          Pipe.exContainer 0 = some bs ∧ ∀ b ∈ bs, b = []) ∧
      (appendAS (fun _ => none) (some glyphA) emptyTAS).string =
        cpString glyphA.codePoints ∧
      (appendAS (fun _ => none) (some glyphA) emptyTAS).string ≠ [] ∧
      (appendAS (fun _ => none) none emptyTAS).runs = [emptyRun] :=
  C9_amended 0 5 (fun c => decide (c = ' ')) (fun _ b => b) 0 (fun _ => none)
    glyphA (by simp [glyphA]) Pipe.exEngines Pipe.exContainer 0 rfl rfl rfl
    (by
      intro ws l hl
      exact LB.breakLines_runs_empty ⟨[], []⟩ rfl rfl _ _ _ l hl)
    rfl

end Textkit
